import Mathlib

/-!
OpusPlayer: the streaming callback, the start-up checks and the tag parser of `main.c`.

A shallow embedding of `streamCallback`, of the start of `main` and of `parseTags` of
`src/main.c`, with the properties of the specification stated over it.

Conventions of the embedding.

* C `int`, `ogg_int64_t` and `char` values are `Int`.  The counters of the callback stay
  far below `2^31` in every run the theorems speak about, so no wrap-around is modelled.
* `opus_int16` buffers are lists of samples (`List Int`), byte buffers are lists of
  bytes (`List Nat`).  A buffer's capacity is the length of its list.
* An access outside a buffer is undefined behaviour in C; here it ends the run with
  `Run.outOfBounds`.
* The decoder (libopusfile) is external.  Its handle is the list of the replies it will give
  to the coming `op_read` / `op_read_stereo` calls; a call the list has no reply for ends
  the run with `Run.starved`.
* The character arrays of `parseTags` are lists of characters (`List Char`).  A write outside
  an array ends the run with `Outcome.overflow`, which names the array and the index, and a
  read of the unassigned `endPos` ends it with `Outcome.uninitialised`.
-/

namespace OpusPlayer

/-! ## Constants of `main.c` -/

def DECODE_BUFFER_SIZE : Int := 23040
def SOURCE_BUFFER_SIZE : Int := 32768
/-- Largest volume of SDL's mixer (`SDL_audio.h`). -/
def SDL_MIX_MAXVOLUME : Int := 128

/-! ## Outcomes of a run -/

/-- Outcome of running a piece of the program. -/
inductive Run (α : Type) where
  /-- The code ran to its end. -/
  | ok (a : α)
  /-- The code accessed memory outside one of its buffers. -/
  | outOfBounds
  /-- The code called the decoder and the script of replies was used up. -/
  | starved
deriving DecidableEq

/-! ## The decoder -/

/-- One reply of the decoder to `op_read` / `op_read_stereo`. -/
structure Chunk where
  /-- The return value: frames decoded per channel, or a negative error code. -/
  decRes : Int
  /-- The contents of `decodeBuffer` when the call returns (the decoded samples first). -/
  pcm : List Int
  /-- What `op_pcm_tell` reports after the call. -/
  pos : Int
deriving DecidableEq

/-- The decoder handle `OggOpusFile*`: the replies still to come. -/
abbrev OggOpusFile := List Chunk

/-! ## The session -/

/-- The `App` structure of `main.c` (the decoder handle is threaded separately). -/
structure App where
  format : Nat
  pcmTotal : Int
  pcmPos : Int
  sourceBuffer : List Int
  decodeBuffer : List Int
  samples : Int
  savedOffset : Int
  preSamples : Int
  channels : Int
  volume : Int
  endReached : Int
  closeOnNextTick : Int
  shouldClose : Int
deriving DecidableEq

/-! ## Memory primitives -/

/-- The two bytes of an `opus_int16` in memory (two's complement, low byte first). -/
def bytes16 (v : Int) : List Nat := [(v % 256).toNat, ((v / 256) % 256).toNat]

/-- The bytes of a buffer of `opus_int16`, as `(Uint8*) buffer` sees them. -/
def bytesOf : List Int → List Nat
  | [] => []
  | v :: vs => bytes16 v ++ bytesOf vs

/-- Read `buf[i]`. -/
def readAt (buf : List Int) (i : Int) : Option Int :=
  if 0 ≤ i then buf[i.toNat]? else none

/-- Perform `buf[i] = v`. -/
def writeAt (buf : List Int) (i : Int) (v : Int) : Option (List Int) :=
  if 0 ≤ i ∧ i < buf.length then some (buf.set i.toNat v) else none

/-- Perform `memset(s, c, n)` on a byte buffer. -/
def memset (s : List Nat) (c : Nat) (n : Int) : Option (List Nat) :=
  if 0 ≤ n ∧ n ≤ s.length then some (List.replicate n.toNat c ++ s.drop n.toNat) else none

/-- Perform `memcpy(dst + off, src, 2 * n)` between two `opus_int16` buffers:
`n` samples of `src` go to `dst[off ..]`. -/
def memcpy16 (dst : List Int) (off : Int) (src : List Int) (n : Int) : Option (List Int) :=
  if 0 ≤ off ∧ 0 ≤ n ∧ n ≤ src.length ∧ off + n ≤ dst.length then
    some (dst.take off.toNat ++ src.take n.toNat ++ dst.drop (off.toNat + n.toNat))
  else none

/-- Perform `memcpy(stream, src, n)` where `src` is an `opus_int16` buffer and `n` counts bytes. -/
def memcpyBytes (stream : List Nat) (src : List Int) (n : Int) : Option (List Nat) :=
  if 0 ≤ n ∧ n ≤ (bytesOf src).length ∧ n ≤ stream.length then
    some ((bytesOf src).take n.toNat ++ stream.drop n.toNat)
  else none

/-- The sample arithmetic of SDL's mixer, which is external: byte `i` of the mixed region,
computed from the destination region, the source region, the format and the volume. -/
abbrev Mixer := List Nat → List Nat → Nat → Int → Nat → Nat

/-- The call `SDL_MixAudioFormat(dst, src, format, len, volume)`: the first `len` bytes of
`dst` are replaced by the mix of the first `len` bytes of both buffers. -/
def SDL_MixAudioFormat (mixer : Mixer) (dst src : List Nat) (format : Nat) (len : Int)
    (volume : Int) : Option (List Nat) :=
  if 0 ≤ len ∧ len ≤ src.length ∧ len ≤ dst.length then
    some ((List.range len.toNat).map
        (fun i => mixer (dst.take len.toNat) (src.take len.toNat) format volume i)
      ++ dst.drop len.toNat)
  else none

/-! ## `streamCallback` -/

/-- The mono branch, lines 224-230: `n` more rounds of
`sourceBuffer[q] = decodeBuffer[s]; sourceBuffer[q+1] = decodeBuffer[s]; q += 2; s++`. -/
def dupLoop (decodeBuffer : List Int) : Nat → Int → Int → List Int → Option (List Int)
  | 0, _, _, sourceBuffer => some sourceBuffer
  | n + 1, s, q, sourceBuffer =>
    match readAt decodeBuffer s with
    | none => none
    | some v =>
      match writeAt sourceBuffer q v with
      | none => none
      | some sb1 =>
        match writeAt sb1 (q + 1) v with
        | none => none
        | some sb2 => dupLoop decodeBuffer n (s + 1) (q + 2) sb2

/-- The carry shift, lines 256-258: `n` more rounds of
`sourceBuffer[i] = sourceBuffer[len / 2 + i]; i++`. -/
def shiftLoop (len : Int) : Nat → Int → List Int → Option (List Int)
  | 0, _, sourceBuffer => some sourceBuffer
  | n + 1, i, sourceBuffer =>
    match readAt sourceBuffer (len.tdiv 2 + i) with
    | none => none
    | some v =>
      match writeAt sourceBuffer i v with
      | none => none
      | some sb => shiftLoop len n (i + 1) sb

/-- How the `while` loop of lines 208-239 is left. -/
inductive LoopExit where
  /-- By the `return` of line 219 (decode error). -/
  | returned (app : App) (handle : OggOpusFile)
  /-- By its condition or by the `break` of line 237, with the value of `samplesRead`. -/
  | fellThrough (app : App) (handle : OggOpusFile) (samplesRead : Int)
deriving DecidableEq

/-- Lines 221-231: the chunk in `decodeBuffer` goes to `sourceBuffer` at byte offset
`bufferOffset`, copied for a stereo source and expanded for a mono one. -/
def storeChunk (app : App) (bufferOffset decRes : Int) : Option (List Int) :=
  if app.channels > 1 then
    -- `decRes * 4` bytes are `decRes * 2` samples
    memcpy16 app.sourceBuffer (bufferOffset.tdiv 2) app.decodeBuffer (decRes * 2)
  else
    dupLoop app.decodeBuffer decRes.toNat 0 (bufferOffset.tdiv 2) app.sourceBuffer

/-- The `while(samplesRead < app->samples)` loop, lines 208-239. -/
def pullLoop : OggOpusFile → App → Int → Int → Run LoopExit
  | [], app, samplesRead, _ =>
    if samplesRead < app.samples then .starved else .ok (.fellThrough app [] samplesRead)
  | c :: rest, app, samplesRead, bufferOffset =>
    if samplesRead < app.samples then
      -- `op_read_stereo` / `op_read`: the decoder fills `decodeBuffer` and returns `decRes`
      let decRes := c.decRes
      let app : App := { app with decodeBuffer := c.pcm }
      let samplesRead := samplesRead + decRes
      if decRes < 0 then
        .ok (.returned { app with shouldClose := 1 } rest)
      else
        match storeChunk app bufferOffset decRes with
        | none => .outOfBounds
        | some sb =>
          let app : App := { app with sourceBuffer := sb }
          let bufferOffset := bufferOffset + decRes * 4
          let app : App := { app with pcmPos := c.pos }
          if app.pcmPos = app.pcmTotal then
            .ok (.fellThrough { app with endReached := 1, preSamples := 0 } rest samplesRead)
          else
            pullLoop rest app samplesRead bufferOffset
    else .ok (.fellThrough app (c :: rest) samplesRead)

/-- Lines 240-260: what follows the loop. -/
def deliver (mixer : Mixer) (app : App) (samplesRead : Int) (stream : List Nat) (len : Int) :
    Run (App × List Nat) :=
  let app : App := if samplesRead > app.samples
    then { app with preSamples := samplesRead - app.samples } else app
  let bytes := samplesRead * 4
  let min := if len < bytes then len else bytes
  let written :=
    if app.volume = 0 then memcpyBytes stream app.sourceBuffer min
    else SDL_MixAudioFormat mixer stream (bytesOf app.sourceBuffer) app.format min app.volume
  match written with
  | none => .outOfBounds
  | some stream =>
    if len < bytes then
      let elems := (bytes - len).tdiv 2
      match shiftLoop len elems.toNat 0 app.sourceBuffer with
      | none => .outOfBounds
      | some sb => .ok ({ app with sourceBuffer := sb, savedOffset := elems * 2 }, stream)
    else .ok (app, stream)

/-- The function `streamCallback(uData, stream, len)`: the session, the decoder handle and the
output region after the call. -/
def streamCallback (mixer : Mixer) (app : App) (handle : OggOpusFile) (stream : List Nat)
    (len : Int) : Run (App × OggOpusFile × List Nat) :=
  match memset stream 0 len with
  | none => .outOfBounds
  | some stream =>
    if app.endReached ≠ 0 then
      .ok ({ app with closeOnNextTick := 1 }, handle, stream)
    else
      let samplesRead := app.preSamples
      let app : App := { app with preSamples := 0 }
      let bufferOffset := app.savedOffset
      let app : App := { app with savedOffset := 0 }
      match pullLoop handle app samplesRead bufferOffset with
      | .outOfBounds => .outOfBounds
      | .starved => .starved
      | .ok (.returned app handle) => .ok (app, handle, stream)
      | .ok (.fellThrough app handle samplesRead) =>
        match deliver mixer app samplesRead stream len with
        | .outOfBounds => .outOfBounds
        | .starved => .starved
        | .ok (app, stream) => .ok (app, handle, stream)

/-- Successive invocations of `streamCallback`, one for each output region the sink hands
in; the result holds the regions after the calls, concatenated. -/
def playback (mixer : Mixer) (len : Int) :
    List (List Nat) → App → OggOpusFile → Run (App × OggOpusFile × List Nat)
  | [], app, handle => .ok (app, handle, [])
  | stream :: more, app, handle =>
    match streamCallback mixer app handle stream len with
    | .outOfBounds => .outOfBounds
    | .starved => .starved
    | .ok (app, handle, out) =>
      match playback mixer len more app handle with
      | .outOfBounds => .outOfBounds
      | .starved => .starved
      | .ok (app, handle, outs) => .ok (app, handle, out ++ outs)

/-- The number of bytes an invocation takes from the working buffer for the sink: `min` of
line 244, and 0 for an invocation that returns before line 244. -/
def audioBytes (app : App) (handle : OggOpusFile) (len : Int) : Run Int :=
  if app.endReached ≠ 0 then .ok 0
  else
    match pullLoop handle { app with preSamples := 0, savedOffset := 0 }
        app.preSamples app.savedOffset with
    | .outOfBounds => .outOfBounds
    | .starved => .starved
    | .ok (.returned _ _) => .ok 0
    | .ok (.fellThrough _ _ samplesRead) =>
      .ok (if len < samplesRead * 4 then len else samplesRead * 4)

/-- What lines 245-251 leave in a region of zeros that is as long as `audio`, the bytes taken
from the working buffer: the bytes themselves when the volume is 0 (`memcpy`), and else, byte
by byte, what the mixer of SDL makes of the zeros and `audio` (`SDL_MixAudioFormat`). -/
def sinkBytes (mixer : Mixer) (format : Nat) (volume : Int) (audio : List Nat) : List Nat :=
  if volume = 0 then audio
  else (List.range audio.length).map
    (fun i => mixer (List.replicate audio.length 0) audio format volume i)

/-! ## The option loop of `main` -/

/-- The call `strtol(s, &volumeEnd, 10)` of libc with its result stored in an `int`: the
value, and the rest of `s` that `volumeEnd` points at. External. -/
abbrev Strtol := String → Int × String

/-- The product `1.28f * userVolume` stored back in an `int` (line 68). Floating point,
external. -/
abbrev Scale := Int → Int

/-- How lines 51-86 of `main` end. -/
inductive Startup where
  /-- With `return code`. -/
  | exit (code : Int)
  /-- By going on to `SDL_Init`, with these values of `userVolume` and `argIndex`. -/
  | proceed (userVolume argIndex : Int)
deriving DecidableEq

/-- The `for` loop of lines 59-82 over the arguments `argv[a], argv[a+1], ...` that are left. -/
def optionLoop (strtol : Strtol) (scale : Scale) : List String → Int → Int → Startup
  | [], userVolume, argIndex => .proceed userVolume argIndex
  | [arg], userVolume, argIndex =>
    if arg = "-volume" then
      -- `argc > a + 1` fails
      .exit 1
    else .proceed userVolume argIndex
  | arg :: value :: more, userVolume, argIndex =>
    if arg = "-volume" then
      let parsed := strtol value
      if parsed.2 ≠ "" then
        -- `*volumeEnd != 0`
        .exit 1
      else
        let userVolume := scale parsed.1
        let userVolume := if userVolume > SDL_MIX_MAXVOLUME then SDL_MIX_MAXVOLUME else userVolume
        let userVolume := if userVolume < 1 then 1 else userVolume
        -- `a++; argIndex += 2`
        optionLoop strtol scale more userVolume (argIndex + 2)
    else optionLoop strtol scale (value :: more) userVolume argIndex

/-- Lines 51-86 of `main`: the argument checks in front of `SDL_Init`. -/
def mainOptions (strtol : Strtol) (scale : Scale) (argv : List String) : Startup :=
  if argv.length < 2 then .exit 1
  else
    match optionLoop strtol scale (argv.drop 1) 0 1 with
    | .exit code => .exit code
    | .proceed userVolume argIndex =>
      if argIndex ≥ argv.length then .exit 1 else .proceed userVolume argIndex

/-- Stereo expansion of mono samples: every sample becomes a left/right pair of itself. -/
def dupStereo : List Int → List Int
  | [] => []
  | v :: vs => v :: v :: dupStereo vs

/-- The interleaved stereo samples one decoder reply contributes to the stream. -/
def chunkStereo (channels : Int) (c : Chunk) : List Int :=
  if channels > 1 then c.pcm.take (c.decRes * 2).toNat else dupStereo (c.pcm.take c.decRes.toNat)

/-- The stereo-expanded decoded stream: the contributions of the replies, in order. -/
def decodedStream (channels : Int) : List Chunk → List Int
  | [] => []
  | c :: cs => chunkStereo channels c ++ decodedStream channels cs

/-- The frames a list of replies yields. -/
def framesOf : List Chunk → Int
  | [] => 0
  | c :: cs => c.decRes + framesOf cs

/-- The session fields that are fixed when playback starts. -/
def SameConfig (a b : App) : Prop :=
  b.format = a.format ∧ b.pcmTotal = a.pcmTotal ∧ b.samples = a.samples ∧
    b.channels = a.channels ∧ b.volume = a.volume

/-- The decoded samples of a reply lie inside the decode buffer. -/
def chunkFits (channels : Int) (c : Chunk) : Prop :=
  if channels > 1 then c.decRes * 2 ≤ c.pcm.length else c.decRes ≤ c.pcm.length

instance (channels : Int) (c : Chunk) : Decidable (chunkFits channels c) := by
  unfold chunkFits
  infer_instance

/-- The loop of lines 208-239, in a session with these `samples`, `pcmTotal` and `channels`
and entered with `samplesRead = sr`, pulls exactly the replies `cs`, none of them an error or
the end of the stream, and is then left by its condition. -/
def PullsAll (samples pcmTotal channels : Int) : Int → List Chunk → Prop
  | sr, [] => samples ≤ sr
  | sr, c :: cs =>
    sr < samples ∧ 0 ≤ c.decRes ∧ c.pos ≠ pcmTotal ∧ chunkFits channels c ∧
      PullsAll samples pcmTotal channels (sr + c.decRes) cs

/-- The loop of lines 208-239, entered with `samplesRead = sr`, pulls exactly the replies
`cs` and is left by the `break` of line 237: the last of them, and only that one, leaves the
decoder position at `pcmTotal`. -/
def PullsToEnd (samples pcmTotal channels : Int) : Int → List Chunk → Prop
  | _, [] => False
  | sr, c :: cs =>
    sr < samples ∧ 0 ≤ c.decRes ∧ chunkFits channels c ∧
      ((c.pos = pcmTotal ∧ cs = []) ∨
        (c.pos ≠ pcmTotal ∧ PullsToEnd samples pcmTotal channels (sr + c.decRes) cs))

/-- The carry of a session is consistent: `savedOffset` is the byte size of `preSamples`
frames, and those frames lie inside the working buffer. -/
def CarryOk (app : App) : Prop :=
  0 ≤ app.preSamples ∧ app.savedOffset = 4 * app.preSamples ∧
    2 * app.preSamples ≤ app.sourceBuffer.length

/-! ## Sample data for the worked instances -/

/-- A mixer that silences everything (any function will do where passthrough is used). -/
def muteMixer : Mixer := fun _ _ _ _ _ => 0

/-- A freshly zeroed session (`memset(&app, 0, sizeof(app))`) with its configuration filled
in and a working buffer of `capacity` samples. -/
def freshApp (samples channels pcmTotal volume : Int) (capacity : Nat) : App :=
  { format := 0, pcmTotal := pcmTotal, pcmPos := 0,
    sourceBuffer := List.replicate capacity 0, decodeBuffer := [],
    samples := samples, savedOffset := 0, preSamples := 0, channels := channels,
    volume := volume, endReached := 0, closeOnNextTick := 0, shouldClose := 0 }

/-- A session in the middle of a stream of 5 frames: requests of 4 frames, one frame
`(5, 6)` carried over from the invocation before. -/
def carrySession : App :=
  { freshApp 4 2 5 0 16 with
    sourceBuffer := [5, 6, 0, 0, 0, 0, 0, 0, 0, 0, 0, 0, 0, 0, 0, 0],
    preSamples := 1, savedOffset := 4 }

/-- A session of a stream of 3 frames played with requests of 2 frames, after its first
invocation: the only reply held all 3 frames, so the end was reached with one frame `(5, 6)`
more than requested. -/
def overshotSession : App :=
  { freshApp 2 2 3 0 8 with
    sourceBuffer := [5, 6, 3, 4, 5, 6, 0, 0], decodeBuffer := [1, 2, 3, 4, 5, 6], pcmPos := 3,
    savedOffset := 4, preSamples := 1, endReached := 1 }

/-- The session `main` sets up for a stereo stream: 4096 frames a request, a working buffer
of `SOURCE_BUFFER_SIZE` bytes (16384 samples), passthrough volume. -/
def sdlSession : App := freshApp 4096 2 1000000 0 16384

/-- An output region of 16384 bytes, as the sink hands it in. -/
def sinkRegion : List Nat := List.replicate 16384 0

/-- A decoder reply of `frames` stereo frames of silence that leaves the position at `pos`. -/
def stereoReply (frames : Nat) (pos : Int) : Chunk :=
  ⟨frames, List.replicate (2 * frames) 0, pos⟩

/-- The session `main` sets up for a stereo stream of 4800 frames (a tenth of a second). -/
def shortSession : App := freshApp 4096 2 4800 0 16384

/-- A decimal parser that stands in for `strtol` in the worked instances: the value of the
leading digits, and what follows them. -/
def digitsStrtol : Strtol := fun s =>
  let digits := s.data.takeWhile Char.isDigit
  if digits = [] then (0, s)
  else (digits.foldl (fun n c => 10 * n + ((c.toNat : Int) - 48)) 0,
    String.mk (s.data.dropWhile Char.isDigit))

/-- Integer arithmetic that stands in for `1.28f * userVolume` in the worked instances. -/
def percentScale : Scale := fun n => (128 * n).tdiv 100

/-- The replies left to the decoder when the loop is left. -/
def LoopExit.handle : LoopExit → OggOpusFile
  | .returned _ handle => handle
  | .fellThrough _ handle _ => handle

/-- The calls into SDL that `main` makes up to line 108. -/
inductive Event where
  | SDL_Init
  | SDL_OpenAudioDevice
  | SDL_Quit
deriving DecidableEq

/-- Lines 51-108 of `main`: the exit code when `main` returns there (`none` when it goes on to
open the file) and the SDL calls made, in order. `sdlInit` is what `SDL_Init` returns and
`deviceID` what `SDL_OpenAudioDevice` returns. On a failed open `freeMemory` finds every
pointer of the zeroed `app` null and the device id 0, and calls `SDL_Quit` only. -/
def mainUntilDevice (strtol : Strtol) (scale : Scale) (sdlInit : Int) (deviceID : Nat)
    (argv : List String) : Option Int × List Event :=
  match mainOptions strtol scale argv with
  | .exit code => (some code, [])
  | .proceed _ _ =>
    if sdlInit < 0 then (some 1, [.SDL_Init])
    else if deviceID = 0 then (some 1, [.SDL_Init, .SDL_OpenAudioDevice, .SDL_Quit])
    else (none, [.SDL_Init, .SDL_OpenAudioDevice])

/-! ## `parseTags` -/

def MAX_TAG_KEY_SIZE : Nat := 40
def MAX_TAG_VALUE_SIZE : Nat := 200
def TAG_ARTIST_SIZE : Nat := 80
def TAG_TITLE_SIZE : Nat := 200
def TAG_ALBUM_SIZE : Nat := 80
def TAG_DATE_SIZE : Nat := 16
def NOW_PLAYING_STR_SIZE : Nat := 400

/-- The character that ends a C string. -/
def NUL : Char := Char.ofNat 0

/-- The arrays that `parseTags` writes. An array is the list of its characters, and its
capacity is the length of the list. -/
inductive Buffer where
  | key | value | artist | title | album | date | nowPlayingStr
deriving DecidableEq

/-- How a run of `parseTags` ends: with a result, with a write at an index outside an array,
or with a read of a variable that was never assigned. The last two are undefined in C. -/
inductive Outcome (α : Type) where
  | ok (a : α)
  | overflow (buffer : Buffer) (index : Int)
  | uninitialised
deriving DecidableEq

/-- Sequencing: the first undefined step ends the run. -/
def Outcome.bind {α β : Type} : Outcome α → (α → Outcome β) → Outcome β
  | .ok a, f => f a
  | .overflow buffer index, _ => .overflow buffer index
  | .uninitialised, _ => .uninitialised

/-- The C string that starts at the head of `s`: its characters in front of the first `NUL`.
The end of the list stands for the terminator that follows a comment. -/
def cstr (s : List Char) : List Char := s.takeWhile (fun c => c ≠ NUL)

/-- The assignment `buf[i] = c`. -/
def storeChar (buffer : Buffer) (buf : List Char) (i : Int) (c : Char) : Outcome (List Char) :=
  if 0 ≤ i ∧ i < buf.length then .ok (buf.set i.toNat c) else .overflow buffer i

/-- The call `strncpy(dst, src, n)` of libc: exactly `n` characters are written to the front of
`dst`, those of the C string `src` and then `NUL`s. -/
def strncpy (buffer : Buffer) (dst src : List Char) (n : Int) : Outcome (List Char) :=
  if 0 ≤ n ∧ n ≤ dst.length then
    .ok ((cstr src).take n.toNat ++ List.replicate (n.toNat - (cstr src).length) NUL
      ++ dst.drop n.toNat)
  else .overflow buffer dst.length

/-- The call `sprintf(nowPlayingStr + p, ...)` that prints `text`: the text and a `NUL` are
written from index `p` on, and the number of characters of the text is returned. -/
def sprintf (buf : List Char) (p : Int) (text : List Char) : Outcome (List Char × Int) :=
  if 0 ≤ p ∧ p + text.length + 1 ≤ buf.length then
    .ok (buf.take p.toNat ++ text ++ NUL :: buf.drop (p.toNat + text.length + 1), text.length)
  else .overflow .nowPlayingStr (max p buf.length)

/-- The local arrays of `parseTags`. -/
structure TagBuffers where
  key : List Char
  value : List Char
  artist : List Char
  title : List Char
  album : List Char
  date : List Char

/-- The loop of lines 283-288 over the characters of a comment that are left: the value of
`delimerOffset` at its end. -/
def delimiterLoop : List Char → Int → Int
  | [], delimerOffset => delimerOffset
  | c :: rest, delimerOffset =>
    if c = '=' then delimerOffset else delimiterLoop rest (delimerOffset + 1)

/-- Lines 300-311, for one of the four fields: `if(strcmp(key, name) == 0) strncpy(field,
value, size - 1)`. -/
def copyField (buffer : Buffer) (key : List Char) (name : String) (field value : List Char)
    (size : Nat) : Outcome (List Char) :=
  if cstr key = name.data then strncpy buffer field value ((size : Int) - 1) else .ok field

/-- The body of the loop of lines 278-312 for one comment. The comment is the list of its
`comment_lengths[i]` characters. -/
def parseComment (b : TagBuffers) (comment : List Char) : Outcome TagBuffers :=
  if (comment.length : Int) > MAX_TAG_KEY_SIZE + MAX_TAG_VALUE_SIZE then .ok b
  else
    let delimerOffset : Int := delimiterLoop comment 0
    if delimerOffset = 0 ∨ delimerOffset > MAX_TAG_KEY_SIZE - 1 then .ok b
    else
      (strncpy .key b.key comment delimerOffset).bind fun key =>
      (storeChar .key key delimerOffset NUL).bind fun key =>
      let valueLength : Int := comment.length - (delimerOffset + 1)
      if valueLength > MAX_TAG_VALUE_SIZE - 1 then .ok { b with key := key }
      else
        (strncpy .value b.value (comment.drop (delimerOffset + 1).toNat)
          (comment.length - delimerOffset)).bind fun value =>
        (storeChar .value value (comment.length - delimerOffset) NUL).bind fun value =>
        (copyField .artist key "Artist" b.artist value TAG_ARTIST_SIZE).bind fun artist =>
        (copyField .title key "Title" b.title value TAG_TITLE_SIZE).bind fun title =>
        (copyField .album key "Album" b.album value TAG_ALBUM_SIZE).bind fun album =>
        (copyField .date key "Date" b.date value TAG_DATE_SIZE).bind fun date =>
        .ok { key := key, value := value, artist := artist, title := title, album := album,
              date := date }

/-- The loop of lines 278-312 over the comments of the tag set. -/
def tagLoop : TagBuffers → List (List Char) → Outcome TagBuffers
  | b, [] => .ok b
  | b, comment :: rest => (parseComment b comment).bind fun b => tagLoop b rest

/-- The arrays at line 278: `key` and `value` hold whatever the stack held, given by
`keyJunk` and `valueJunk`, and the four fields are zeroed. -/
def entryBuffers (keyJunk valueJunk : Nat → Char) : TagBuffers :=
  { key := (List.range MAX_TAG_KEY_SIZE).map keyJunk,
    value := (List.range MAX_TAG_VALUE_SIZE).map valueJunk,
    artist := List.replicate TAG_ARTIST_SIZE NUL,
    title := List.replicate TAG_TITLE_SIZE NUL,
    album := List.replicate TAG_ALBUM_SIZE NUL,
    date := List.replicate TAG_DATE_SIZE NUL }

/-- Lines 314-330: the text is printed into `nowPlayingStr`. The pointer `nowPlayingStr` of
the source is the index `p` here, and `endPos` is `none` until it is assigned. -/
def printTags (b : TagBuffers) (nowPlayingStr : List Char) : Outcome (List Char) :=
  let first : Outcome (List Char × Option Int) :=
    if b.title.headD NUL ≠ NUL ∧ b.artist.headD NUL ≠ NUL then
      (sprintf nowPlayingStr 0 (cstr b.artist ++ " - ".data ++ cstr b.title)).bind fun r =>
        .ok (r.1, some r.2)
    else .ok (nowPlayingStr, none)
  first.bind fun r1 =>
  let second : Outcome (List Char × Int × Option Int) :=
    if b.album.headD NUL ≠ NUL then
      match r1.2 with
      | none => .uninitialised
      | some endPos =>
        (sprintf r1.1 (0 + endPos) (" (".data ++ cstr b.album ++ ")".data)).bind fun r =>
          .ok (r.1, 0 + endPos, some r.2)
    else .ok (r1.1, 0, r1.2)
  second.bind fun r2 =>
  if b.date.headD NUL ≠ NUL then
    match r2.2.2 with
    | none => .uninitialised
    | some endPos =>
      if b.album.headD NUL ≠ NUL then
        (sprintf r2.1 (r2.2.1 + endPos - 1) (", ".data ++ cstr b.date ++ ")".data)).bind
          fun r => .ok r.1
      else
        (sprintf r2.1 (r2.2.1 + endPos) (" (".data ++ cstr b.date ++ ")".data)).bind
          fun r => .ok r.1
  else .ok r2.1

/-- The function `parseTags` of lines 263-331: the contents of `nowPlayingStr` when it
returns. -/
def parseTags (keyJunk valueJunk : Nat → Char) (tags : List (List Char))
    (nowPlayingStr : List Char) : Outcome (List Char) :=
  (tagLoop (entryBuffers keyJunk valueJunk) tags).bind fun b => printTags b nowPlayingStr

/-! ## The text of `nowPlayingStr`, as the specification describes it -/

/-- The key of a comment: its characters in front of the first `=`. -/
def tagKey (comment : List Char) : List Char := comment.takeWhile (fun c => c ≠ '=')

/-- The value of a comment: its characters behind the first `=`. -/
def tagValue (comment : List Char) : List Char := comment.drop ((tagKey comment).length + 1)

/-- The length checks of lines 279, 289 and 295. -/
def Accepted (comment : List Char) : Prop :=
  comment.length ≤ 240 ∧ 1 ≤ (tagKey comment).length ∧ (tagKey comment).length ≤ 39 ∧
    (tagValue comment).length ≤ 199

instance (comment : List Char) : Decidable (Accepted comment) := by
  unfold Accepted
  exact inferInstance

/-- The value of the last accepted comment of `tags` with the key `name`, and `current` when
there is none. -/
def lastValue (name : String) : List Char → List (List Char) → List Char
  | current, [] => current
  | current, comment :: rest =>
    lastValue name
      (if Accepted comment ∧ tagKey comment = name.data then tagValue comment else current) rest

/-- The text for an artist, a title, an album and a date, the last two left out when empty. -/
def nowPlaying (artist title album date : List Char) : List Char :=
  artist ++ " - ".data ++ title ++
    (if album ≠ [] then
      if date ≠ [] then " (".data ++ album ++ ", ".data ++ date ++ ")".data
      else " (".data ++ album ++ ")".data
    else if date ≠ [] then " (".data ++ date ++ ")".data
    else [])

/-- A buffer of 400 characters that starts with the C string `text`. -/
def nowPlayingBuffer (text : String) : List Char :=
  text.data ++ List.replicate (NOW_PLAYING_STR_SIZE - text.length) NUL

/-- The text that the specification expects for a tag set. -/
def tagText (tags : List (List Char)) : List Char :=
  nowPlaying ((lastValue "Artist" [] tags).take 79) ((lastValue "Title" [] tags).take 199)
    ((lastValue "Album" [] tags).take 79) ((lastValue "Date" [] tags).take 15)

/-- An array of `size` characters that holds the C string `s` and zeros behind it. -/
def padded (size : Nat) (s : List Char) : List Char :=
  s ++ List.replicate (size - s.length) NUL

/-- The arrays of `parseTags` hold the values `artist`, `title`, `album` and `date`,
truncated to the sizes of the four fields. -/
def Holds (b : TagBuffers) (artist title album date : List Char) : Prop :=
  b.key.length = MAX_TAG_KEY_SIZE ∧ b.value.length = MAX_TAG_VALUE_SIZE ∧
    b.artist = padded TAG_ARTIST_SIZE (artist.take 79) ∧
    b.title = padded TAG_TITLE_SIZE (title.take 199) ∧
    b.album = padded TAG_ALBUM_SIZE (album.take 79) ∧
    b.date = padded TAG_DATE_SIZE (date.take 15) ∧
    NUL ∉ artist ∧ NUL ∉ title ∧ NUL ∉ album ∧ NUL ∉ date

/-! ## Lemmas on the memory primitives -/

theorem length_bytesOf (l : List Int) : (bytesOf l).length = 2 * l.length := by
  induction l with
  | nil => rfl
  | cons v vs ih => simp [bytesOf, bytes16, ih]; omega

theorem bytesOf_append (a b : List Int) : bytesOf (a ++ b) = bytesOf a ++ bytesOf b := by
  induction a with
  | nil => rfl
  | cons v vs ih => simp [bytesOf, ih]

theorem take_bytesOf (n : Nat) (l : List Int) : (bytesOf l).take (2 * n) = bytesOf (l.take n) := by
  induction n generalizing l with
  | zero => simp [bytesOf]
  | succ k ih =>
    cases l with
    | nil => simp [bytesOf]
    | cons v vs =>
      have h : 2 * (k + 1) = 2 * k + 1 + 1 := by omega
      simp [bytesOf, bytes16, h, ih]

theorem drop_bytesOf (n : Nat) (l : List Int) : (bytesOf l).drop (2 * n) = bytesOf (l.drop n) := by
  induction n generalizing l with
  | zero => simp
  | succ k ih =>
    cases l with
    | nil => simp [bytesOf]
    | cons v vs =>
      have h : 2 * (k + 1) = 2 * k + 1 + 1 := by omega
      simp [bytesOf, bytes16, h, ih]

theorem length_dupStereo (l : List Int) : (dupStereo l).length = 2 * l.length := by
  induction l with
  | nil => rfl
  | cons v vs ih => simp [dupStereo, ih]; omega

theorem readAt_natCast (buf : List Int) (i : Nat) : readAt buf (i : Int) = buf[i]? := by
  simp [readAt]

theorem writeAt_natCast (buf : List Int) (i : Nat) (v : Int) :
    writeAt buf (i : Int) v = if i < buf.length then some (buf.set i v) else none := by
  simp [writeAt]

theorem take_set_pair (v : Int) : ∀ (q : Nat) (sb : List Int), q + 2 ≤ sb.length →
    List.take (q + 2) ((sb.set q v).set (q + 1) v) = List.take q sb ++ [v, v]
  | 0, [], h => by simp at h
  | 0, [_], h => by simp at h
  | 0, _ :: _ :: _, _ => by simp
  | q + 1, [], h => by simp at h
  | q + 1, a :: sb, h => by
    have := take_set_pair v q sb (by simpa using h)
    simpa using this

/-- Closed form of the mono expansion loop when it stays inside both buffers. -/
theorem dupLoop_eq (pcm : List Int) : ∀ (n s q : Nat) (sb : List Int),
    s + n ≤ pcm.length → q + 2 * n ≤ sb.length →
    dupLoop pcm n (s : Int) (q : Int) sb
      = some (sb.take q ++ dupStereo ((pcm.drop s).take n) ++ sb.drop (q + 2 * n))
  | 0, s, q, sb, _, _ => by simp [dupLoop, dupStereo]
  | n + 1, s, q, sb, hs, hq => by
    have h1 : s < pcm.length := by omega
    have h2 : q < sb.length := by omega
    have h3 : q + 1 < sb.length := by omega
    have e1 : ((s : Int) + 1) = ((s + 1 : Nat) : Int) := by push_cast; ring
    have e2 : ((q : Int) + 1) = ((q + 1 : Nat) : Int) := by push_cast; ring
    have e3 : ((q : Int) + 2) = ((q + 2 : Nat) : Int) := by push_cast; ring
    rw [dupLoop, readAt_natCast, List.getElem?_eq_getElem h1]
    simp only [writeAt_natCast, h2, if_true]
    rw [e2, writeAt_natCast]
    simp only [List.length_set, h3, if_true]
    rw [e1, e3, dupLoop_eq pcm n (s + 1) (q + 2) _ (by omega) (by simp; omega)]
    congr 1
    rw [List.drop_eq_getElem_cons h1]
    simp only [List.take_succ_cons, dupStereo]
    have t1 := take_set_pair pcm[s] q sb (by omega)
    have t2 : List.drop (q + 2 + 2 * n) ((sb.set q pcm[s]).set (q + 1) pcm[s]) = List.drop (q + 2 * (n + 1)) sb := by
      rw [List.drop_set_of_lt, List.drop_set_of_lt] <;> first | omega | (congr 1; omega)
    rw [t1, t2]
    simp

theorem dupLoop_bounds (pcm : List Int) : ∀ (n : Nat) (s q : Int) (sb sb' : List Int),
    dupLoop pcm n s q sb = some sb' → 0 < n →
    0 ≤ s ∧ 0 ≤ q ∧ s + n ≤ pcm.length ∧ q + 2 * n ≤ sb.length
  | 0, _, _, _, _, _, h => by simp at h
  | n + 1, s, q, sb, sb', hrun, _ => by
    rw [dupLoop] at hrun
    cases hr : readAt pcm s with
    | none => simp [hr] at hrun
    | some v =>
      cases hw1 : writeAt sb q v with
      | none => simp [hr, hw1] at hrun
      | some sb1 =>
        cases hw2 : writeAt sb1 (q + 1) v with
        | none => simp [hr, hw1, hw2] at hrun
        | some sb2 =>
          simp only [hr, hw1, hw2] at hrun
          have hs0 : 0 ≤ s ∧ s < pcm.length := by
            unfold readAt at hr
            split at hr
            · rename_i h0
              have := (List.getElem?_eq_some_iff.mp hr).1
              omega
            · simp at hr
          have hq0 : 0 ≤ q ∧ q < sb.length ∧ sb1.length = sb.length := by
            unfold writeAt at hw1
            split at hw1
            · rename_i h0
              simp at hw1
              subst hw1
              simp
              omega
            · simp at hw1
          have hq1 : q + 1 < sb1.length ∧ sb2.length = sb1.length := by
            unfold writeAt at hw2
            split at hw2
            · rename_i h0
              simp at hw2
              subst hw2
              simp
              omega
            · simp at hw2
          rcases Nat.eq_zero_or_pos n with hn | hn
          · subst hn
            simp
            omega
          · have ih := dupLoop_bounds pcm n (s + 1) (q + 2) sb2 sb' hrun hn
            push_cast
            omega

theorem take_set_one (v : Int) : ∀ (i : Nat) (sb : List Int), i < sb.length →
    List.take (i + 1) (sb.set i v) = List.take i sb ++ [v]
  | 0, [], h => by simp at h
  | 0, _ :: _, _ => by simp
  | i + 1, [], h => by simp at h
  | i + 1, a :: sb, h => by
    have := take_set_one v i sb (by simpa using h)
    simpa using this

/-- Closed form of the carry shift when it stays inside the buffer: the `n` samples that
start at `len / 2 + i` land at `i`, also when the two ranges overlap. -/
theorem shiftLoop_eq (len : Int) (h : Nat) (hh : len.tdiv 2 = h) : ∀ (n i : Nat) (sb : List Int),
    h + i + n ≤ sb.length →
    shiftLoop len n (i : Int) sb
      = some (sb.take i ++ (sb.drop (h + i)).take n ++ sb.drop (i + n))
  | 0, i, sb, _ => by simp [shiftLoop]
  | n + 1, i, sb, hb => by
    have h1 : h + i < sb.length := by omega
    have h2 : i < sb.length := by omega
    have e1 : (h : Int) + (i : Int) = ((h + i : Nat) : Int) := by push_cast; ring
    have e2 : ((i : Int) + 1) = ((i + 1 : Nat) : Int) := by push_cast; ring
    rw [shiftLoop, hh, e1, readAt_natCast, List.getElem?_eq_getElem h1]
    simp only [writeAt_natCast, h2, if_true]
    rw [e2, shiftLoop_eq len h hh n (i + 1) _ (by simp; omega)]
    congr 1
    rw [take_set_one _ _ _ h2, List.drop_set_of_lt _ _ (by omega), List.drop_set_of_lt _ _ (by omega)]
    have e3 : i + 1 + n = i + (n + 1) := by omega
    have e4 : h + (i + 1) = h + i + 1 := by omega
    have e5 : List.drop (h + i) sb = sb[h + i] :: List.drop (h + i + 1) sb :=
      List.drop_eq_getElem_cons h1
    rw [e3, e4, e5, List.take_succ_cons]
    simp

theorem shiftLoop_bounds (len : Int) : ∀ (n : Nat) (i : Int) (sb sb' : List Int),
    shiftLoop len n i sb = some sb' → 0 < n → 0 ≤ i → 0 ≤ len.tdiv 2 →
    len.tdiv 2 + i + n ≤ sb.length
  | 0, _, _, _, _, h, _, _ => by simp at h
  | n + 1, i, sb, sb', hrun, _, hi, hl => by
    rw [shiftLoop] at hrun
    cases hr : readAt sb (len.tdiv 2 + i) with
    | none => simp [hr] at hrun
    | some v =>
      cases hw1 : writeAt sb i v with
      | none => simp [hr, hw1] at hrun
      | some sb1 =>
        simp only [hr, hw1] at hrun
        have hs0 : len.tdiv 2 + i < sb.length := by
          unfold readAt at hr
          split at hr
          · have := (List.getElem?_eq_some_iff.mp hr).1
            omega
          · simp at hr
        have hq0 : sb1.length = sb.length := by
          unfold writeAt at hw1
          split at hw1
          · simp at hw1
            subst hw1
            simp
          · simp at hw1
        rcases Nat.eq_zero_or_pos n with hn | hn
        · subst hn
          simp
          omega
        · have ih := shiftLoop_bounds len n (i + 1) sb1 sb' hrun hn (by omega) hl
          push_cast
          omega

theorem getElem?_dupStereo : ∀ (l : List Int) (k : Nat),
    (dupStereo l)[2 * k]? = l[k]? ∧ (dupStereo l)[2 * k + 1]? = l[k]?
  | [], k => by simp [dupStereo]
  | v :: vs, 0 => by simp [dupStereo]
  | v :: vs, k + 1 => by
    have ih := getElem?_dupStereo vs k
    have e1 : 2 * (k + 1) = 2 * k + 1 + 1 := by omega
    rw [e1]
    simpa [dupStereo] using ih

theorem tdiv_two_of_four (sr : Int) (h : 0 ≤ sr) : (4 * sr).tdiv 2 = ((2 * sr).toNat : Int) := by
  rw [Int.tdiv_eq_ediv (by omega) (by norm_num)]; omega

/-- What a successful `storeChunk` leaves in the working buffer. -/
theorem storeChunk_spec (app : App) (c : Chunk) (sr : Int) (sb' : List Int)
    (hrun : storeChunk { app with decodeBuffer := c.pcm } (4 * sr) c.decRes = some sb')
    (hd : 0 ≤ c.decRes) (hsr : 0 ≤ sr) (hfit : 2 * sr ≤ app.sourceBuffer.length) :
    sb'.length = app.sourceBuffer.length ∧ 2 * (sr + c.decRes) ≤ app.sourceBuffer.length ∧
      sb'.take (2 * (sr + c.decRes)).toNat
        = app.sourceBuffer.take (2 * sr).toNat ++ chunkStereo app.channels c := by
  unfold storeChunk at hrun
  rw [tdiv_two_of_four sr hsr] at hrun
  simp only at hrun
  by_cases hch : app.channels > 1
  · simp only [hch, if_true] at hrun
    unfold memcpy16 at hrun
    split at hrun
    · rename_i hb
      simp only [Option.some.injEq, Int.toNat_ofNat] at hrun
      subst hrun
      have e1 : (2 * (sr + c.decRes)).toNat = (2 * sr).toNat + (c.decRes * 2).toNat := by omega
      have l1 : (List.take (2 * sr).toNat app.sourceBuffer).length = (2 * sr).toNat := by
        rw [List.length_take]; omega
      have l2 : (List.take (c.decRes * 2).toNat c.pcm).length = (c.decRes * 2).toNat := by
        rw [List.length_take]; omega
      refine ⟨?_, by omega, ?_⟩
      · simp only [List.length_append, l1, l2, List.length_drop]
        omega
      · simp only [chunkStereo, hch, if_true]
        rw [e1]
        exact List.take_left' (by rw [List.length_append, l1, l2])
    · simp at hrun
  · simp only [hch, if_false] at hrun
    rcases Nat.eq_zero_or_pos c.decRes.toNat with hn | hn
    · have hd0 : c.decRes = 0 := by omega
      rw [hn] at hrun
      simp only [dupLoop, Option.some.injEq] at hrun
      subst hrun
      refine ⟨rfl, by omega, ?_⟩
      simp [chunkStereo, hch, hd0, dupStereo]
    · have hb := dupLoop_bounds _ _ _ _ _ _ hrun hn
      have h0 : (0 : Int) = ((0 : Nat) : Int) := rfl
      have g1 : 0 + c.decRes.toNat ≤ c.pcm.length := by omega
      have g2 : (2 * sr).toNat + 2 * c.decRes.toNat ≤ app.sourceBuffer.length := by omega
      rw [h0, dupLoop_eq c.pcm c.decRes.toNat 0 (2 * sr).toNat app.sourceBuffer g1 g2] at hrun
      simp only [Option.some.injEq, List.drop_zero] at hrun
      subst hrun
      have e1 : (2 * (sr + c.decRes)).toNat = (2 * sr).toNat + 2 * c.decRes.toNat := by omega
      have l1 : (List.take (2 * sr).toNat app.sourceBuffer).length = (2 * sr).toNat := by
        rw [List.length_take]; omega
      have l2 : (dupStereo (List.take c.decRes.toNat c.pcm)).length
          = 2 * c.decRes.toNat := by
        rw [length_dupStereo, List.length_take]; omega
      refine ⟨?_, by omega, ?_⟩
      · simp only [List.length_append, l1, l2, List.length_drop]; omega
      · simp only [chunkStereo, hch, if_false]
        rw [e1]
        exact List.take_left' (by rw [List.length_append, l1, l2])

/-- A `storeChunk` that stays inside the buffers succeeds. -/
theorem storeChunk_isSome (app : App) (c : Chunk) (sr : Int)
    (hd : 0 ≤ c.decRes) (hsr : 0 ≤ sr) (hfit : chunkFits app.channels c)
    (hsrc : 2 * (sr + c.decRes) ≤ app.sourceBuffer.length) :
    ∃ sb', storeChunk { app with decodeBuffer := c.pcm } (4 * sr) c.decRes = some sb' := by
  unfold storeChunk
  rw [tdiv_two_of_four sr hsr]
  unfold chunkFits at hfit
  by_cases hch : app.channels > 1
  · simp only [hch, if_true] at hfit ⊢
    unfold memcpy16
    rw [if_pos (by omega)]
    exact ⟨_, rfl⟩
  · simp only [hch, if_false] at hfit ⊢
    have h0 : (0 : Int) = ((0 : Nat) : Int) := rfl
    rw [h0, dupLoop_eq c.pcm c.decRes.toNat 0 (2 * sr).toNat app.sourceBuffer
        (by omega) (by omega)]
    exact ⟨_, rfl⟩

/-- C6. Mono expansion keeps the amplitude: for a chunk of `decRes ≥ 0` samples and an even byte
offset `bufferOffset` whose destination lies inside the buffers, the expansion loop of
lines 224-230 returns a buffer of the same size in which, for every `s < decRes`, the samples
`bufferOffset/2 + 2*s` and `bufferOffset/2 + 2*s + 1` both equal `decodeBuffer[s]`, and every
sample outside `[bufferOffset/2, bufferOffset/2 + 2*decRes)` is the one it was. -/
theorem mono_expansion_duplicates (decodeBuffer sourceBuffer : List Int) (decRes bufferOffset : Int)
    (hd : 0 ≤ decRes) (hb : 0 ≤ bufferOffset) (heven : bufferOffset % 2 = 0)
    (hdec : decRes ≤ decodeBuffer.length)
    (hsrc : bufferOffset / 2 + 2 * decRes ≤ sourceBuffer.length) :
    ∃ sb, dupLoop decodeBuffer decRes.toNat 0 (bufferOffset.tdiv 2) sourceBuffer = some sb ∧
      sb.length = sourceBuffer.length ∧
      (∀ s : Nat, (s : Int) < decRes →
        sb[(bufferOffset / 2).toNat + 2 * s]? = decodeBuffer[s]? ∧
        sb[(bufferOffset / 2).toNat + 2 * s + 1]? = decodeBuffer[s]?) ∧
      (∀ j : Nat, ((j : Int) < bufferOffset / 2 ∨ bufferOffset / 2 + 2 * decRes ≤ j) →
        sb[j]? = sourceBuffer[j]?) := by
  have hq : bufferOffset.tdiv 2 = ((bufferOffset / 2).toNat : Int) := by
    rw [Int.tdiv_eq_ediv hb (by norm_num)]; omega
  have h0 : (0 : Int) = ((0 : Nat) : Int) := rfl
  have hrun := dupLoop_eq decodeBuffer decRes.toNat 0 (bufferOffset / 2).toNat sourceBuffer
    (by omega) (by omega)
  rw [hq, h0, hrun]
  refine ⟨_, rfl, ?_, ?_, ?_⟩
  · simp [length_dupStereo]; omega
  · intro s hs
    have hlen : (List.take (bufferOffset / 2).toNat sourceBuffer).length = (bufferOffset / 2).toNat := by
      simp; omega
    have hs' : s < decRes.toNat := by omega
    have key := getElem?_dupStereo (List.take decRes.toNat (List.drop 0 decodeBuffer)) s
    have hin : 2 * s + 1 < (dupStereo (List.take decRes.toNat (List.drop 0 decodeBuffer))).length := by
      rw [length_dupStereo]; simp; omega
    constructor
    · rw [List.append_assoc, List.getElem?_append_right (by omega), hlen,
        List.getElem?_append_left (by omega)]
      have : (bufferOffset / 2).toNat + 2 * s - (bufferOffset / 2).toNat = 2 * s := by omega
      rw [this, key.1]
      simp [List.getElem?_take, hs']
    · rw [List.append_assoc, List.getElem?_append_right (by omega), hlen,
        List.getElem?_append_left (by omega)]
      have : (bufferOffset / 2).toNat + 2 * s + 1 - (bufferOffset / 2).toNat = 2 * s + 1 := by omega
      rw [this, key.2]
      simp [List.getElem?_take, hs']
  · intro j hj
    have hlen : (List.take (bufferOffset / 2).toNat sourceBuffer).length = (bufferOffset / 2).toNat := by
      simp; omega
    have hlen2 : (dupStereo (List.take decRes.toNat (List.drop 0 decodeBuffer))).length
        = 2 * decRes.toNat := by
      rw [length_dupStereo]; simp; omega
    rcases hj with hj | hj
    · rw [List.append_assoc, List.getElem?_append_left (by omega)]
      simp [List.getElem?_take]; omega
    · have hl : (List.take (bufferOffset / 2).toNat sourceBuffer
          ++ dupStereo (List.take decRes.toNat (List.drop 0 decodeBuffer))).length ≤ j := by
        rw [List.length_append, hlen, hlen2]; omega
      rw [List.getElem?_append_right hl]
      simp only [List.length_append, hlen, hlen2, List.getElem?_drop]
      congr 1
      omega

/-- Witness of `mono_expansion_duplicates`: three samples expanded at byte offset 4. -/
theorem mono_expansion_duplicates_witness :
    ∃ sb, dupLoop [7, -8, 9] (3 : Int).toNat 0 ((4 : Int).tdiv 2) [1, 2, 3, 4, 5, 6, 7, 8, 9, 10]
        = some sb ∧
      sb.length = [1, 2, 3, 4, 5, 6, 7, 8, 9, (10 : Int)].length ∧
      (∀ s : Nat, (s : Int) < 3 →
        sb[((4 : Int) / 2).toNat + 2 * s]? = [7, -8, (9 : Int)][s]? ∧
        sb[((4 : Int) / 2).toNat + 2 * s + 1]? = [7, -8, (9 : Int)][s]?) ∧
      (∀ j : Nat, ((j : Int) < (4 : Int) / 2 ∨ (4 : Int) / 2 + 2 * 3 ≤ j) →
        sb[j]? = [1, 2, 3, 4, 5, 6, 7, 8, 9, (10 : Int)][j]?) :=
  mono_expansion_duplicates [7, -8, 9] [1, 2, 3, 4, 5, 6, 7, 8, 9, 10] 3 4
    (by decide) (by decide) (by decide) (by decide) (by decide)

theorem framesOf_append (a b : List Chunk) : framesOf (a ++ b) = framesOf a + framesOf b := by
  induction a with
  | nil => simp [framesOf]
  | cons c cs ih => simp [framesOf, ih]; ring

theorem decodedStream_append (ch : Int) (a b : List Chunk) :
    decodedStream ch (a ++ b) = decodedStream ch a ++ decodedStream ch b := by
  induction a with
  | nil => simp [decodedStream]
  | cons c cs ih => simp [decodedStream, ih]

theorem sameConfig_refl (a : App) : SameConfig a a := ⟨rfl, rfl, rfl, rfl, rfl⟩

theorem sameConfig_trans {a b c : App} (h1 : SameConfig a b) (h2 : SameConfig b c) :
    SameConfig a c := by
  obtain ⟨a1, a2, a3, a4, a5⟩ := h1
  obtain ⟨b1, b2, b3, b4, b5⟩ := h2
  exact ⟨b1.trans a1, b2.trans a2, b3.trans a3, b4.trans a4, b5.trans a5⟩

/-- What the loop has done when it is left by its condition or by `break`: it consumed a
prefix `cs` of the replies, none of them an error; `samplesRead` grew by their frames; the
configuration and the flags other than `endReached` are untouched; and, when the byte offset
matches the frame count on entry, the working buffer holds the carried samples followed by
the decoded stream of `cs`. -/
theorem pullLoop_fellThrough : ∀ (handle : OggOpusFile) (app : App) (sr bo : Int)
    (app' : App) (handle' : OggOpusFile) (sr' : Int),
    pullLoop handle app sr bo = .ok (.fellThrough app' handle' sr') →
    ∃ cs, handle = cs ++ handle' ∧ (∀ c ∈ cs, 0 ≤ c.decRes) ∧ sr' = sr + framesOf cs ∧
      SameConfig app app' ∧ app'.savedOffset = app.savedOffset ∧
      app'.closeOnNextTick = app.closeOnNextTick ∧ app'.shouldClose = app.shouldClose ∧
      ((app'.endReached = app.endReached ∧ app'.preSamples = app.preSamples ∧
          app.samples ≤ sr') ∨
        (app'.endReached = 1 ∧ app'.preSamples = 0 ∧ app'.pcmPos = app.pcmTotal ∧ cs ≠ [])) ∧
      (cs = [] ∨ ∀ D, (∀ c ∈ cs, c.decRes ≤ D) → sr' < app.samples + D) ∧
      (0 ≤ sr → bo = 4 * sr → 2 * sr ≤ app.sourceBuffer.length →
        app'.sourceBuffer.length = app.sourceBuffer.length ∧
        2 * sr' ≤ app'.sourceBuffer.length ∧
        app'.sourceBuffer.take (2 * sr').toNat
          = app.sourceBuffer.take (2 * sr).toNat ++ decodedStream app.channels cs)
  | [], app, sr, bo, app', handle', sr', hrun => by
    unfold pullLoop at hrun
    split at hrun
    · simp at hrun
    · rename_i hcond
      simp only [Run.ok.injEq, LoopExit.fellThrough.injEq] at hrun
      obtain ⟨rfl, rfl, rfl⟩ := hrun
      refine ⟨[], rfl, by simp, by simp [framesOf], sameConfig_refl _, rfl, rfl, rfl,
        Or.inl ⟨rfl, rfl, by omega⟩, Or.inl rfl, ?_⟩
      intro h1 h2 h3
      exact ⟨rfl, h3, by simp [decodedStream]⟩
  | c :: rest, app, sr, bo, app', handle', sr', hrun => by
    unfold pullLoop at hrun
    split at hrun
    · rename_i hcond
      simp only at hrun
      split at hrun
      · simp at hrun
      · rename_i hneg
        split at hrun
        · simp at hrun
        · rename_i sb hstore
          split at hrun
          · rename_i hend
            simp only [Run.ok.injEq, LoopExit.fellThrough.injEq] at hrun
            obtain ⟨rfl, rfl, rfl⟩ := hrun
            refine ⟨[c], rfl, by simpa using hneg, by simp [framesOf], ⟨rfl, rfl, rfl, rfl, rfl⟩,
              rfl, rfl, rfl, Or.inr ⟨rfl, rfl, hend, by simp⟩, Or.inr ?_, ?_⟩
            · intro D hD
              have := hD c (by simp)
              omega
            · intro h1 h2 h3
              subst h2
              have hs := storeChunk_spec app c sr sb hstore (by omega) h1 h3
              simp only [decodedStream, List.append_nil]
              exact ⟨hs.1, by omega, hs.2.2⟩
          · rename_i hend
            obtain ⟨cs, hcs, hpos, hsr, hcfg, hso, hct, hsc, hflag, hbound, hcontent⟩ :=
              pullLoop_fellThrough rest _ _ _ app' handle' sr' hrun
            refine ⟨c :: cs, by simp [hcs], ?_, ?_, hcfg, hso, hct, hsc, ?_, Or.inr ?_, ?_⟩
            · intro x hx
              rcases List.mem_cons.mp hx with rfl | hx
              · omega
              · exact hpos x hx
            · simp only [framesOf]; omega
            · rcases hflag with ⟨h1, h2, h3⟩ | ⟨h1, h2, h3, h4⟩
              · exact Or.inl ⟨h1, h2, h3⟩
              · exact Or.inr ⟨h1, h2, h3, by simp⟩
            · intro D hD
              rcases hbound with rfl | hb
              · simp only [framesOf] at hsr
                have := hD c (by simp)
                change sr' < app.samples + D
                omega
              · exact hb D (fun x hx => hD x (List.mem_cons_of_mem _ hx))
            · intro h1 h2 h3
              subst h2
              have hs := storeChunk_spec app c sr sb hstore (by omega) h1 h3
              have hc := hcontent (by omega) (by ring) (by simp only; omega)
              simp only at hc
              refine ⟨hc.1.trans hs.1, hc.2.1, ?_⟩
              rw [hc.2.2, hs.2.2, decodedStream, List.append_assoc]
    · rename_i hcond
      simp only [Run.ok.injEq, LoopExit.fellThrough.injEq] at hrun
      obtain ⟨rfl, rfl, rfl⟩ := hrun
      refine ⟨[], rfl, by simp, by simp [framesOf], sameConfig_refl _, rfl, rfl, rfl,
        Or.inl ⟨rfl, rfl, by omega⟩, Or.inl rfl, ?_⟩
      intro h1 h2 h3
      exact ⟨rfl, h3, by simp [decodedStream]⟩

/-- What the loop has done when it is left by the `return` of the decode error. -/
theorem pullLoop_returned : ∀ (handle : OggOpusFile) (app : App) (sr bo : Int)
    (app' : App) (handle' : OggOpusFile),
    pullLoop handle app sr bo = .ok (.returned app' handle') →
    ∃ pre c, handle = pre ++ c :: handle' ∧ c.decRes < 0 ∧ (∀ x ∈ pre, 0 ≤ x.decRes) ∧
      SameConfig app app' ∧ app'.savedOffset = app.savedOffset ∧
      app'.preSamples = app.preSamples ∧ app'.closeOnNextTick = app.closeOnNextTick ∧
      app'.endReached = app.endReached ∧ app'.shouldClose = 1 ∧
      (0 ≤ sr → bo = 4 * sr → 2 * sr ≤ app.sourceBuffer.length →
        app'.sourceBuffer.length = app.sourceBuffer.length)
  | [], app, sr, bo, app', handle', hrun => by
    unfold pullLoop at hrun
    split at hrun <;> simp at hrun
  | c :: rest, app, sr, bo, app', handle', hrun => by
    unfold pullLoop at hrun
    split at hrun
    · simp only at hrun
      split at hrun
      · rename_i hneg
        simp only [Run.ok.injEq, LoopExit.returned.injEq] at hrun
        obtain ⟨rfl, rfl⟩ := hrun
        exact ⟨[], c, rfl, hneg, by simp, ⟨rfl, rfl, rfl, rfl, rfl⟩, rfl, rfl, rfl, rfl, rfl,
          fun _ _ _ => rfl⟩
      · rename_i hneg
        split at hrun
        · simp at hrun
        · rename_i sb hstore
          split at hrun
          · simp at hrun
          · obtain ⟨pre, x, hcs, hx, hpre, hcfg, h1, h2, h3, h4, h5, h6⟩ :=
              pullLoop_returned rest _ _ _ app' handle' hrun
            refine ⟨c :: pre, x, by simp [hcs], hx, ?_, hcfg, h1, h2, h3, h4, h5, ?_⟩
            · intro y hy
              rcases List.mem_cons.mp hy with rfl | hy
              · omega
              · exact hpre y hy
            · intro g1 g2 g3
              subst g2
              have hs := storeChunk_spec app c sr sb hstore (by omega) g1 g3
              have := h6 (by omega) (by ring) (by simp only; omega)
              exact this.trans hs.1
    · simp at hrun

/-- A loop that uses up the replies `pre` and asks for more goes on, when more replies follow,
from the state it has reached then. -/
theorem pullLoop_starved_append : ∀ (pre : OggOpusFile) (app : App) (sr bo : Int),
    pullLoop pre app sr bo = .starved →
    ∃ app1 : App,
      (∀ rest, pullLoop (pre ++ rest) app sr bo
        = pullLoop rest app1 (sr + framesOf pre) (bo + 4 * framesOf pre)) ∧
      sr + framesOf pre < app.samples ∧
      (∀ c ∈ pre, 0 ≤ c.decRes ∧ c.pos ≠ app.pcmTotal) ∧
      SameConfig app app1 ∧ app1.savedOffset = app.savedOffset ∧
      app1.preSamples = app.preSamples ∧ app1.closeOnNextTick = app.closeOnNextTick ∧
      app1.endReached = app.endReached ∧ app1.shouldClose = app.shouldClose ∧
      (0 ≤ sr → bo = 4 * sr → 2 * sr ≤ app.sourceBuffer.length →
        app1.sourceBuffer.length = app.sourceBuffer.length ∧
        2 * (sr + framesOf pre) ≤ app1.sourceBuffer.length ∧
        app1.sourceBuffer.take (2 * (sr + framesOf pre)).toNat
          = app.sourceBuffer.take (2 * sr).toNat ++ decodedStream app.channels pre)
  | [], app, sr, bo, hrun => by
    unfold pullLoop at hrun
    split at hrun
    · rename_i hcond
      refine ⟨app, ?_, by simpa [framesOf] using hcond, by simp, sameConfig_refl _,
        rfl, rfl, rfl, rfl, rfl, ?_⟩
      · intro rest
        simp [framesOf]
      · intro h1 h2 h3
        refine ⟨rfl, ?_, ?_⟩
        · simpa [framesOf] using h3
        · simp [framesOf, decodedStream]
    · simp at hrun
  | c :: pre, app, sr, bo, hrun => by
    unfold pullLoop at hrun
    split at hrun
    · rename_i hcond
      simp only at hrun
      split at hrun
      · simp at hrun
      · rename_i hneg
        split at hrun
        · simp at hrun
        · rename_i sb hstore
          split at hrun
          · simp at hrun
          · rename_i hend
            obtain ⟨app1, hgo, hlt, hall, hcfg, h1, h2, h3, h4, h5, h6⟩ :=
              pullLoop_starved_append pre _ _ _ hrun
            have e1 : sr + c.decRes + framesOf pre = sr + framesOf (c :: pre) := by
              simp only [framesOf]; ring
            have e2 : bo + c.decRes * 4 + 4 * framesOf pre = bo + 4 * framesOf (c :: pre) := by
              simp only [framesOf]; ring
            rw [e1] at hlt
            refine ⟨app1, ?_, hlt, ?_, hcfg, h1, h2, h3, h4, h5, ?_⟩
            · intro rest
              have := hgo rest
              rw [e1, e2] at this
              rw [← this, List.cons_append]
              conv_lhs => unfold pullLoop
              simp only [hcond, if_true, hneg, if_false, hstore, hend]
            · intro x hx
              rcases List.mem_cons.mp hx with rfl | hx
              · exact ⟨by omega, hend⟩
              · exact hall x hx
            · intro g1 g2 g3
              subst g2
              have hs := storeChunk_spec app c sr sb hstore (by omega) g1 g3
              have hc := h6 (by omega) (by ring) (by simp only; omega)
              simp only at hc
              rw [e1] at hc
              refine ⟨hc.1.trans hs.1, hc.2.1, ?_⟩
              rw [hc.2.2, hs.2.2, decodedStream, List.append_assoc]
    · simp at hrun

theorem pullsAll_frames_nonneg (samples total ch : Int) : ∀ (cs : List Chunk) (sr : Int),
    PullsAll samples total ch sr cs → 0 ≤ framesOf cs
  | [], _, _ => by simp [framesOf]
  | c :: cs, sr, h => by
    obtain ⟨_, h2, _, _, h5⟩ := h
    have := pullsAll_frames_nonneg samples total ch cs _ h5
    simp only [framesOf]; omega

/-- A loop whose replies `cs` are all pulled, fit the buffers, and fill the request runs to
its condition. -/
theorem pullLoop_of_pullsAll : ∀ (cs rest : List Chunk) (app : App) (sr bo : Int),
    PullsAll app.samples app.pcmTotal app.channels sr cs → 0 ≤ sr → bo = 4 * sr →
    2 * (sr + framesOf cs) ≤ app.sourceBuffer.length →
    ∃ app', pullLoop (cs ++ rest) app sr bo = .ok (.fellThrough app' rest (sr + framesOf cs)) ∧
      app'.endReached = app.endReached ∧ app'.preSamples = app.preSamples
  | [], rest, app, sr, bo, hp, _, _, _ => by
    have hp' : app.samples ≤ sr := hp
    refine ⟨app, ?_, rfl, rfl⟩
    cases rest with
    | nil => simp [pullLoop, framesOf, not_lt.mpr hp']
    | cons c rest => simp [pullLoop, framesOf, not_lt.mpr hp']
  | c :: cs, rest, app, sr, bo, hp, hsr, hbo, hfit => by
    obtain ⟨h1, h2, h3, h4, h5⟩ := hp
    have hnn := pullsAll_frames_nonneg _ _ _ cs _ h5
    simp only [framesOf] at hfit
    subst hbo
    obtain ⟨sb, hstore⟩ := storeChunk_isSome app c sr h2 hsr h4 (by omega)
    have hs := storeChunk_spec app c sr sb hstore h2 hsr (by omega)
    obtain ⟨app', hrun, he, hpre⟩ := pullLoop_of_pullsAll cs rest
      { app with decodeBuffer := c.pcm, sourceBuffer := sb, pcmPos := c.pos }
      (sr + c.decRes) (4 * sr + c.decRes * 4) h5 (by omega) (by ring)
      (by simp only; omega)
    refine ⟨app', ?_, he, hpre⟩
    rw [List.cons_append]
    conv_lhs => unfold pullLoop
    simp only [h1, if_true, not_lt.mpr h2, if_false, hstore, h3]
    rw [hrun]
    simp only [framesOf]
    congr 2
    ring

/-- The output of the code that follows the loop, whenever it completes: bytes from `min` on
are the ones the region held, and with passthrough volume the bytes below `min` are those of
the working buffer. -/
theorem deliver_out (mixer : Mixer) (app : App) (sr : Int) (stream : List Nat) (len : Int)
    (app' : App) (out : List Nat)
    (hrun : deliver mixer app sr stream len = .ok (app', out)) :
    0 ≤ min len (4 * sr) ∧ out.length = stream.length ∧
      (∀ i : Nat, min len (4 * sr) ≤ i → out[i]? = stream[i]?) ∧
      (app.volume = 0 → ∀ i : Nat, (i : Int) < min len (4 * sr) →
        out[i]? = (bytesOf app.sourceBuffer)[i]?) := by
  unfold deliver at hrun
  simp only at hrun
  have hm : (if len < sr * 4 then len else sr * 4) = min len (4 * sr) := by
    split <;> omega
  rw [hm] at hrun
  generalize min len (4 * sr) = m at hrun ⊢
  have hvol : ∀ a : App, (if sr > app.samples then
      ({ app with preSamples := sr - app.samples } : App) else app).volume = app.volume := by
    intro _; split <;> rfl
  have hsb : (if sr > app.samples then
      ({ app with preSamples := sr - app.samples } : App) else app).sourceBuffer
        = app.sourceBuffer := by
    split <;> rfl
  have hfm : (if sr > app.samples then
      ({ app with preSamples := sr - app.samples } : App) else app).format = app.format := by
    split <;> rfl
  rw [hvol app, hsb, hfm] at hrun
  have key : ∀ written : List Nat, (if app.volume = 0 then memcpyBytes stream app.sourceBuffer m
      else SDL_MixAudioFormat mixer stream (bytesOf app.sourceBuffer) app.format m app.volume)
        = some written →
      0 ≤ m ∧ written.length = stream.length ∧
      (∀ i : Nat, m ≤ i → written[i]? = stream[i]?) ∧
      (app.volume = 0 → ∀ i : Nat, (i : Int) < m →
        written[i]? = (bytesOf app.sourceBuffer)[i]?) := by
    intro written hw
    by_cases hv : app.volume = 0
    · simp only [hv, if_true] at hw
      unfold memcpyBytes at hw
      split at hw
      · rename_i hb
        simp only [Option.some.injEq] at hw
        subst hw
        have l1 : (List.take m.toNat (bytesOf app.sourceBuffer)).length = m.toNat := by
          rw [List.length_take]; omega
        refine ⟨hb.1, ?_, ?_, ?_⟩
        · rw [List.length_append, l1, List.length_drop]; omega
        · intro i hi
          rw [List.getElem?_append_right (by omega), l1, List.getElem?_drop]
          congr 1; omega
        · intro _ i hi
          rw [List.getElem?_append_left (by omega), List.getElem?_take_of_lt (by omega)]
      · simp at hw
    · simp only [hv, if_false] at hw
      unfold SDL_MixAudioFormat at hw
      split at hw
      · rename_i hb
        simp only [Option.some.injEq] at hw
        subst hw
        refine ⟨hb.1, ?_, ?_, fun h => absurd h hv⟩
        · simp only [List.length_append, List.length_map, List.length_range, List.length_drop]
          omega
        · intro i hi
          rw [List.getElem?_append_right (by simp; omega)]
          simp only [List.length_map, List.length_range, List.getElem?_drop]
          congr 1; omega
      · simp at hw
  split at hrun
  · simp at hrun
  · rename_i written hw
    have hk := key written hw
    split at hrun
    · split at hrun
      · simp at hrun
      · simp only [Run.ok.injEq, Prod.mk.injEq] at hrun
        obtain ⟨_, rfl⟩ := hrun
        exact hk
    · simp only [Run.ok.injEq, Prod.mk.injEq] at hrun
      obtain ⟨_, rfl⟩ := hrun
      exact hk

/-- The code that follows the loop completes when the frames it is given lie inside the
working buffer, and this is the session it leaves. -/
theorem deliver_spec (mixer : Mixer) (app : App) (sr : Int) (stream : List Nat) (len : Int)
    (hsr : 0 ≤ sr) (hfit : 2 * sr ≤ app.sourceBuffer.length) (hlen : len = 4 * app.samples)
    (hs0 : 0 ≤ app.samples) (hst : len ≤ stream.length) :
    ∃ app' out, deliver mixer app sr stream len = .ok (app', out) ∧
      SameConfig app app' ∧ app'.endReached = app.endReached ∧
      app'.closeOnNextTick = app.closeOnNextTick ∧ app'.shouldClose = app.shouldClose ∧
      app'.sourceBuffer.length = app.sourceBuffer.length ∧
      app'.preSamples = (if app.samples < sr then sr - app.samples else app.preSamples) ∧
      app'.savedOffset = (if app.samples < sr then 4 * (sr - app.samples) else app.savedOffset) ∧
      (app.samples ≤ sr → app'.sourceBuffer.take (2 * (sr - app.samples)).toNat
        = (app.sourceBuffer.take (2 * sr).toNat).drop (2 * app.samples).toNat) ∧
      (app.volume = 0 → out = (bytesOf app.sourceBuffer).take (min len (4 * sr)).toNat
        ++ stream.drop (min len (4 * sr)).toNat) := by
  unfold deliver
  simp only
  have hm : (if len < sr * 4 then len else sr * 4) = min len (4 * sr) := by
    split <;> omega
  rw [hm]
  have hvol : (if sr > app.samples then
      ({ app with preSamples := sr - app.samples } : App) else app).volume = app.volume := by
    split <;> rfl
  have hsb : (if sr > app.samples then
      ({ app with preSamples := sr - app.samples } : App) else app).sourceBuffer
        = app.sourceBuffer := by
    split <;> rfl
  have hfm : (if sr > app.samples then
      ({ app with preSamples := sr - app.samples } : App) else app).format = app.format := by
    split <;> rfl
  rw [hvol, hsb, hfm]
  have hbl := length_bytesOf app.sourceBuffer
  obtain ⟨written, hw, hwv⟩ : ∃ written, (if app.volume = 0 then
      memcpyBytes stream app.sourceBuffer (min len (4 * sr))
      else SDL_MixAudioFormat mixer stream (bytesOf app.sourceBuffer) app.format
        (min len (4 * sr)) app.volume) = some written ∧
      (app.volume = 0 → written = (bytesOf app.sourceBuffer).take (min len (4 * sr)).toNat
        ++ stream.drop (min len (4 * sr)).toNat) := by
    by_cases hv : app.volume = 0
    · simp only [hv, if_true]
      unfold memcpyBytes
      rw [if_pos (by omega)]
      exact ⟨_, rfl, fun _ => rfl⟩
    · simp only [hv, if_false]
      unfold SDL_MixAudioFormat
      rw [if_pos (by omega)]
      exact ⟨_, rfl, fun h => by simp at h⟩
  rw [hw]
  simp only
  by_cases hlt : len < sr * 4
  · have hgt : sr > app.samples := by omega
    have hgt' : app.samples < sr := hgt
    simp only [hlt, if_true, hgt, hgt']
    have he : ((sr * 4 - len).tdiv 2) = 2 * (sr - app.samples) := by
      rw [Int.tdiv_eq_ediv (by omega) (by norm_num)]; omega
    have hh : len.tdiv 2 = ((2 * app.samples).toNat : Int) := by
      rw [Int.tdiv_eq_ediv (by omega) (by norm_num)]; omega
    have h0 : (0 : Int) = ((0 : Nat) : Int) := rfl
    rw [he, h0, shiftLoop_eq len (2 * app.samples).toNat hh (2 * (sr - app.samples)).toNat 0
      app.sourceBuffer (by omega)]
    simp only
    refine ⟨_, _, rfl, ⟨rfl, rfl, rfl, rfl, rfl⟩, rfl, rfl, rfl, ?_, rfl, by ring, ?_, hwv⟩
    · simp only [List.take_zero, List.nil_append, List.length_append, List.length_take,
        List.length_drop, Nat.add_zero, Nat.zero_add]
      omega
    · intro _
      simp only [List.take_zero, List.nil_append, Nat.add_zero, Nat.zero_add]
      have l1 : (List.take (2 * (sr - app.samples)).toNat
          (List.drop (2 * app.samples).toNat app.sourceBuffer)).length
            = (2 * (sr - app.samples)).toNat := by
        rw [List.length_take, List.length_drop]; omega
      rw [List.take_left' l1, List.take_drop]
      congr 2
      omega
  · have hgt : ¬ sr > app.samples := by omega
    have hgt' : ¬ app.samples < sr := hgt
    simp only [hlt, if_false, hgt, hgt']
    refine ⟨_, _, rfl, ⟨rfl, rfl, rfl, rfl, rfl⟩, rfl, rfl, rfl, rfl, rfl, rfl, ?_, hwv⟩
    intro hle
    have e : sr = app.samples := by omega
    subst e
    simp

theorem memset_eq (stream : List Nat) (len : Int) (h0 : 0 ≤ len) (h1 : len ≤ stream.length) :
    memset stream 0 len = some (List.replicate len.toNat 0 ++ stream.drop len.toNat) := by
  unfold memset
  rw [if_pos ⟨h0, h1⟩]

theorem memset_some (stream : List Nat) (len : Int) (z : List Nat)
    (h : memset stream 0 len = some z) :
    0 ≤ len ∧ len ≤ stream.length ∧ z = List.replicate len.toNat 0 ++ stream.drop len.toNat ∧
      z.length = stream.length := by
  unfold memset at h
  split at h
  · rename_i hb
    simp only [Option.some.injEq] at h
    subst h
    refine ⟨hb.1, hb.2, rfl, ?_⟩
    simp only [List.length_append, List.length_replicate, List.length_drop]
    omega
  · simp at h

/-- An invocation that completes was handed a region of at least `len ≥ 0` bytes. -/
theorem streamCallback_len (mixer : Mixer) (app : App) (handle : OggOpusFile)
    (stream : List Nat) (len : Int) (r : App × OggOpusFile × List Nat)
    (hrun : streamCallback mixer app handle stream len = .ok r) :
    0 ≤ len ∧ len ≤ stream.length := by
  unfold streamCallback at hrun
  split at hrun
  · simp at hrun
  · rename_i z hz
    obtain ⟨h0, h1, _, _⟩ := memset_some _ _ _ hz
    exact ⟨h0, h1⟩

/-- Once `endReached` is set, an invocation only zeroes the region and sets
`closeOnNextTick`; the decoder is not called. -/
theorem streamCallback_silent (mixer : Mixer) (app : App) (handle : OggOpusFile)
    (stream : List Nat) (len : Int) (hend : app.endReached ≠ 0) (h0 : 0 ≤ len)
    (h1 : len ≤ stream.length) :
    streamCallback mixer app handle stream len
      = .ok ({ app with closeOnNextTick := 1 }, handle,
          List.replicate len.toNat 0 ++ stream.drop len.toNat) := by
  unfold streamCallback
  rw [memset_eq stream len h0 h1]
  simp only [hend, ne_eq, not_false_eq_true, if_true]

/-- The bytes of the samples in front of the working buffer. -/
theorem take_bytesOf_take (l : List Int) (n : Int) (m : Int) (hm : m ≤ 2 * n) :
    (bytesOf l).take m.toNat = (bytesOf (l.take n.toNat)).take m.toNat := by
  rw [← take_bytesOf, List.take_take]
  congr 1
  omega

theorem framesOf_nonneg : ∀ cs : List Chunk, (∀ c ∈ cs, 0 ≤ c.decRes) → 0 ≤ framesOf cs
  | [], _ => by simp [framesOf]
  | c :: cs, h => by
    have h1 := h c (by simp)
    have h2 := framesOf_nonneg cs (fun y hy => h y (List.mem_cons_of_mem _ hy))
    simp only [framesOf]; omega

/-- One invocation from a session whose carry is consistent: it consumes a prefix `cs` of the
replies and either returns on a decode error, with a silent region, or delivers the front of
"carried samples followed by the decoded stream of `cs`" and keeps what is beyond one request
as the new carry. -/
theorem streamCallback_step (mixer : Mixer) (app : App) (handle : OggOpusFile)
    (stream : List Nat) (len : Int) (app' : App) (handle' : OggOpusFile) (out : List Nat)
    (hrun : streamCallback mixer app handle stream len = .ok (app', handle', out))
    (hend : app.endReached = 0) (hinv : CarryOk app) (hlen : len = 4 * app.samples) :
    ∃ cs, handle = cs ++ handle' ∧ SameConfig app app' ∧ CarryOk app' ∧
      app'.sourceBuffer.length = app.sourceBuffer.length ∧
      app'.closeOnNextTick = app.closeOnNextTick ∧
      (((∃ c ∈ cs, c.decRes < 0) ∧ app'.shouldClose = 1 ∧ app'.preSamples = 0 ∧
          app'.endReached = 0 ∧ out = List.replicate len.toNat 0 ++ stream.drop len.toNat) ∨
        ((∀ c ∈ cs, 0 ≤ c.decRes) ∧ app'.shouldClose = app.shouldClose ∧
          (app'.endReached = 0 ∧ app.samples ≤ app.preSamples + framesOf cs ∨
            app'.endReached = 1 ∧ cs ≠ []) ∧
          app'.preSamples = max 0 (app.preSamples + framesOf cs - app.samples) ∧
          (app.sourceBuffer.take (2 * app.preSamples).toNat
              ++ decodedStream app.channels cs).length
            = (2 * (app.preSamples + framesOf cs)).toNat ∧
          app'.sourceBuffer.take (2 * app'.preSamples).toNat
            = (app.sourceBuffer.take (2 * app.preSamples).toNat
                ++ decodedStream app.channels cs).drop (2 * app.samples).toNat ∧
          (app.volume = 0 → out =
            (bytesOf (app.sourceBuffer.take (2 * app.preSamples).toNat
                ++ decodedStream app.channels cs)).take
              (min len (4 * (app.preSamples + framesOf cs))).toNat
            ++ List.replicate (len - min len (4 * (app.preSamples + framesOf cs))).toNat 0
            ++ stream.drop len.toNat) ∧
          (cs = [] ∨ ∀ D, (∀ c ∈ cs, c.decRes ≤ D) →
            app.preSamples + framesOf cs < app.samples + D) ∧
          (∀ i : Nat, min len (4 * (app.preSamples + framesOf cs)) ≤ i →
            out[i]? = (List.replicate len.toNat 0 ++ stream.drop len.toNat)[i]?))) := by
  obtain ⟨hp0, hso, hpfit⟩ := hinv
  unfold streamCallback at hrun
  split at hrun
  · simp at hrun
  · rename_i z hz
    obtain ⟨hl0, hl1, hzeq, hzlen⟩ := memset_some _ _ _ hz
    simp only [hend, ne_eq, not_true_eq_false, if_false] at hrun
    split at hrun
    · simp at hrun
    · simp at hrun
    · -- decode error
      rename_i a1 h1 hloop
      simp only [Run.ok.injEq, Prod.mk.injEq] at hrun
      obtain ⟨rfl, rfl, rfl⟩ := hrun
      obtain ⟨pre, c, hcs, hneg, _, hcfg, g1, g2, g3, g4, g5, g6⟩ :=
        pullLoop_returned _ _ _ _ _ _ hloop
      have g6' := g6 hp0 hso (by simpa using hpfit)
      simp only at g1 g2 g3 g4 g6'
      refine ⟨pre ++ [c], by simp [hcs], hcfg, ⟨by omega, by omega, by omega⟩, g6', g3,
        Or.inl ⟨⟨c, by simp, hneg⟩, g5, g2, by omega, hzeq⟩⟩
    · -- the loop is left, the audio is delivered
      rename_i a1 h1 sr1 hloop
      split at hrun
      · simp at hrun
      · simp at hrun
      · rename_i a2 out2 hdel
        simp only [Run.ok.injEq, Prod.mk.injEq] at hrun
        obtain ⟨rfl, rfl, rfl⟩ := hrun
        obtain ⟨cs, hcs, hpos, hsr, hcfg, g1, g2, g3, hflag, hbound, hcontent⟩ :=
          pullLoop_fellThrough _ _ _ _ _ _ _ hloop
        obtain ⟨c1, c2, c3⟩ := hcontent hp0 hso (by simpa using hpfit)
        simp only at g1 g2 g3 hflag hbound c1 c2 c3 hcfg
        have hfr : 0 ≤ framesOf cs := framesOf_nonneg cs hpos
        have hsr0 : 0 ≤ sr1 := by omega
        have hsamp : 0 ≤ a1.samples := by
          have := hcfg.2.2.1
          simp only at this
          omega
        have hlen' : len = 4 * a1.samples := by
          have := hcfg.2.2.1
          simp only at this
          omega
        obtain ⟨a2', out2', hdel', d1, d2, d3, d4, d5, d6, d7, d8, d9⟩ :=
          deliver_spec mixer a1 sr1 z len hsr0 c2 hlen' hsamp (by omega)
        rw [hdel] at hdel'
        simp only [Run.ok.injEq, Prod.mk.injEq] at hdel'
        obtain ⟨rfl, rfl⟩ := hdel'
        have hs1 : a1.samples = app.samples := hcfg.2.2.1
        have hA : (app.sourceBuffer.take (2 * app.preSamples).toNat
              ++ decodedStream app.channels cs).length = (2 * sr1).toNat := by
          rw [← c3, List.length_take]; omega
        have hpre' : a2.preSamples = max 0 (app.preSamples + framesOf cs - app.samples) := by
          rw [d6]
          rcases hflag with ⟨_, f2, _⟩ | ⟨_, f2, _, _⟩ <;> split <;> omega
        have hso' : a2.savedOffset = 4 * a2.preSamples := by
          rw [d7, hpre']
          split <;> omega
        refine ⟨cs, hcs, sameConfig_trans hcfg d1, ⟨by omega, hso', by omega⟩, by omega, by omega,
          Or.inr ⟨hpos, by omega, ?_, hpre', by rw [hA, hsr], ?_, ?_, ?_, ?_⟩⟩
        · rcases hflag with ⟨f1, _, f3⟩ | ⟨f1, _, _, f4⟩
          · exact Or.inl ⟨by omega, by omega⟩
          · exact Or.inr ⟨by omega, f4⟩
        · rw [← c3]
          by_cases hle : a1.samples ≤ sr1
          · have := d8 hle
            rw [hs1] at this
            rw [← this, hpre']
            congr 1
            omega
          · have e0 : (2 * a2.preSamples).toNat = 0 := by omega
            rw [e0, List.take_zero, List.drop_eq_nil_of_le]
            rw [List.length_take]; omega
        · intro hv
          have hv1 : a1.volume = 0 := by rw [hcfg.2.2.2.2]; exact hv
          rw [d9 hv1, ← c3, ← hsr, hzeq]
          rw [take_bytesOf_take a1.sourceBuffer (2 * sr1) (min len (4 * sr1)) (by omega)]
          rw [List.append_assoc]
          congr 1
          rw [List.drop_append_eq_append_drop, List.drop_replicate, List.length_replicate,
            List.drop_drop]
          congr 2 <;> omega
        · rcases hbound with h | h
          · exact Or.inl h
          · exact Or.inr (fun D hD => by have := h D hD; omega)
        · intro i hi
          have := (deliver_out mixer a1 sr1 z len _ _ hdel).2.2.1 i (by omega)
          rw [this, hzeq]

theorem length_sinkBytes (mixer : Mixer) (format : Nat) (volume : Int) (audio : List Nat) :
    (sinkBytes mixer format volume audio).length = audio.length := by
  unfold sinkBytes
  split
  · rfl
  · rw [List.length_map, List.length_range]

/-- The region that the code behind the loop leaves, whenever it completes: its first
`min(len, 4 * samplesRead)` bytes are a copy of the front of the working buffer when the
volume is 0 and the mix of SDL of the region with that front otherwise, and the bytes behind
them are the ones the region held. -/
theorem deliver_written (mixer : Mixer) (app : App) (sr : Int) (stream : List Nat) (len : Int)
    (app' : App) (out : List Nat)
    (hrun : deliver mixer app sr stream len = .ok (app', out)) :
    (app.volume = 0 →
        out = (bytesOf app.sourceBuffer).take (min len (4 * sr)).toNat
          ++ stream.drop (min len (4 * sr)).toNat) ∧
      (app.volume ≠ 0 →
        out = (List.range (min len (4 * sr)).toNat).map
            (fun i => mixer (stream.take (min len (4 * sr)).toNat)
              ((bytesOf app.sourceBuffer).take (min len (4 * sr)).toNat)
              app.format app.volume i)
          ++ stream.drop (min len (4 * sr)).toNat) := by
  unfold deliver at hrun
  simp only at hrun
  have hm : (if len < sr * 4 then len else sr * 4) = min len (4 * sr) := by
    split <;> omega
  rw [hm] at hrun
  generalize min len (4 * sr) = m at hrun ⊢
  have hvol : (if sr > app.samples then
      ({ app with preSamples := sr - app.samples } : App) else app).volume = app.volume := by
    split <;> rfl
  have hsb : (if sr > app.samples then
      ({ app with preSamples := sr - app.samples } : App) else app).sourceBuffer
        = app.sourceBuffer := by
    split <;> rfl
  have hfm : (if sr > app.samples then
      ({ app with preSamples := sr - app.samples } : App) else app).format = app.format := by
    split <;> rfl
  rw [hvol, hsb, hfm] at hrun
  have key : ∀ written : List Nat, (if app.volume = 0 then memcpyBytes stream app.sourceBuffer m
      else SDL_MixAudioFormat mixer stream (bytesOf app.sourceBuffer) app.format m app.volume)
        = some written →
      (app.volume = 0 →
        written = (bytesOf app.sourceBuffer).take m.toNat ++ stream.drop m.toNat) ∧
      (app.volume ≠ 0 →
        written = (List.range m.toNat).map
            (fun i => mixer (stream.take m.toNat) ((bytesOf app.sourceBuffer).take m.toNat)
              app.format app.volume i)
          ++ stream.drop m.toNat) := by
    intro written hw
    by_cases hv : app.volume = 0
    · rw [if_pos hv] at hw
      unfold memcpyBytes at hw
      split at hw
      · simp only [Option.some.injEq] at hw
        exact ⟨fun _ => hw.symm, fun h => absurd hv h⟩
      · simp at hw
    · rw [if_neg hv] at hw
      unfold SDL_MixAudioFormat at hw
      split at hw
      · simp only [Option.some.injEq] at hw
        exact ⟨fun h => absurd h hv, fun _ => hw.symm⟩
      · simp at hw
  split at hrun
  · simp at hrun
  · rename_i written hw
    have hk := key written hw
    split at hrun
    · split at hrun
      · simp at hrun
      · simp only [Run.ok.injEq, Prod.mk.injEq] at hrun
        obtain ⟨_, rfl⟩ := hrun
        exact hk
    · simp only [Run.ok.injEq, Prod.mk.injEq] at hrun
      obtain ⟨_, rfl⟩ := hrun
      exact hk

/-- What one invocation writes, for every volume. From a session with a consistent carry, an
invocation that completes without a decode error fills the front of the region, as far as
the audio at hand goes, with `sinkBytes` of the front of "carried samples followed by the
decoded stream of the replies it consumed", and leaves zeros behind it. -/
theorem streamCallback_sink (mixer : Mixer) (app : App) (handle : OggOpusFile)
    (stream : List Nat) (len : Int) (app' : App) (handle' : OggOpusFile) (out : List Nat)
    (cs : List Chunk)
    (hrun : streamCallback mixer app handle stream len = .ok (app', handle', out))
    (hend : app.endReached = 0) (hinv : CarryOk app) (hlen : len = 4 * app.samples)
    (hcs : handle = cs ++ handle') (hpos : ∀ c ∈ cs, 0 ≤ c.decRes) :
    out = sinkBytes mixer app.format app.volume
          ((bytesOf (app.sourceBuffer.take (2 * app.preSamples).toNat
              ++ decodedStream app.channels cs)).take
            (min len (4 * (app.preSamples + framesOf cs))).toNat)
        ++ List.replicate (len - min len (4 * (app.preSamples + framesOf cs))).toNat 0
        ++ stream.drop len.toNat := by
  obtain ⟨hp0, hso, hpfit⟩ := hinv
  unfold streamCallback at hrun
  split at hrun
  · simp at hrun
  · rename_i z hz
    obtain ⟨hl0, hl1, hzeq, hzlen⟩ := memset_some _ _ _ hz
    simp only [hend, ne_eq, not_true_eq_false, if_false] at hrun
    split at hrun
    · simp at hrun
    · simp at hrun
    · -- decode error: excluded by `hpos`
      rename_i a1 h1 hloop
      simp only [Run.ok.injEq, Prod.mk.injEq] at hrun
      obtain ⟨rfl, rfl, rfl⟩ := hrun
      obtain ⟨pre, c, hcs2, hneg, _⟩ := pullLoop_returned _ _ _ _ _ _ hloop
      have hE : cs = pre ++ [c] := by
        have : cs ++ h1 = (pre ++ [c]) ++ h1 := by rw [← hcs, hcs2]; simp
        exact List.append_cancel_right this
      have := hpos c (by rw [hE]; simp)
      omega
    · rename_i a1 h1 sr1 hloop
      split at hrun
      · simp at hrun
      · simp at hrun
      · rename_i a2 out2 hdel
        simp only [Run.ok.injEq, Prod.mk.injEq] at hrun
        obtain ⟨rfl, rfl, rfl⟩ := hrun
        obtain ⟨cs2, hcs2, hpos2, hsr, hcfg, _, _, _, _, _, hcontent⟩ :=
          pullLoop_fellThrough _ _ _ _ _ _ _ hloop
        have hE : cs2 = cs := by
          have : cs2 ++ h1 = cs ++ h1 := by rw [← hcs2, hcs]
          exact List.append_cancel_right this
        subst hE
        obtain ⟨c1, c2, c3⟩ := hcontent hp0 hso (by simpa using hpfit)
        simp only at c1 c2 c3 hcfg hsr
        have hfr : 0 ≤ framesOf cs2 := framesOf_nonneg cs2 hpos2
        have hvol : a1.volume = app.volume := hcfg.2.2.2.2
        have hfmt : a1.format = app.format := hcfg.1
        have hch : a1.channels = app.channels := hcfg.2.2.2.1
        obtain ⟨w0, w1⟩ := deliver_written mixer a1 sr1 z len a2 out2 hdel
        rw [← hsr]
        have hfront : (bytesOf a1.sourceBuffer).take (min len (4 * sr1)).toNat
            = (bytesOf (app.sourceBuffer.take (2 * app.preSamples).toNat
                ++ decodedStream app.channels cs2)).take (min len (4 * sr1)).toNat := by
          rw [take_bytesOf_take a1.sourceBuffer (2 * sr1) (min len (4 * sr1)) (by omega), c3]
        have hflen : ((bytesOf a1.sourceBuffer).take (min len (4 * sr1)).toNat).length
            = (min len (4 * sr1)).toNat := by
          rw [List.length_take, length_bytesOf]
          omega
        have hztake : z.take (min len (4 * sr1)).toNat
            = List.replicate (min len (4 * sr1)).toNat 0 := by
          rw [hzeq, List.take_append_of_le_length (by rw [List.length_replicate]; omega),
            List.take_replicate]
          congr 1
          omega
        have hzdrop : z.drop (min len (4 * sr1)).toNat
            = List.replicate (len - min len (4 * sr1)).toNat 0 ++ stream.drop len.toNat := by
          rw [hzeq, List.drop_append_eq_append_drop, List.drop_replicate, List.length_replicate,
            List.drop_drop]
          congr 2 <;> omega
        rw [← hfront]
        unfold sinkBytes
        by_cases hv : app.volume = 0
        · rw [if_pos hv, w0 (by rw [hvol]; exact hv), hzdrop, List.append_assoc]
        · rw [if_neg hv, w1 (by rw [hvol]; exact hv), hzdrop, hztake, hflen, hvol, hfmt,
            List.append_assoc]

/-- After the end of the stream every invocation is silent: a run changes nothing but
`closeOnNextTick` and leaves the decoder alone. -/
theorem playback_silent (mixer : Mixer) (len : Int) : ∀ (streams : List (List Nat)) (app : App)
    (handle : OggOpusFile) (app' : App) (handle' : OggOpusFile) (out : List Nat),
    app.endReached ≠ 0 →
    playback mixer len streams app handle = .ok (app', handle', out) →
    handle' = handle ∧ app'.endReached = app.endReached ∧ SameConfig app app' ∧
      app'.preSamples = app.preSamples ∧ app'.savedOffset = app.savedOffset ∧
      app'.sourceBuffer = app.sourceBuffer ∧ app'.shouldClose = app.shouldClose
  | [], app, handle, app', handle', out, _, hrun => by
    simp only [playback, Run.ok.injEq, Prod.mk.injEq] at hrun
    obtain ⟨rfl, rfl, rfl⟩ := hrun
    exact ⟨rfl, rfl, sameConfig_refl _, rfl, rfl, rfl, rfl⟩
  | stream :: more, app, handle, app', handle', out, hend, hrun => by
    unfold playback at hrun
    split at hrun
    · simp at hrun
    · simp at hrun
    · rename_i a1 h1 o1 hcb
      unfold streamCallback at hcb
      split at hcb
      · simp at hcb
      · simp only [hend, ne_eq, not_false_eq_true, if_true, Run.ok.injEq, Prod.mk.injEq] at hcb
        obtain ⟨rfl, rfl, rfl⟩ := hcb
        split at hrun
        · simp at hrun
        · simp at hrun
        · rename_i a2 h2 o2 hrest
          simp only [Run.ok.injEq, Prod.mk.injEq] at hrun
          obtain ⟨rfl, rfl, rfl⟩ := hrun
          exact playback_silent mixer len more { app with closeOnNextTick := 1 } handle
            a2 h2 o2 hend hrest

/-- A run of invocations from a session whose carry is consistent: the carry stays
consistent, and as long as no decode error and no end of stream is met, the regions hold, one
after the other, the bytes of "carried samples followed by the decoded stream", with the
undelivered rest of it in front of the working buffer. -/
theorem playback_carry (mixer : Mixer) (len : Int) : ∀ (streams : List (List Nat)) (app : App)
    (handle : OggOpusFile) (app' : App) (handle' : OggOpusFile) (out : List Nat),
    playback mixer len streams app handle = .ok (app', handle', out) →
    app.endReached = 0 → CarryOk app → len = 4 * app.samples →
    ∃ cs, handle = cs ++ handle' ∧ SameConfig app app' ∧ CarryOk app' ∧
      (0 < app.samples → app.preSamples < app.samples →
        (∀ c ∈ cs, c.decRes ≤ app.samples) → app'.preSamples < app.samples) ∧
      ((∀ s ∈ streams, (s.length : Int) = len) →
        (∀ c ∈ cs, 0 ≤ c.decRes) → app'.endReached = 0 → app.volume = 0 →
        out = (bytesOf (app.sourceBuffer.take (2 * app.preSamples).toNat
            ++ decodedStream app.channels cs)).take (streams.length * len.toNat) ∧
        bytesOf (app'.sourceBuffer.take (2 * app'.preSamples).toNat)
          = (bytesOf (app.sourceBuffer.take (2 * app.preSamples).toNat
            ++ decodedStream app.channels cs)).drop (streams.length * len.toNat))
  | [], app, handle, app', handle', out, hrun, _, hinv, _ => by
    simp only [playback, Run.ok.injEq, Prod.mk.injEq] at hrun
    obtain ⟨rfl, rfl, rfl⟩ := hrun
    refine ⟨[], rfl, sameConfig_refl _, hinv, fun _ h _ => h, ?_⟩
    intro _ _ _ _
    simp [decodedStream]
  | stream :: more, app, handle, app', handle', out, hrun, hend, hinv, hlen => by
    unfold playback at hrun
    split at hrun
    · simp at hrun
    · simp at hrun
    · rename_i a1 h1 o1 hcb
      split at hrun
      · simp at hrun
      · simp at hrun
      · rename_i a2 h2 o2 hrest
        simp only [Run.ok.injEq, Prod.mk.injEq] at hrun
        obtain ⟨rfl, rfl, rfl⟩ := hrun
        obtain ⟨cs1, hcs1, hcfg1, hinv1, hsb1, _, hcase⟩ :=
          streamCallback_step mixer app handle stream len a1 h1 o1 hcb hend hinv hlen
        have hs1 : a1.samples = app.samples := hcfg1.2.2.1
        have hch1 : a1.channels = app.channels := hcfg1.2.2.2.1
        have hv1 : a1.volume = app.volume := hcfg1.2.2.2.2
        have hlen0 : 0 ≤ app.samples := by
          have := (streamCallback_len mixer app handle stream len _ hcb).1
          omega
        by_cases hend1 : a1.endReached = 0
        · -- the stream goes on
          obtain ⟨cs2, hcs2, hcfg2, hinv2, hb2, hcont2⟩ :=
            playback_carry mixer len more a1 h1 a2 h2 o2 hrest hend1 hinv1 (by omega)
          have hs2 : a2.samples = a1.samples := hcfg2.2.2.1
          refine ⟨cs1 ++ cs2, by rw [hcs1, hcs2, List.append_assoc], sameConfig_trans hcfg1 hcfg2, hinv2,
            ?_, ?_⟩
          · intro hpos hpre hD
            have hD2 : ∀ c ∈ cs2, c.decRes ≤ a1.samples := fun c hc => by
              rw [hs1]; exact hD c (List.mem_append_right _ hc)
            have hD1 : ∀ c ∈ cs1, c.decRes ≤ app.samples := fun c hc =>
              hD c (List.mem_append_left _ hc)
            have hp1 : a1.preSamples < a1.samples := by
              rcases hcase with ⟨_, _, hp, _, _⟩ | ⟨_, _, _, hp, _, _, _, hb, _⟩
              · omega
              · rcases hb with rfl | hb
                · simp only [framesOf] at hp; omega
                · have := hb _ hD1
                  omega
            have := hb2 (by omega) hp1 hD2
            omega
          · intro hstreams hpos hend2 hv
            have hsl : (stream.length : Int) = len := hstreams stream (by simp)
            have hpos1 : ∀ c ∈ cs1, 0 ≤ c.decRes := fun c hc =>
              hpos c (List.mem_append_left _ hc)
            have hpos2 : ∀ c ∈ cs2, 0 ≤ c.decRes := fun c hc =>
              hpos c (List.mem_append_right _ hc)
            rcases hcase with ⟨⟨c, hc, hneg⟩, _⟩ | ⟨_, _, hfl, hp1, hA, hcarry, hout, _⟩
            · have := hpos1 c hc
              omega
            · have hfull : app.samples ≤ app.preSamples + framesOf cs1 := by
                rcases hfl with ⟨_, h⟩ | ⟨h, _⟩
                · exact h
                · omega
              obtain ⟨ho2, hc2⟩ := hcont2
                (fun s hs => hstreams s (List.mem_cons_of_mem _ hs)) hpos2 hend2 (by omega)
              rw [hcarry, hch1] at ho2 hc2
              have hm : min len (4 * (app.preSamples + framesOf cs1)) = len := by omega
              rw [hm] at hout
              have hout' := hout hv
              have e0 : (len - len).toNat = 0 := by omega
              have e1 : List.drop len.toNat stream = [] :=
                List.drop_eq_nil_of_le (by omega)
              rw [e0, e1] at hout'
              simp only [List.replicate_zero, List.append_nil] at hout'
              -- split the stream at one request
              set A := app.sourceBuffer.take (2 * app.preSamples).toNat
                ++ decodedStream app.channels cs1 with hAdef
              have hlenNat : len.toNat = 2 * (2 * app.samples).toNat := by omega
              have hAlen : (2 * app.samples).toNat ≤ A.length := by rw [hA]; omega
              have hsplit : A ++ decodedStream app.channels cs2
                  = A.take (2 * app.samples).toNat
                    ++ (A.drop (2 * app.samples).toNat ++ decodedStream app.channels cs2) := by
                rw [← List.append_assoc, List.take_append_drop]
              have hfront : (bytesOf (A.take (2 * app.samples).toNat)).length = len.toNat := by
                rw [length_bytesOf, List.length_take]; omega
              rw [decodedStream_append, ← List.append_assoc, ← hAdef, hsplit, bytesOf_append]
              have hk : (stream :: more).length * len.toNat
                  = (bytesOf (A.take (2 * app.samples).toNat)).length
                    + more.length * len.toNat := by
                rw [hfront, List.length_cons]; ring
              rw [hk, List.take_append, List.drop_append, ← ho2, ← hc2, hout', hlenNat,
                take_bytesOf]
              exact ⟨rfl, rfl⟩
        · -- the end of the stream was met: what follows is silent
          obtain ⟨rfl, he2, hcfg2, hp2, hso2, hsb2, _⟩ :=
            playback_silent mixer len more a1 h1 a2 h2 o2 hend1 hrest
          refine ⟨cs1, hcs1, sameConfig_trans hcfg1 hcfg2, ?_, ?_, ?_⟩
          · obtain ⟨i1, i2, i3⟩ := hinv1
            exact ⟨by omega, by omega, by rw [hsb2]; omega⟩
          · intro hpos hpre hD
            rcases hcase with ⟨_, _, hp, _, _⟩ | ⟨_, _, _, hp, _, _, _, hb, _⟩
            · omega
            · rcases hb with rfl | hb
              · simp only [framesOf] at hp; omega
              · have := hb _ hD
                omega
          · intro _ _ hend2 _
            omega

/-- C2. The carry bridges chunk size and request size. Take any run of invocations from the
start of a session (empty carry) with passthrough volume and `len = 4 * samples`, each handed
a region of `len` bytes, that runs to its end inside the buffers (`.ok`), consumes the replies
`cs` none of which is a decode error, and does not reach the end of the stream. Then the
regions, concatenated, are the first `k * len` bytes of the stereo-expanded decoded stream of
`cs`, and the first `savedOffset` bytes of `sourceBuffer` are the bytes of that stream that
follow them. Nothing limits the surplus, so this covers a surplus larger than `len`, where the
in-place shift overlaps its source. -/
theorem carry_bridges_requests (mixer : Mixer) (app : App) (handle : OggOpusFile)
    (streams : List (List Nat)) (len : Int) (app' : App) (handle' : OggOpusFile)
    (out : List Nat) (cs : List Chunk)
    (hvol : app.volume = 0) (hlen : len = 4 * app.samples)
    (hpre : app.preSamples = 0) (hso : app.savedOffset = 0) (hend : app.endReached = 0)
    (hstreams : ∀ s ∈ streams, (s.length : Int) = len)
    (hrun : playback mixer len streams app handle = .ok (app', handle', out))
    (hcs : handle = cs ++ handle') (hpos : ∀ c ∈ cs, 0 ≤ c.decRes)
    (hend' : app'.endReached = 0) :
    out = (bytesOf (decodedStream app.channels cs)).take (streams.length * len.toNat) ∧
      (bytesOf app'.sourceBuffer).take app'.savedOffset.toNat
        = (bytesOf (decodedStream app.channels cs)).drop (streams.length * len.toNat) := by
  have hinv : CarryOk app := ⟨by omega, by omega, by omega⟩
  obtain ⟨cs', hcs', _, hinv', _, hcont⟩ :=
    playback_carry mixer len streams app handle app' handle' out hrun hend hinv hlen
  have hEq : cs' = cs := List.append_cancel_right (hcs'.symm.trans hcs)
  subst hEq
  obtain ⟨h1, h2⟩ := hcont hstreams hpos hend' hvol
  have e0 : (2 * app.preSamples).toNat = 0 := by omega
  rw [e0, List.take_zero, List.nil_append] at h1 h2
  refine ⟨h1, ?_⟩
  rw [← h2, ← take_bytesOf]
  congr 1
  have := hinv'.2.1
  omega

/-- Witness of `carry_bridges_requests`: one frame per request and a reply of three frames, so
that the surplus after the first invocation (8 bytes) is larger than `len = 4`. -/
theorem carry_bridges_requests_witness :
    [1, 0, 2, 0, 3, 0, 4, 0]
        = (bytesOf (decodedStream (freshApp 1 2 100 0 8).channels
            [⟨3, [1, 2, 3, 4, 5, 6], 3⟩])).take
          ([[9, 9, 9, 9], [9, 9, 9, 9]].length * (4 : Int).toNat) ∧
      (bytesOf ({ freshApp 1 2 100 0 8 with
            sourceBuffer := [5, 6, 5, 6, 5, 6, 0, 0], decodeBuffer := [1, 2, 3, 4, 5, 6],
            pcmPos := 3, savedOffset := 4, preSamples := 1 } : App).sourceBuffer).take
          ({ freshApp 1 2 100 0 8 with
            sourceBuffer := [5, 6, 5, 6, 5, 6, 0, 0], decodeBuffer := [1, 2, 3, 4, 5, 6],
            pcmPos := 3, savedOffset := 4, preSamples := 1 } : App).savedOffset.toNat
        = (bytesOf (decodedStream (freshApp 1 2 100 0 8).channels
            [⟨3, [1, 2, 3, 4, 5, 6], 3⟩])).drop
          ([[9, 9, 9, 9], [9, 9, 9, 9]].length * (4 : Int).toNat) :=
  carry_bridges_requests muteMixer (freshApp 1 2 100 0 8)
    [⟨3, [1, 2, 3, 4, 5, 6], 3⟩, ⟨3, [7, 8, 9, 10, 11, 12], 6⟩]
    [[9, 9, 9, 9], [9, 9, 9, 9]] 4 _ [⟨3, [7, 8, 9, 10, 11, 12], 6⟩] [1, 0, 2, 0, 3, 0, 4, 0]
    [⟨3, [1, 2, 3, 4, 5, 6], 3⟩]
    (by decide) (by decide) (by decide) (by decide) (by decide) (by decide) (by decide)
    (by decide) (by decide) (by decide)

theorem deliver_ne_starved (mixer : Mixer) (app : App) (sr : Int) (stream : List Nat)
    (len : Int) : deliver mixer app sr stream len ≠ .starved := by
  unfold deliver
  simp only
  split
  · simp
  · split
    · split <;> simp
    · simp

/-- An invocation that uses up its replies and asks for more has zeroed the region, found
`endReached` clear, and its loop is the one that asks. -/
theorem streamCallback_starved (mixer : Mixer) (app : App) (handle : OggOpusFile)
    (stream : List Nat) (len : Int)
    (hrun : streamCallback mixer app handle stream len = .starved) :
    0 ≤ len ∧ len ≤ stream.length ∧ app.endReached = 0 ∧
      pullLoop handle { app with preSamples := 0, savedOffset := 0 }
        app.preSamples app.savedOffset = .starved := by
  unfold streamCallback at hrun
  split at hrun
  · simp at hrun
  · rename_i z hz
    obtain ⟨h0, h1, _, _⟩ := memset_some _ _ _ hz
    by_cases hend : app.endReached = 0
    · simp only at hrun
      rw [if_neg (not_not.mpr hend)] at hrun
      refine ⟨h0, h1, hend, ?_⟩
      split at hrun
      · simp at hrun
      · assumption
      · simp at hrun
      · rename_i a1 h1 sr1 hloop
        split at hrun
        · simp at hrun
        · rename_i hd
          exact absurd hd (deliver_ne_starved _ _ _ _ _)
        · simp at hrun
    · simp [hend] at hrun

/-- C5. Decode error. In a session with `endReached == 0`, let an invocation use up the
replies `pre` and ask for one more (given `pre` alone it ends `starved`), and let the next
reply `c` be negative. Then the invocation returns: all `len` bytes of the region are 0 (also
when frames were carried over or decoded before `c`), `shouldClose` is 1, `endReached` is
still 0, and the replies after `c` are left to the decoder. -/
theorem decode_error_is_silent (mixer : Mixer) (app : App) (pre : List Chunk) (c : Chunk)
    (rest : List Chunk) (stream : List Nat) (len : Int)
    (hend : app.endReached = 0)
    (hreach : streamCallback mixer app pre stream len = .starved)
    (hneg : c.decRes < 0) :
    ∃ app', streamCallback mixer app (pre ++ c :: rest) stream len
        = .ok (app', rest, List.replicate len.toNat 0 ++ stream.drop len.toNat) ∧
      app'.shouldClose = 1 ∧ app'.endReached = 0 := by
  obtain ⟨h0, h1, _, hloop⟩ := streamCallback_starved mixer app pre stream len hreach
  obtain ⟨app1, hgo, hlt, _, hcfg, _, _, _, he, _, _⟩ := pullLoop_starved_append _ _ _ _ hloop
  have hcont := hgo (c :: rest)
  have hs1 : app1.samples = app.samples := hcfg.2.2.1
  have hstep : pullLoop (c :: rest) app1 (app.preSamples + framesOf pre)
      (app.savedOffset + 4 * framesOf pre)
        = .ok (.returned { app1 with decodeBuffer := c.pcm, shouldClose := 1 } rest) := by
    conv_lhs => unfold pullLoop
    simp only at hlt
    rw [← hs1] at hlt
    simp only [hlt, if_true, hneg]
  refine ⟨{ app1 with decodeBuffer := c.pcm, shouldClose := 1 }, ?_, rfl, ?_⟩
  · unfold streamCallback
    rw [memset_eq stream len h0 h1]
    simp only
    rw [if_neg (not_not.mpr hend), hcont, hstep]
  · simp only at he ⊢
    omega

/-- Witness of `decode_error_is_silent`: one frame is carried over, a reply of one frame
is decoded, and the next reply is the error `-3`. -/
theorem decode_error_is_silent_witness :
    ∃ app', streamCallback muteMixer
        carrySession ([⟨1, [7, 8], 1⟩] ++ ⟨-3, [], 1⟩ :: [⟨1, [9, 10], 2⟩])
        (List.replicate 16 9) 16
        = .ok (app', [⟨1, [9, 10], 2⟩],
            List.replicate (16 : Int).toNat 0 ++ (List.replicate 16 9).drop (16 : Int).toNat) ∧
      app'.shouldClose = 1 ∧ app'.endReached = 0 :=
  decode_error_is_silent muteMixer carrySession
    [⟨1, [7, 8], 1⟩] ⟨-3, [], 1⟩ [⟨1, [9, 10], 2⟩] (List.replicate 16 9) 16
    (by decide) (by decide) (by decide)

theorem decodedStream_snoc (ch : Int) (pre : List Chunk) (c : Chunk) :
    decodedStream ch (pre ++ [c]) = decodedStream ch pre ++ chunkStereo ch c := by
  rw [decodedStream_append]
  simp [decodedStream]

theorem framesOf_snoc (pre : List Chunk) (c : Chunk) :
    framesOf (pre ++ [c]) = framesOf pre + c.decRes := by
  rw [framesOf_append]
  simp [framesOf]

/-- C4. End of stream. In a session with `endReached == 0` and a consistent carry, let an
invocation (`len = 4 * samples`) use up the replies `pre` and ask for one more, and let the
next reply `c` fit the buffers and leave the decoder position at `pcmTotal`. Then the invocation
returns, having pulled nothing after `c`; it writes the accumulated audio, the first
`min(len, 4 * samplesRead)` bytes of "carry followed by the decoded stream", to the front of
the region (copied when the volume is 0, mixed by SDL into the zeroed region otherwise, which
is `sinkBytes`) and leaves zeros behind them; it sets `endReached` and changes neither
`closeOnNextTick` nor `shouldClose`. The next invocation, whatever region it is handed,
leaves the region zero, leaves the decoder alone and sets `closeOnNextTick`. -/
theorem end_of_stream_then_silence (mixer : Mixer) (app : App) (pre : List Chunk) (c : Chunk)
    (rest : List Chunk) (stream : List Nat) (len : Int)
    (hend : app.endReached = 0) (hp0 : 0 ≤ app.preSamples)
    (hso : app.savedOffset = 4 * app.preSamples) (hlen : len = 4 * app.samples)
    (hreach : streamCallback mixer app pre stream len = .starved)
    (hd : 0 ≤ c.decRes) (hpos : c.pos = app.pcmTotal) (hfit : chunkFits app.channels c)
    (hsrc : 2 * (app.preSamples + framesOf pre + c.decRes) ≤ app.sourceBuffer.length) :
    ∃ app' out, streamCallback mixer app (pre ++ c :: rest) stream len = .ok (app', rest, out) ∧
      app'.endReached = 1 ∧ app'.closeOnNextTick = app.closeOnNextTick ∧
      app'.shouldClose = app.shouldClose ∧
      audioBytes app (pre ++ c :: rest) len
        = .ok (min len (4 * (app.preSamples + framesOf pre + c.decRes))) ∧
      out = sinkBytes mixer app.format app.volume
            ((bytesOf (app.sourceBuffer.take (2 * app.preSamples).toNat
                ++ decodedStream app.channels (pre ++ [c]))).take
              (min len (4 * (app.preSamples + framesOf pre + c.decRes))).toNat)
          ++ List.replicate
            (len - min len (4 * (app.preSamples + framesOf pre + c.decRes))).toNat 0
          ++ stream.drop len.toNat ∧
      (∀ i : Nat, min len (4 * (app.preSamples + framesOf pre + c.decRes)) ≤ i →
        (i : Int) < len → out[i]? = some 0) ∧
      (app.volume = 0 →
        out.take (min len (4 * (app.preSamples + framesOf pre + c.decRes))).toNat
          = (bytesOf (app.sourceBuffer.take (2 * app.preSamples).toNat
              ++ decodedStream app.channels (pre ++ [c]))).take
            (min len (4 * (app.preSamples + framesOf pre + c.decRes))).toNat) ∧
      (∀ (stream2 : List Nat) (len2 : Int), 0 ≤ len2 → len2 ≤ stream2.length →
        streamCallback mixer app' rest stream2 len2
          = .ok ({ app' with closeOnNextTick := 1 }, rest,
              List.replicate len2.toNat 0 ++ stream2.drop len2.toNat)) := by
  obtain ⟨h0, h1, _, hloop⟩ := streamCallback_starved mixer app pre stream len hreach
  obtain ⟨app1, hgo, hlt, hall, hcfg, _, _, _, _, _, hcontent⟩ :=
    pullLoop_starved_append _ _ _ _ hloop
  have hfr : 0 ≤ framesOf pre := framesOf_nonneg pre (fun x hx => (hall x hx).1)
  obtain ⟨c1, c2, _⟩ := hcontent hp0 hso (by simp only; omega)
  simp only at c1 c2 hlt
  have hs1 : app1.samples = app.samples := hcfg.2.2.1
  have hch1 : app1.channels = app.channels := hcfg.2.2.2.1
  have ht1 : app1.pcmTotal = app.pcmTotal := hcfg.2.1
  have hbo : app.savedOffset + 4 * framesOf pre = 4 * (app.preSamples + framesOf pre) := by
    omega
  obtain ⟨sb2, hstore⟩ := storeChunk_isSome app1 c (app.preSamples + framesOf pre) hd
    (by omega) (by rw [hch1]; exact hfit) (by omega)
  have hs := storeChunk_spec app1 c (app.preSamples + framesOf pre) sb2 hstore hd
    (by omega) (by omega)
  -- the loop pulls `c` and stops
  have hstep : pullLoop (pre ++ c :: rest) { app with preSamples := 0, savedOffset := 0 }
      app.preSamples app.savedOffset
        = .ok (.fellThrough
            { app1 with decodeBuffer := c.pcm, sourceBuffer := sb2, pcmPos := c.pos,
                        endReached := 1, preSamples := 0 }
            rest (app.preSamples + framesOf pre + c.decRes)) := by
    rw [hgo (c :: rest), hbo]
    conv_lhs => unfold pullLoop
    rw [← hs1] at hlt
    simp only [hlt, if_true, not_lt.mpr hd, if_false, hstore]
    rw [if_pos (hpos.trans ht1.symm)]
  -- what follows the loop completes
  obtain ⟨app', out, hdel, d1, d2, d3, d4, _⟩ := deliver_spec mixer
    { app1 with decodeBuffer := c.pcm, sourceBuffer := sb2, pcmPos := c.pos,
                endReached := 1, preSamples := 0 }
    (app.preSamples + framesOf pre + c.decRes) (List.replicate len.toNat 0 ++ stream.drop len.toNat)
    len (by omega) (by simp only; omega) (by simp only; omega) (by simp only; omega)
    (by simp only [List.length_append, List.length_replicate, List.length_drop]; omega)
  have hrun : streamCallback mixer app (pre ++ c :: rest) stream len = .ok (app', rest, out) := by
    unfold streamCallback
    rw [memset_eq stream len h0 h1]
    simp only
    rw [if_neg (not_not.mpr hend), hstep]
    simp only
    rw [hdel]
  have hinv : CarryOk app := ⟨hp0, hso, by omega⟩
  obtain ⟨cs, hcs, _, _, _, hct, hcase⟩ :=
    streamCallback_step mixer app _ stream len app' rest out hrun hend hinv hlen
  have hcs' : cs = pre ++ [c] := by
    have : pre ++ [c] ++ rest = cs ++ rest := by rw [← hcs]; simp
    exact (List.append_cancel_right this).symm
  subst hcs'
  have hsum : app.preSamples + framesOf (pre ++ [c])
      = app.preSamples + framesOf pre + c.decRes := by rw [framesOf_snoc]; ring
  rw [hsum] at hcase
  have he' : app'.endReached = 1 := by simpa using d2
  have hnonneg : ∀ x ∈ pre ++ [c], 0 ≤ x.decRes := by
    intro x hx
    rcases List.mem_append.mp hx with hx | hx
    · exact (hall x hx).1
    · simp only [List.mem_singleton] at hx; subst hx; exact hd
  have hsink := streamCallback_sink mixer app (pre ++ c :: rest) stream len app' rest out
    (pre ++ [c]) hrun hend hinv hlen (by simp) hnonneg
  rw [hsum] at hsink
  refine ⟨app', out, hrun, he', hct, ?_, ?_, hsink, ?_, ?_, ?_⟩
  · rcases hcase with ⟨⟨x, hx, hneg⟩, _⟩ | ⟨_, hsc, _⟩
    · rcases List.mem_append.mp hx with hx | hx
      · have := (hall x hx).1; omega
      · simp only [List.mem_singleton] at hx; subst hx; omega
    · exact hsc
  · unfold audioBytes
    rw [if_neg (not_not.mpr hend), hstep]
    simp only
    congr 1
    split <;> omega
  · intro i hi hil
    rcases hcase with ⟨⟨x, hx, hneg⟩, _⟩ | ⟨_, _, _, _, _, _, _, _, htail⟩
    · rcases List.mem_append.mp hx with hx | hx
      · have := (hall x hx).1; omega
      · simp only [List.mem_singleton] at hx; subst hx; omega
    · rw [htail i hi, List.getElem?_append_left (by simp; omega)]
      simp only [List.getElem?_replicate]
      rw [if_pos (by omega)]
  · intro hv
    rcases hcase with ⟨⟨x, hx, hneg⟩, _⟩ | ⟨_, _, _, _, hAlen, _, hout, _⟩
    · rcases List.mem_append.mp hx with hx | hx
      · have := (hall x hx).1; omega
      · simp only [List.mem_singleton] at hx; subst hx; omega
    · rw [hout hv, List.append_assoc]
      exact List.take_left' (by rw [List.length_take, length_bytesOf, hAlen]; omega)
  · intro stream2 len2 g0 g1
    exact streamCallback_silent mixer app' rest stream2 len2 (by omega) g0 g1

/-- Witness of `end_of_stream_then_silence`: with one frame carried over, a reply of one
frame and then the last frame of the stream, 12 of the 16 bytes are audio. -/
theorem end_of_stream_then_silence_witness :
    ∃ app' out, streamCallback muteMixer carrySession
        ([⟨1, [7, 8], 1⟩] ++ ⟨1, [9, 10], 5⟩ :: [⟨1, [0, 0], 6⟩]) (List.replicate 16 9) 16
          = .ok (app', [⟨1, [0, 0], 6⟩], out) ∧
      app'.endReached = 1 ∧ app'.closeOnNextTick = carrySession.closeOnNextTick ∧
      app'.shouldClose = carrySession.shouldClose ∧
      audioBytes carrySession ([⟨1, [7, 8], 1⟩] ++ ⟨1, [9, 10], 5⟩ :: [⟨1, [0, 0], 6⟩]) 16
        = .ok (min 16 (4 * (carrySession.preSamples + framesOf [⟨1, [7, 8], 1⟩]
            + (⟨1, [9, 10], 5⟩ : Chunk).decRes))) ∧
      out = sinkBytes muteMixer carrySession.format carrySession.volume
            ((bytesOf (carrySession.sourceBuffer.take (2 * carrySession.preSamples).toNat
                ++ decodedStream carrySession.channels
                  ([⟨1, [7, 8], 1⟩] ++ [⟨1, [9, 10], 5⟩]))).take
              (min 16 (4 * (carrySession.preSamples + framesOf [⟨1, [7, 8], 1⟩]
                + (⟨1, [9, 10], 5⟩ : Chunk).decRes))).toNat)
          ++ List.replicate
            (16 - min 16 (4 * (carrySession.preSamples + framesOf [⟨1, [7, 8], 1⟩]
              + (⟨1, [9, 10], 5⟩ : Chunk).decRes))).toNat 0
          ++ (List.replicate 16 9).drop (16 : Int).toNat ∧
      (∀ i : Nat, min 16 (4 * (carrySession.preSamples + framesOf [⟨1, [7, 8], 1⟩]
            + (⟨1, [9, 10], 5⟩ : Chunk).decRes)) ≤ i →
        (i : Int) < 16 → out[i]? = some 0) ∧
      (carrySession.volume = 0 →
        out.take (min 16 (4 * (carrySession.preSamples + framesOf [⟨1, [7, 8], 1⟩]
            + (⟨1, [9, 10], 5⟩ : Chunk).decRes))).toNat
          = (bytesOf (carrySession.sourceBuffer.take (2 * carrySession.preSamples).toNat
              ++ decodedStream carrySession.channels
                ([⟨1, [7, 8], 1⟩] ++ [⟨1, [9, 10], 5⟩]))).take
            (min 16 (4 * (carrySession.preSamples + framesOf [⟨1, [7, 8], 1⟩]
              + (⟨1, [9, 10], 5⟩ : Chunk).decRes))).toNat) ∧
      (∀ (stream2 : List Nat) (len2 : Int), 0 ≤ len2 → len2 ≤ stream2.length →
        streamCallback muteMixer app' [⟨1, [0, 0], 6⟩] stream2 len2
          = .ok ({ app' with closeOnNextTick := 1 }, [⟨1, [0, 0], 6⟩],
              List.replicate len2.toNat 0 ++ stream2.drop len2.toNat)) :=
  end_of_stream_then_silence muteMixer carrySession [⟨1, [7, 8], 1⟩] ⟨1, [9, 10], 5⟩
    [⟨1, [0, 0], 6⟩] (List.replicate 16 9) 16
    (by decide) (by decide) (by decide) (by decide) (by decide) (by decide) (by decide)
    (by decide) (by decide)

/-- The code that follows the loop touches only the carry: `preSamples`, `savedOffset` and
the working buffer. -/
theorem deliver_frame (mixer : Mixer) (app : App) (sr : Int) (stream : List Nat) (len : Int)
    (app' : App) (out : List Nat)
    (hrun : deliver mixer app sr stream len = .ok (app', out)) :
    SameConfig app app' ∧ app'.endReached = app.endReached ∧
      app'.closeOnNextTick = app.closeOnNextTick ∧ app'.shouldClose = app.shouldClose ∧
      app'.pcmPos = app.pcmPos ∧ app'.decodeBuffer = app.decodeBuffer := by
  unfold deliver at hrun
  simp only at hrun
  split at hrun
  · simp at hrun
  · split at hrun
    · split at hrun
      · simp at hrun
      · simp only [Run.ok.injEq, Prod.mk.injEq] at hrun
        obtain ⟨rfl, _⟩ := hrun
        split <;> exact ⟨⟨rfl, rfl, rfl, rfl, rfl⟩, rfl, rfl, rfl, rfl, rfl⟩
    · simp only [Run.ok.injEq, Prod.mk.injEq] at hrun
      obtain ⟨rfl, _⟩ := hrun
      split <;> exact ⟨⟨rfl, rfl, rfl, rfl, rfl⟩, rfl, rfl, rfl, rfl, rfl⟩

/-- C3, as amended. For every invocation that is entered with `endReached == 0`, has
`len = 4 * samples`, completes, and consumes the replies `cs` none of which is a decode error:
the loop is left with `samplesRead` = carried frames + frames of `cs` and a working buffer
`working`; with `m = min(len, 4 * samplesRead)`, every output byte `m ≤ i < len` is 0 whatever
the volume is; with passthrough volume every output byte `i < m` is byte `i` of the working
buffer; and when the invocation does not reach the end of the stream, `m = len`. -/
theorem delivered_region (mixer : Mixer) (app : App) (handle : OggOpusFile)
    (stream : List Nat) (len : Int) (app' : App) (handle' : OggOpusFile) (out : List Nat)
    (cs : List Chunk)
    (hend : app.endReached = 0) (hlen : len = 4 * app.samples)
    (hrun : streamCallback mixer app handle stream len = .ok (app', handle', out))
    (hcs : handle = cs ++ handle') (hpos : ∀ c ∈ cs, 0 ≤ c.decRes) :
    ∃ working, pullLoop handle { app with preSamples := 0, savedOffset := 0 }
        app.preSamples app.savedOffset
          = .ok (.fellThrough working handle' (app.preSamples + framesOf cs)) ∧
      (∀ i : Nat, min len (4 * (app.preSamples + framesOf cs)) ≤ i → (i : Int) < len →
        out[i]? = some 0) ∧
      (app.volume = 0 → ∀ i : Nat, (i : Int) < min len (4 * (app.preSamples + framesOf cs)) →
        out[i]? = (bytesOf working.sourceBuffer)[i]?) ∧
      (app'.endReached = 0 → min len (4 * (app.preSamples + framesOf cs)) = len) := by
  unfold streamCallback at hrun
  split at hrun
  · simp at hrun
  · rename_i z hz
    obtain ⟨hl0, hl1, hzeq, hzlen⟩ := memset_some _ _ _ hz
    simp only at hrun
    rw [if_neg (not_not.mpr hend)] at hrun
    split at hrun
    · simp at hrun
    · simp at hrun
    · -- a decode error is excluded
      rename_i a1 h1 hloop
      simp only [Run.ok.injEq, Prod.mk.injEq] at hrun
      obtain ⟨rfl, rfl, rfl⟩ := hrun
      obtain ⟨pre, c, hh, hneg, _⟩ := pullLoop_returned _ _ _ _ _ _ hloop
      have : cs ++ h1 = (pre ++ [c]) ++ h1 := by rw [← hcs, hh]; simp
      have hcs' := List.append_cancel_right this
      have := hpos c (by rw [hcs']; simp)
      omega
    · rename_i a1 h1 sr1 hloop
      split at hrun
      · simp at hrun
      · simp at hrun
      · rename_i a2 out2 hdel
        simp only [Run.ok.injEq, Prod.mk.injEq] at hrun
        obtain ⟨rfl, rfl, rfl⟩ := hrun
        obtain ⟨cs', hcs', _, hsr, hcfg, _, _, _, hflag, _, _⟩ :=
          pullLoop_fellThrough _ _ _ _ _ _ _ hloop
        have hE : cs' = cs := List.append_cancel_right (hcs'.symm.trans hcs)
        subst hE
        subst hsr
        obtain ⟨_, _, htail, hhead⟩ := deliver_out mixer a1 _ z len _ _ hdel
        obtain ⟨_, he2, _⟩ := deliver_frame mixer a1 _ z len _ _ hdel
        refine ⟨a1, hloop, ?_, ?_, ?_⟩
        · intro i hi hil
          rw [htail i hi, hzeq, List.getElem?_append_left (by simp; omega)]
          simp only [List.getElem?_replicate]
          rw [if_pos (by omega)]
        · intro hv i hi
          exact hhead (by rw [hcfg.2.2.2.2]; exact hv) i hi
        · intro he
          rcases hflag with ⟨_, _, h3⟩ | ⟨h1, _⟩
          · simp only at h3
            omega
          · omega

/-- Witness of `delivered_region`: one carried frame, replies of one and of three frames, a
request of four frames. -/
theorem delivered_region_witness :
    ∃ working, pullLoop [⟨1, [7, 8], 1⟩, ⟨3, [9, 10, 11, 12, 13, 14], 4⟩, ⟨1, [0, 0], 5⟩]
        { carrySession with preSamples := 0, savedOffset := 0 }
        carrySession.preSamples carrySession.savedOffset
          = .ok (.fellThrough working [⟨1, [0, 0], 5⟩]
              (carrySession.preSamples
                + framesOf [⟨1, [7, 8], 1⟩, ⟨3, [9, 10, 11, 12, 13, 14], 4⟩])) ∧
      (∀ i : Nat, min 16 (4 * (carrySession.preSamples
            + framesOf [⟨1, [7, 8], 1⟩, ⟨3, [9, 10, 11, 12, 13, 14], 4⟩])) ≤ i →
        (i : Int) < 16 →
        [5, 0, 6, 0, 7, 0, 8, 0, 9, 0, 10, 0, 11, 0, 12, 0][i]? = some 0) ∧
      (carrySession.volume = 0 → ∀ i : Nat, (i : Int) < min 16 (4 * (carrySession.preSamples
            + framesOf [⟨1, [7, 8], 1⟩, ⟨3, [9, 10, 11, 12, 13, 14], 4⟩])) →
        [5, 0, 6, 0, 7, 0, 8, 0, 9, 0, 10, 0, 11, 0, 12, 0][i]?
          = (bytesOf working.sourceBuffer)[i]?) ∧
      (({ carrySession with
            sourceBuffer := [13, 14, 7, 8, 9, 10, 11, 12, 13, 14, 0, 0, 0, 0, 0, 0],
            decodeBuffer := [9, 10, 11, 12, 13, 14], pcmPos := 4 } : App).endReached = 0 →
        min 16 (4 * (carrySession.preSamples
            + framesOf [⟨1, [7, 8], 1⟩, ⟨3, [9, 10, 11, 12, 13, 14], 4⟩])) = 16) :=
  delivered_region muteMixer carrySession
    [⟨1, [7, 8], 1⟩, ⟨3, [9, 10, 11, 12, 13, 14], 4⟩, ⟨1, [0, 0], 5⟩] (List.replicate 16 9) 16
    { carrySession with
      sourceBuffer := [13, 14, 7, 8, 9, 10, 11, 12, 13, 14, 0, 0, 0, 0, 0, 0],
      decodeBuffer := [9, 10, 11, 12, 13, 14], pcmPos := 4 }
    [⟨1, [0, 0], 5⟩] [5, 0, 6, 0, 7, 0, 8, 0, 9, 0, 10, 0, 11, 0, 12, 0]
    [⟨1, [7, 8], 1⟩, ⟨3, [9, 10, 11, 12, 13, 14], 4⟩]
    (by decide) (by decide) (by decide) (by decide) (by decide)

/-- Counterexample to C3 as stated. A stream of 3 frames, requests of 2 frames
(`len = 8 = 4 * samples`), passthrough volume. The first invocation ends in `overshotSession`:
the end is reached and one frame is carried. The second invocation makes no decoder call, so
it does not return on a decode error, and its `samplesRead` (carried + decoded) is 1, so
`m = min(8, 4) = 4`; yet output byte 0 is 0 while byte 0 of the working buffer is 5. -/
theorem silent_invocation_skips_carry :
    streamCallback muteMixer (freshApp 2 2 3 0 8) [⟨3, [1, 2, 3, 4, 5, 6], 3⟩]
        (List.replicate 8 9) 8
        = .ok (overshotSession, [], [1, 0, 2, 0, 3, 0, 4, 0]) ∧
      streamCallback muteMixer overshotSession [] (List.replicate 8 9) 8
        = .ok ({ overshotSession with closeOnNextTick := 1 }, [], List.replicate 8 0) ∧
      (8 : Int) = 4 * overshotSession.samples ∧ overshotSession.volume = 0 ∧
      min (8 : Int) (4 * (overshotSession.preSamples + framesOf [])) = 4 ∧
      (List.replicate 8 0)[0]? = some 0 ∧
      (bytesOf overshotSession.sourceBuffer)[0]? = some 5 := by
  decide

/-- C8, as amended. Start a session with `savedOffset == 0` and `preSamples == 0`, let
`samples > 0` and `len = 4 * samples`, and take any run of invocations that completes, with
any decoder replies (errors and end of stream included). After the run, whatever its length,
`savedOffset` is a multiple of 4; and when none of the consumed replies yields more than
`samples` frames, `savedOffset < len`. -/
theorem carry_below_one_request (mixer : Mixer) (app : App) (handle : OggOpusFile)
    (streams : List (List Nat)) (len : Int) (app' : App) (handle' : OggOpusFile)
    (out : List Nat) (cs : List Chunk)
    (hso : app.savedOffset = 0) (hpre : app.preSamples = 0) (hs : 0 < app.samples)
    (hlen : len = 4 * app.samples)
    (hrun : playback mixer len streams app handle = .ok (app', handle', out))
    (hcs : handle = cs ++ handle') :
    app'.savedOffset % 4 = 0 ∧
      ((∀ c ∈ cs, c.decRes ≤ app.samples) → app'.savedOffset < len) := by
  by_cases hend : app.endReached = 0
  · have hinv : CarryOk app := ⟨by omega, by omega, by omega⟩
    obtain ⟨cs', hcs', _, hinv', hb, _⟩ :=
      playback_carry mixer len streams app handle app' handle' out hrun hend hinv hlen
    have hEq : cs' = cs := List.append_cancel_right (hcs'.symm.trans hcs)
    subst hEq
    obtain ⟨i1, i2, _⟩ := hinv'
    refine ⟨by omega, fun hD => ?_⟩
    have := hb hs (by omega) hD
    omega
  · obtain ⟨_, _, _, _, h5, _⟩ := playback_silent mixer len streams app handle app' handle' out
      hend hrun
    exact ⟨by omega, fun _ => by omega⟩

/-- Witness of `carry_below_one_request`: three invocations over replies of 1, 2 and 2 frames
with requests of 2 frames. -/
theorem carry_below_one_request_witness :
    ({ freshApp 2 2 100 0 8 with
        sourceBuffer := [9, 10, 7, 8, 9, 10, 0, 0], decodeBuffer := [7, 8, 9, 10], pcmPos := 5,
        savedOffset := 4, preSamples := 1 } : App).savedOffset % 4 = 0 ∧
      ((∀ c ∈ ([⟨1, [1, 2], 1⟩, ⟨2, [3, 4, 5, 6], 3⟩, ⟨2, [7, 8, 9, 10], 5⟩] : List Chunk),
          c.decRes ≤ (freshApp 2 2 100 0 8).samples) →
        ({ freshApp 2 2 100 0 8 with
          sourceBuffer := [9, 10, 7, 8, 9, 10, 0, 0], decodeBuffer := [7, 8, 9, 10], pcmPos := 5,
          savedOffset := 4, preSamples := 1 } : App).savedOffset < 8) :=
  carry_below_one_request muteMixer (freshApp 2 2 100 0 8)
    [⟨1, [1, 2], 1⟩, ⟨2, [3, 4, 5, 6], 3⟩, ⟨2, [7, 8, 9, 10], 5⟩, ⟨2, [0, 0, 0, 0], 7⟩]
    [List.replicate 8 9, List.replicate 8 9] 8 _ [⟨2, [0, 0, 0, 0], 7⟩]
    [1, 0, 2, 0, 3, 0, 4, 0, 5, 0, 6, 0, 7, 0, 8, 0]
    [⟨1, [1, 2], 1⟩, ⟨2, [3, 4, 5, 6], 3⟩, ⟨2, [7, 8, 9, 10], 5⟩]
    (by decide) (by decide) (by decide) (by decide) (by decide) (by decide)

/-- Counterexample to C8 as stated. Requests of one frame (`len = 4`), empty carry, and
a reply of three frames: after the invocation `savedOffset` is 8, which is not below `len`. -/
theorem carry_exceeds_one_request :
    (freshApp 1 2 100 0 8).savedOffset = 0 ∧ (4 : Int) = 4 * (freshApp 1 2 100 0 8).samples ∧
      streamCallback muteMixer (freshApp 1 2 100 0 8) [⟨3, [1, 2, 3, 4, 5, 6], 3⟩]
          [9, 9, 9, 9] 4
        = .ok ({ freshApp 1 2 100 0 8 with
            sourceBuffer := [3, 4, 5, 6, 5, 6, 0, 0], decodeBuffer := [1, 2, 3, 4, 5, 6],
            pcmPos := 3, savedOffset := 8, preSamples := 2 }, [], [1, 0, 2, 0]) ∧
      ¬ ((8 : Int) < 4) := by
  decide

theorem pullsAll_full (samples total ch : Int) : ∀ (cs : List Chunk) (sr : Int),
    PullsAll samples total ch sr cs → samples ≤ sr + framesOf cs
  | [], sr, h => by
    have h' : samples ≤ sr := h
    simp only [framesOf]; omega
  | c :: cs, sr, h => by
    obtain ⟨_, _, _, _, h5⟩ := h
    have := pullsAll_full samples total ch cs _ h5
    simp only [framesOf]; omega

theorem pullsAll_nonneg (samples total ch : Int) : ∀ (cs : List Chunk) (sr : Int),
    PullsAll samples total ch sr cs → ∀ c ∈ cs, 0 ≤ c.decRes
  | [], _, _ => by simp
  | x :: cs, sr, h => by
    obtain ⟨_, h2, _, _, h5⟩ := h
    intro c hc
    rcases List.mem_cons.mp hc with rfl | hc
    · exact h2
    · exact pullsAll_nonneg samples total ch cs _ h5 c hc

/-- An invocation whose replies `cs` are all pulled, fit the buffers and fill the request
completes; it fills the whole region with audio and keeps the surplus as carry. -/
theorem streamCallback_of_pullsAll (mixer : Mixer) (app : App) (cs rest : List Chunk)
    (stream : List Nat) (len : Int)
    (hend : app.endReached = 0) (hinv : CarryOk app) (hlen : len = 4 * app.samples)
    (hs0 : 0 ≤ app.samples) (hl1 : len ≤ stream.length)
    (hp : PullsAll app.samples app.pcmTotal app.channels app.preSamples cs)
    (hsrc : 2 * (app.preSamples + framesOf cs) ≤ app.sourceBuffer.length) :
    ∃ app' out, streamCallback mixer app (cs ++ rest) stream len = .ok (app', rest, out) ∧
      audioBytes app (cs ++ rest) len = .ok len ∧
      app'.endReached = 0 ∧ app'.preSamples = app.preSamples + framesOf cs - app.samples ∧
      CarryOk app' ∧ app'.sourceBuffer.length = app.sourceBuffer.length ∧
      SameConfig app app' := by
  obtain ⟨hp0, hso, hpfit⟩ := hinv
  have hfull := pullsAll_full _ _ _ cs _ hp
  obtain ⟨a1, hloop, he1, _⟩ := pullLoop_of_pullsAll cs rest
    { app with preSamples := 0, savedOffset := 0 } app.preSamples app.savedOffset
    hp hp0 hso (by simp only; omega)
  obtain ⟨cs', _, _, _, hcfg, _, _, _, _, _, hcontent⟩ := pullLoop_fellThrough _ _ _ _ _ _ _ hloop
  obtain ⟨c1, c2, _⟩ := hcontent hp0 hso (by simp only; omega)
  simp only at c1 c2 he1
  have hs1 : a1.samples = app.samples := hcfg.2.2.1
  obtain ⟨app', out, hdel, _, d2, _⟩ := deliver_spec mixer a1 (app.preSamples + framesOf cs)
    (List.replicate len.toNat 0 ++ stream.drop len.toNat) len (by omega) c2 (by omega) (by omega)
    (by simp only [List.length_append, List.length_replicate, List.length_drop]; omega)
  have hrun : streamCallback mixer app (cs ++ rest) stream len = .ok (app', rest, out) := by
    unfold streamCallback
    rw [memset_eq stream len (by omega) hl1]
    simp only
    rw [if_neg (not_not.mpr hend), hloop]
    simp only
    rw [hdel]
  obtain ⟨cs2, hcs2, hcfg2, hinv2, hsb2, _, hcase⟩ :=
    streamCallback_step mixer app _ stream len app' rest out hrun hend ⟨hp0, hso, hpfit⟩ hlen
  have hE : cs2 = cs := List.append_cancel_right hcs2.symm
  subst hE
  have he' : app'.endReached = 0 := by omega
  refine ⟨app', out, hrun, ?_, he', ?_, hinv2, hsb2, hcfg2⟩
  · unfold audioBytes
    rw [if_neg (not_not.mpr hend), hloop]
    simp only
    congr 1
    split <;> omega
  · rcases hcase with ⟨⟨c, hc, hneg⟩, _⟩ | ⟨_, _, _, hp', _⟩
    · have := pullsAll_nonneg _ _ _ cs2 _ hp c hc
      omega
    · omega

theorem pullsAll_pair (samples total ch sr : Int) (c d : Chunk)
    (h1 : sr < samples) (h2 : sr + c.decRes < samples) (h3 : samples ≤ sr + c.decRes + d.decRes)
    (hc : 0 ≤ c.decRes ∧ c.pos ≠ total ∧ chunkFits ch c)
    (hd : 0 ≤ d.decRes ∧ d.pos ≠ total ∧ chunkFits ch d) :
    PullsAll samples total ch sr [c, d] :=
  ⟨h1, hc.1, hc.2.1, hc.2.2, h2, hd.1, hd.2.1, hd.2.2, h3⟩

theorem framesOf_pair (c d : Chunk) : framesOf [c, d] = c.decRes + d.decRes := by
  simp [framesOf]

/-- The front of the samples `X` as a slice of a stream `W` of which `X` and `tail` are the
part from sample `k` on; and what is beyond the front is the part of `W` from sample `k + n`
on. -/
theorem front_of_stream (X tail W : List Int) (k n : Nat)
    (h : X ++ tail = W.drop k) (hl : n ≤ X.length) :
    (bytesOf X).take (2 * n) = ((bytesOf W).drop (2 * k)).take (2 * n) ∧
      X.drop n ++ tail = W.drop (k + n) := by
  constructor
  · rw [drop_bytesOf, ← h, bytesOf_append,
      List.take_append_of_le_length (by rw [length_bytesOf]; omega)]
  · rw [← List.drop_drop, ← h, List.drop_append_of_le_length hl]

/-- An invocation that fills its request without meeting an error or the end of the stream:
the region is `sinkBytes` of the next `len` bytes of the stream, for every volume, and the
carry it keeps is the start of what follows them. -/
theorem streamCallback_fills (mixer : Mixer) (app : App) (cs rest : List Chunk)
    (stream : List Nat) (len : Int) (app' : App) (out : List Nat) (W tail : List Int) (k : Nat)
    (hrun : streamCallback mixer app (cs ++ rest) stream len = .ok (app', rest, out))
    (hend : app.endReached = 0) (hinv : CarryOk app) (hlen : len = 4 * app.samples)
    (hs0 : 0 ≤ app.samples) (hpos : ∀ c ∈ cs, 0 ≤ c.decRes)
    (hfull : app.samples ≤ app.preSamples + framesOf cs)
    (hW : app.sourceBuffer.take (2 * app.preSamples).toNat ++ decodedStream app.channels cs
      ++ tail = W.drop k) :
    out = sinkBytes mixer app.format app.volume (((bytesOf W).drop (2 * k)).take len.toNat)
        ++ stream.drop len.toNat ∧
      app'.sourceBuffer.take (2 * app'.preSamples).toNat ++ tail
        = W.drop (k + (2 * app.samples).toNat) := by
  have hsink := streamCallback_sink mixer app (cs ++ rest) stream len app' rest out cs hrun
    hend hinv hlen rfl hpos
  obtain ⟨cs2, hcs2, _, _, _, _, hcase⟩ :=
    streamCallback_step mixer app _ stream len app' rest out hrun hend hinv hlen
  have hE : cs2 = cs := List.append_cancel_right hcs2.symm
  subst hE
  have hp0 := hinv.1
  rcases hcase with ⟨⟨c, hc, hneg⟩, _⟩ | ⟨_, _, _, _, hAlen, hcarry, _⟩
  · have := hpos c hc
    omega
  · have hm : min len (4 * (app.preSamples + framesOf cs2)) = len := by omega
    have hn : len.toNat = 2 * (2 * app.samples).toNat := by omega
    obtain ⟨f1, f2⟩ := front_of_stream _ tail W k (2 * app.samples).toNat hW
      (by rw [hAlen]; omega)
    rw [hm, hn, f1] at hsink
    rw [hcarry, f2]
    refine ⟨?_, rfl⟩
    rw [hsink, hn]
    have hz : (len - len).toNat = 0 := by omega
    rw [hz, List.replicate_zero, List.append_nil]

/-- C9. The worked example of the specification. A stereo decoder that yields 2400 frames a
call, `samples = 4096` (`len = 16384`), the working buffer of `SOURCE_BUFFER_SIZE` bytes, an
empty carry, and a stream that does not end within the six replies `cs`. The first three
invocations complete; each takes 16384 bytes from the working buffer, 3 * 4096 * 4 = 49152 in
all; `savedOffset` is 2816, 5632 and 8448 after them, never above 16384. For every volume the
three regions are filled to their ends with `sinkBytes` of the first, the second and the third
16384 bytes of the decoded stream, 49152 bytes in all; with passthrough volume they are the
first 49152 bytes of the decoded stream themselves. -/
theorem three_requests_of_4096 (mixer : Mixer) (app : App) (cs rest : List Chunk)
    (s1 s2 s3 : List Nat)
    (hch : app.channels = 2) (hsamples : app.samples = 4096)
    (hso : app.savedOffset = 0) (hpre : app.preSamples = 0) (hend : app.endReached = 0)
    (hcap : (app.sourceBuffer.length : Int) = SOURCE_BUFFER_SIZE / 2)
    (h1 : s1.length = 16384) (h2 : s2.length = 16384) (h3 : s3.length = 16384)
    (hcs : cs.length = 6)
    (hchunks : ∀ c ∈ cs, c.decRes = 2400 ∧ 4800 ≤ c.pcm.length ∧ c.pos ≠ app.pcmTotal) :
    ∃ a1 r1 o1 a2 r2 o2 a3 o3 n1 n2 n3,
      streamCallback mixer app (cs ++ rest) s1 16384 = .ok (a1, r1, o1) ∧
      streamCallback mixer a1 r1 s2 16384 = .ok (a2, r2, o2) ∧
      streamCallback mixer a2 r2 s3 16384 = .ok (a3, rest, o3) ∧
      audioBytes app (cs ++ rest) 16384 = .ok n1 ∧ audioBytes a1 r1 16384 = .ok n2 ∧
      audioBytes a2 r2 16384 = .ok n3 ∧
      n1 = 16384 ∧ n2 = 16384 ∧ n3 = 16384 ∧ n1 + n2 + n3 = 3 * 4096 * 4 ∧
      a1.savedOffset = 2816 ∧ a2.savedOffset = 5632 ∧ a3.savedOffset = 8448 ∧
      a1.savedOffset ≤ 16384 ∧ a2.savedOffset ≤ 16384 ∧ a3.savedOffset ≤ 16384 ∧
      o1 = sinkBytes mixer app.format app.volume
        ((bytesOf (decodedStream 2 cs)).take 16384) ∧
      o2 = sinkBytes mixer app.format app.volume
        (((bytesOf (decodedStream 2 cs)).drop 16384).take 16384) ∧
      o3 = sinkBytes mixer app.format app.volume
        (((bytesOf (decodedStream 2 cs)).drop 32768).take 16384) ∧
      (o1 ++ o2 ++ o3).length = 3 * 4096 * 4 ∧
      (app.volume = 0 → o1 ++ o2 ++ o3 = (bytesOf (decodedStream 2 cs)).take 49152) := by
  obtain ⟨c0, c1, c2, c3, c4, c5, rfl⟩ : ∃ c0 c1 c2 c3 c4 c5, cs = [c0, c1, c2, c3, c4, c5] := by
    rcases cs with _ | ⟨c0, _ | ⟨c1, _ | ⟨c2, _ | ⟨c3, _ | ⟨c4, _ | ⟨c5, _ | ⟨c6, t⟩⟩⟩⟩⟩⟩⟩ <;>
      simp at hcs
    exact ⟨c0, c1, c2, c3, c4, c5, rfl⟩
  have k0 := hchunks c0 (by simp)
  have k1 := hchunks c1 (by simp)
  have k2 := hchunks c2 (by simp)
  have k3 := hchunks c3 (by simp)
  have k4 := hchunks c4 (by simp)
  have k5 := hchunks c5 (by simp)
  have hcapv : (app.sourceBuffer.length : Int) = 16384 := by
    rw [hcap]; decide
  have fit : ∀ (a : App) (c : Chunk), a.channels = 2 → a.pcmTotal = app.pcmTotal →
      (c.decRes = 2400 ∧ 4800 ≤ c.pcm.length ∧ c.pos ≠ app.pcmTotal) →
      0 ≤ c.decRes ∧ c.pos ≠ a.pcmTotal ∧ chunkFits a.channels c := by
    intro a c ha ht ⟨e1, e2, e3⟩
    refine ⟨by omega, by rw [ht]; exact e3, ?_⟩
    unfold chunkFits
    rw [ha, if_pos (by decide), e1]
    omega
  -- first invocation
  obtain ⟨a1, o1, run1, ab1, e1, p1, inv1, sb1, cfg1⟩ :=
    streamCallback_of_pullsAll mixer app [c0, c1] ([c2, c3, c4, c5] ++ rest) s1 16384 hend
      ⟨by omega, by omega, by omega⟩ (by omega) (by omega) (by omega)
      (pullsAll_pair _ _ _ _ _ _ (by omega) (by omega) (by omega)
        (fit app c0 hch rfl k0) (fit app c1 hch rfl k1))
      (by rw [framesOf_pair]; omega)
  rw [framesOf_pair] at p1
  obtain ⟨f1, t1, u1, v1, w1⟩ := cfg1
  -- second invocation
  obtain ⟨a2, o2, run2, ab2, e2, p2, inv2, sb2, cfg2⟩ :=
    streamCallback_of_pullsAll mixer a1 [c2, c3] ([c4, c5] ++ rest) s2 16384 e1
      inv1 (by omega) (by omega) (by omega)
      (pullsAll_pair _ _ _ _ _ _ (by omega) (by omega) (by omega)
        (fit a1 c2 (by omega) t1 k2) (fit a1 c3 (by omega) t1 k3))
      (by rw [framesOf_pair]; omega)
  rw [framesOf_pair] at p2
  obtain ⟨f2, t2, u2, v2, w2⟩ := cfg2
  -- third invocation
  obtain ⟨a3, o3, run3, ab3, e3, p3, inv3, sb3, cfg3⟩ :=
    streamCallback_of_pullsAll mixer a2 [c4, c5] rest s3 16384 e2
      inv2 (by omega) (by omega) (by omega)
      (pullsAll_pair _ _ _ _ _ _ (by omega) (by omega) (by omega)
        (fit a2 c4 (by omega) (by rw [t2, t1]) k4) (fit a2 c5 (by omega) (by rw [t2, t1]) k5))
      (by rw [framesOf_pair]; omega)
  rw [framesOf_pair] at p3
  have so1 := inv1.2.1
  have so2 := inv2.2.1
  have so3 := inv3.2.1
  -- what the three regions hold
  have n1 : (16384 : Int).toNat = 16384 := by decide
  have nonneg : ∀ (x y : Chunk), (x.decRes = 2400 ∧ 4800 ≤ x.pcm.length ∧ x.pos ≠ app.pcmTotal) →
      (y.decRes = 2400 ∧ 4800 ≤ y.pcm.length ∧ y.pos ≠ app.pcmTotal) →
      ∀ c ∈ [x, y], 0 ≤ c.decRes := by
    intro x y hx hy c hc
    simp only [List.mem_cons, List.mem_singleton, List.not_mem_nil, or_false] at hc
    rcases hc with rfl | rfl <;> omega
  obtain ⟨q1, w1'⟩ := streamCallback_fills mixer app [c0, c1] ([c2, c3, c4, c5] ++ rest) s1
    16384 a1 o1 (decodedStream 2 [c0, c1, c2, c3, c4, c5]) (decodedStream 2 [c2, c3, c4, c5]) 0
    run1 hend ⟨by omega, by omega, by omega⟩ (by omega) (by omega) (nonneg c0 c1 k0 k1)
    (by rw [framesOf_pair]; omega)
    (by
      have e0 : (2 * app.preSamples).toNat = 0 := by omega
      rw [hch, e0, List.take_zero, List.nil_append, ← decodedStream_append]
      rfl)
  have g1 : 0 + (2 * app.samples).toNat = 8192 := by omega
  rw [g1] at w1'
  obtain ⟨q2, w2'⟩ := streamCallback_fills mixer a1 [c2, c3] ([c4, c5] ++ rest) s2
    16384 a2 o2 (decodedStream 2 [c0, c1, c2, c3, c4, c5]) (decodedStream 2 [c4, c5]) 8192
    run2 e1 inv1 (by omega) (by omega) (nonneg c2 c3 k2 k3)
    (by rw [framesOf_pair]; omega)
    (by
      rw [v1, hch, List.append_assoc, ← decodedStream_append]
      exact w1')
  have g2 : 8192 + (2 * a1.samples).toNat = 16384 := by omega
  rw [g2] at w2'
  obtain ⟨q3, w3'⟩ := streamCallback_fills mixer a2 [c4, c5] rest s3
    16384 a3 o3 (decodedStream 2 [c0, c1, c2, c3, c4, c5]) [] 16384
    run3 e2 inv2 (by omega) (by omega) (nonneg c4 c5 k4 k5)
    (by rw [framesOf_pair]; omega)
    (by
      rw [v2, v1, hch, List.append_nil]
      exact w2')
  have g3 : 16384 + (2 * a2.samples).toNat = 24576 := by omega
  rw [g3, List.append_nil] at w3'
  have hWlen : (decodedStream 2 [c0, c1, c2, c3, c4, c5]).length = 28800 := by
    have h := congrArg List.length w3'
    rw [List.length_take, List.length_drop] at h
    omega
  have hd1 : s1.drop 16384 = [] := List.drop_eq_nil_of_le (by omega)
  have hd2 : s2.drop 16384 = [] := List.drop_eq_nil_of_le (by omega)
  have hd3 : s3.drop 16384 = [] := List.drop_eq_nil_of_le (by omega)
  rw [n1, hd1, List.append_nil] at q1
  rw [n1, hd2, List.append_nil, w1, f1] at q2
  rw [n1, hd3, List.append_nil, w2, w1, f2, f1] at q3
  have hlen3 : (o1 ++ o2 ++ o3).length = 3 * 4096 * 4 := by
    rw [q1, q2, q3]
    simp only [List.length_append, length_sinkBytes, List.length_take, List.length_drop,
      length_bytesOf, hWlen]
    omega
  refine ⟨a1, _, o1, a2, _, o2, a3, o3, 16384, 16384, 16384, run1, run2, run3, ab1, ab2, ab3,
    rfl, rfl, rfl, by norm_num, by omega, by omega, by omega, by omega, by omega, by omega,
    q1, q2, q3, hlen3, ?_⟩
  intro hv
  have hplay : playback mixer 16384 [s1, s2, s3] app ([c0, c1, c2, c3, c4, c5] ++ rest)
      = .ok (a3, rest, o1 ++ (o2 ++ (o3 ++ []))) := by
    have r1 : streamCallback mixer app ([c0, c1, c2, c3, c4, c5] ++ rest) s1 16384
        = .ok (a1, [c2, c3, c4, c5] ++ rest, o1) := run1
    have r2 : streamCallback mixer a1 ([c2, c3, c4, c5] ++ rest) s2 16384
        = .ok (a2, [c4, c5] ++ rest, o2) := run2
    simp only [playback, r1, r2, run3]
  obtain ⟨cs', hcs', _, _, _, hcont⟩ := playback_carry mixer 16384 [s1, s2, s3] app _ a3 rest _
    hplay hend ⟨by omega, by omega, by omega⟩ (by omega)
  have hE : cs' = [c0, c1, c2, c3, c4, c5] := (List.append_cancel_right hcs').symm
  subst hE
  obtain ⟨hout, _⟩ := hcont
    (by intro s hs; simp only [List.mem_cons, List.mem_singleton, List.not_mem_nil, or_false] at hs
        rcases hs with rfl | rfl | rfl <;> omega)
    (by intro c hc; have := hchunks c hc; omega) e3 hv
  have e0 : (2 * app.preSamples).toNat = 0 := by omega
  have e1 : [s1, s2, s3].length * (16384 : Int).toNat = 49152 := by
    have h : (16384 : Int).toNat = 16384 := by decide
    simp only [List.length_cons, List.length_nil, h]
  rw [hch, e0, e1, List.take_zero, List.nil_append, List.append_nil] at hout
  rw [← hout, List.append_assoc]

theorem stereoReply_facts (frames : Nat) (pos : Int) :
    (stereoReply frames pos).decRes = frames ∧ (stereoReply frames pos).pcm.length = 2 * frames ∧
      (stereoReply frames pos).pos = pos := by
  simp [stereoReply]

/-- Witness of `three_requests_of_4096`: six replies of 2400 frames for the session that `main`
sets up. -/
theorem three_requests_of_4096_witness :
    ∃ a1 r1 o1 a2 r2 o2 a3 o3 n1 n2 n3,
      streamCallback muteMixer sdlSession
        ([stereoReply 2400 2400, stereoReply 2400 4800, stereoReply 2400 7200,
          stereoReply 2400 9600, stereoReply 2400 12000, stereoReply 2400 14400] ++ [])
        sinkRegion 16384 = .ok (a1, r1, o1) ∧
      streamCallback muteMixer a1 r1 sinkRegion 16384 = .ok (a2, r2, o2) ∧
      streamCallback muteMixer a2 r2 sinkRegion 16384 = .ok (a3, [], o3) ∧
      audioBytes sdlSession
        ([stereoReply 2400 2400, stereoReply 2400 4800, stereoReply 2400 7200,
          stereoReply 2400 9600, stereoReply 2400 12000, stereoReply 2400 14400] ++ [])
        16384 = .ok n1 ∧
      audioBytes a1 r1 16384 = .ok n2 ∧ audioBytes a2 r2 16384 = .ok n3 ∧
      n1 = 16384 ∧ n2 = 16384 ∧ n3 = 16384 ∧ n1 + n2 + n3 = 3 * 4096 * 4 ∧
      a1.savedOffset = 2816 ∧ a2.savedOffset = 5632 ∧ a3.savedOffset = 8448 ∧
      a1.savedOffset ≤ 16384 ∧ a2.savedOffset ≤ 16384 ∧ a3.savedOffset ≤ 16384 ∧
      o1 = sinkBytes muteMixer sdlSession.format sdlSession.volume
        ((bytesOf (decodedStream 2
            [stereoReply 2400 2400, stereoReply 2400 4800, stereoReply 2400 7200,
              stereoReply 2400 9600, stereoReply 2400 12000, stereoReply 2400 14400])).take 16384) ∧
      o2 = sinkBytes muteMixer sdlSession.format sdlSession.volume
        (((bytesOf (decodedStream 2
            [stereoReply 2400 2400, stereoReply 2400 4800, stereoReply 2400 7200,
              stereoReply 2400 9600, stereoReply 2400 12000, stereoReply 2400 14400])).drop 16384).take 16384) ∧
      o3 = sinkBytes muteMixer sdlSession.format sdlSession.volume
        (((bytesOf (decodedStream 2
            [stereoReply 2400 2400, stereoReply 2400 4800, stereoReply 2400 7200,
              stereoReply 2400 9600, stereoReply 2400 12000, stereoReply 2400 14400])).drop 32768).take 16384) ∧
      (o1 ++ o2 ++ o3).length = 3 * 4096 * 4 ∧
      (sdlSession.volume = 0 → o1 ++ o2 ++ o3
        = (bytesOf (decodedStream 2
            [stereoReply 2400 2400, stereoReply 2400 4800, stereoReply 2400 7200,
              stereoReply 2400 9600, stereoReply 2400 12000, stereoReply 2400 14400])).take
          49152) :=
  three_requests_of_4096 muteMixer sdlSession
    [stereoReply 2400 2400, stereoReply 2400 4800, stereoReply 2400 7200,
      stereoReply 2400 9600, stereoReply 2400 12000, stereoReply 2400 14400] []
    sinkRegion sinkRegion sinkRegion rfl rfl rfl rfl rfl
    (by rw [show sdlSession.sourceBuffer = List.replicate 16384 0 from rfl,
          List.length_replicate]; decide)
    (List.length_replicate _ _) (List.length_replicate _ _) (List.length_replicate _ _) rfl
    (by
      intro c hc
      simp only [List.mem_cons, List.mem_singleton, List.not_mem_nil, or_false] at hc
      rcases hc with rfl | rfl | rfl | rfl | rfl | rfl <;>
        exact ⟨rfl, by rw [(stereoReply_facts _ _).2.1], by decide⟩)

theorem pullsAll_single (samples total ch sr : Int) (c : Chunk)
    (h1 : sr < samples) (h3 : samples ≤ sr + c.decRes)
    (hc : 0 ≤ c.decRes ∧ c.pos ≠ total ∧ chunkFits ch c) :
    PullsAll samples total ch sr [c] :=
  ⟨h1, hc.1, hc.2.1, hc.2.2, h3⟩

theorem framesOf_single (c : Chunk) : framesOf [c] = c.decRes := by
  simp [framesOf]

/-- A stereo chunk that ends beyond the working buffer: the copy of line 222 leaves the
buffer. -/
theorem streamCallback_overflow (mixer : Mixer) (app : App) (c : Chunk) (rest : List Chunk)
    (stream : List Nat) (len : Int)
    (hend : app.endReached = 0) (hinv : CarryOk app) (h0 : 0 ≤ len) (h1 : len ≤ stream.length)
    (hlt : app.preSamples < app.samples) (hd : 0 ≤ c.decRes) (hch : app.channels > 1)
    (hover : (app.sourceBuffer.length : Int) < 2 * (app.preSamples + c.decRes)) :
    streamCallback mixer app (c :: rest) stream len = .outOfBounds := by
  obtain ⟨hp0, hso, _⟩ := hinv
  have hstore : storeChunk
      { app with preSamples := 0, savedOffset := 0, decodeBuffer := c.pcm }
      app.savedOffset c.decRes = none := by
    unfold storeChunk
    simp only [hch, if_true]
    rw [hso, tdiv_two_of_four _ hp0]
    unfold memcpy16
    rw [if_neg (by omega)]
  unfold streamCallback
  rw [memset_eq stream len h0 h1]
  simp only
  rw [if_neg (not_not.mpr hend)]
  conv_lhs => unfold pullLoop
  simp only [hlt, if_true, not_lt.mpr hd, if_false, hstore]

/-- A stereo decoder that yields 5760 frames a call (packets of 120 ms, what
`DECODE_BUFFER_SIZE` is sized for) overruns the working buffer of `SOURCE_BUFFER_SIZE` bytes
in the third invocation: with 3328 frames carried (`bufferOffset = 13312`) the copy of
23040 bytes would end at byte 36352. -/
theorem bursts_overflow (mixer : Mixer) (app : App) (b1 b2 b3 : Chunk) (rest : List Chunk)
    (s1 s2 s3 : List Nat)
    (hch : app.channels = 2) (hsamples : app.samples = 4096)
    (hso : app.savedOffset = 0) (hpre : app.preSamples = 0) (hend : app.endReached = 0)
    (hcap : (app.sourceBuffer.length : Int) = SOURCE_BUFFER_SIZE / 2)
    (h1 : s1.length = 16384) (h2 : s2.length = 16384) (h3 : s3.length = 16384)
    (hb : ∀ c ∈ [b1, b2, b3], c.decRes = 5760 ∧ 11520 ≤ c.pcm.length ∧ c.pos ≠ app.pcmTotal) :
    ∃ a1 o1 a2 o2,
      streamCallback mixer app (b1 :: b2 :: b3 :: rest) s1 16384
        = .ok (a1, b2 :: b3 :: rest, o1) ∧
      streamCallback mixer a1 (b2 :: b3 :: rest) s2 16384 = .ok (a2, b3 :: rest, o2) ∧
      a2.savedOffset = 13312 ∧ a2.sourceBuffer.length = 16384 ∧
      SOURCE_BUFFER_SIZE < a2.savedOffset + 4 * b3.decRes ∧
      streamCallback mixer a2 (b3 :: rest) s3 16384 = .outOfBounds ∧
      playback mixer 16384 [s1, s2, s3] app (b1 :: b2 :: b3 :: rest) = .outOfBounds := by
  have k1 := hb b1 (by simp)
  have k2 := hb b2 (by simp)
  have k3 := hb b3 (by simp)
  have hcapv : (app.sourceBuffer.length : Int) = 16384 := by
    rw [hcap]; decide
  have fit : ∀ (a : App) (c : Chunk), a.channels = 2 → a.pcmTotal = app.pcmTotal →
      (c.decRes = 5760 ∧ 11520 ≤ c.pcm.length ∧ c.pos ≠ app.pcmTotal) →
      0 ≤ c.decRes ∧ c.pos ≠ a.pcmTotal ∧ chunkFits a.channels c := by
    intro a c ha ht ⟨e1, e2, e3⟩
    refine ⟨by omega, by rw [ht]; exact e3, ?_⟩
    unfold chunkFits
    rw [ha, if_pos (by decide), e1]
    omega
  obtain ⟨a1, o1, run1, _, e1, p1, inv1, sb1, cfg1⟩ :=
    streamCallback_of_pullsAll mixer app [b1] (b2 :: b3 :: rest) s1 16384 hend
      ⟨by omega, by omega, by omega⟩ (by omega) (by omega) (by omega)
      (pullsAll_single _ _ _ _ _ (by omega) (by omega) (fit app b1 hch rfl k1))
      (by rw [framesOf_single]; omega)
  rw [framesOf_single] at p1
  obtain ⟨_, t1, u1, v1, _⟩ := cfg1
  obtain ⟨a2, o2, run2, _, e2, p2, inv2, sb2, cfg2⟩ :=
    streamCallback_of_pullsAll mixer a1 [b2] (b3 :: rest) s2 16384 e1
      inv1 (by omega) (by omega) (by omega)
      (pullsAll_single _ _ _ _ _ (by omega) (by omega) (fit a1 b2 (by omega) t1 k2))
      (by rw [framesOf_single]; omega)
  rw [framesOf_single] at p2
  obtain ⟨_, t2, u2, v2, _⟩ := cfg2
  have so2 := inv2.2.1
  have run3 : streamCallback mixer a2 (b3 :: rest) s3 16384 = .outOfBounds :=
    streamCallback_overflow mixer a2 b3 rest s3 16384 e2 inv2 (by omega) (by omega)
      (by omega) (by omega) (by omega) (by omega)
  have r1 : streamCallback mixer app (b1 :: b2 :: b3 :: rest) s1 16384
      = .ok (a1, b2 :: b3 :: rest, o1) := run1
  have r2 : streamCallback mixer a1 (b2 :: b3 :: rest) s2 16384
      = .ok (a2, b3 :: rest, o2) := run2
  refine ⟨a1, o1, a2, o2, r1, r2, by omega, by omega, ?_, run3, ?_⟩
  · have : SOURCE_BUFFER_SIZE = 32768 := rfl
    omega
  · simp only [playback, r1, r2, run3]

/-- C7, evaluated at the failing input: the session `main` sets up, and a decoder that
yields 5760 frames in each of its first three calls. The first two invocations complete, the
third leaves the working buffer. -/
theorem working_buffer_overflows :
    ∃ a1 o1 a2 o2,
      streamCallback muteMixer sdlSession
        (stereoReply 5760 5760 :: stereoReply 5760 11520 :: stereoReply 5760 17280 :: [])
        sinkRegion 16384
        = .ok (a1, stereoReply 5760 11520 :: stereoReply 5760 17280 :: [], o1) ∧
      streamCallback muteMixer a1 (stereoReply 5760 11520 :: stereoReply 5760 17280 :: [])
        sinkRegion 16384 = .ok (a2, stereoReply 5760 17280 :: [], o2) ∧
      a2.savedOffset = 13312 ∧ a2.sourceBuffer.length = 16384 ∧
      SOURCE_BUFFER_SIZE < a2.savedOffset + 4 * (stereoReply 5760 17280).decRes ∧
      streamCallback muteMixer a2 (stereoReply 5760 17280 :: []) sinkRegion 16384
        = .outOfBounds ∧
      playback muteMixer 16384 [sinkRegion, sinkRegion, sinkRegion] sdlSession
        (stereoReply 5760 5760 :: stereoReply 5760 11520 :: stereoReply 5760 17280 :: [])
        = .outOfBounds :=
  bursts_overflow muteMixer sdlSession (stereoReply 5760 5760) (stereoReply 5760 11520)
    (stereoReply 5760 17280) [] sinkRegion sinkRegion sinkRegion rfl rfl rfl rfl rfl
    (by rw [show sdlSession.sourceBuffer = List.replicate 16384 0 from rfl,
          List.length_replicate]; decide)
    (List.length_replicate _ _) (List.length_replicate _ _) (List.length_replicate _ _)
    (by
      intro c hc
      simp only [List.mem_cons, List.mem_singleton, List.not_mem_nil, or_false] at hc
      rcases hc with rfl | rfl | rfl <;>
        exact ⟨rfl, by rw [(stereoReply_facts _ _).2.1], by decide⟩)

theorem pullsToEnd_nonneg (samples total ch : Int) : ∀ (cs : List Chunk) (sr : Int),
    PullsToEnd samples total ch sr cs → ∀ c ∈ cs, 0 ≤ c.decRes
  | [], _, h => by simp [PullsToEnd] at h
  | x :: cs, sr, h => by
    obtain ⟨_, h2, _, h4⟩ := h
    intro c hc
    rcases List.mem_cons.mp hc with rfl | hc
    · exact h2
    · rcases h4 with ⟨_, rfl⟩ | ⟨_, h5⟩
      · simp at hc
      · exact pullsToEnd_nonneg samples total ch cs _ h5 c hc

/-- A loop whose replies `cs` are all pulled and fit the buffers, the last of them ending the
stream, is left by `break` with `endReached` set. -/
theorem pullLoop_of_pullsToEnd : ∀ (cs rest : List Chunk) (app : App) (sr bo : Int),
    PullsToEnd app.samples app.pcmTotal app.channels sr cs → 0 ≤ sr → bo = 4 * sr →
    2 * (sr + framesOf cs) ≤ app.sourceBuffer.length →
    ∃ app', pullLoop (cs ++ rest) app sr bo = .ok (.fellThrough app' rest (sr + framesOf cs)) ∧
      app'.endReached = 1
  | [], _, _, _, _, hp, _, _, _ => by simp [PullsToEnd] at hp
  | c :: cs, rest, app, sr, bo, hp, hsr, hbo, hfit => by
    obtain ⟨h1, h2, h4, h5⟩ := hp
    have hall : ∀ x ∈ cs, 0 ≤ x.decRes := by
      rcases h5 with ⟨_, rfl⟩ | ⟨_, h5⟩
      · simp
      · exact pullsToEnd_nonneg _ _ _ cs _ h5
    have hnn := framesOf_nonneg cs hall
    simp only [framesOf] at hfit
    subst hbo
    obtain ⟨sb, hstore⟩ := storeChunk_isSome app c sr h2 hsr h4 (by omega)
    have hs := storeChunk_spec app c sr sb hstore h2 hsr (by omega)
    rcases h5 with ⟨hpos, rfl⟩ | ⟨hpos, h5⟩
    · refine ⟨{ app with decodeBuffer := c.pcm, sourceBuffer := sb, pcmPos := c.pos,
                          endReached := 1, preSamples := 0 }, ?_, rfl⟩
      rw [List.cons_append, List.nil_append]
      conv_lhs => unfold pullLoop
      simp only [h1, if_true, not_lt.mpr h2, if_false, hstore, hpos, framesOf, add_zero]
    · obtain ⟨app', hrun, he⟩ := pullLoop_of_pullsToEnd cs rest
        { app with decodeBuffer := c.pcm, sourceBuffer := sb, pcmPos := c.pos }
        (sr + c.decRes) (4 * sr + c.decRes * 4) h5 (by omega) (by ring)
        (by simp only; omega)
      refine ⟨app', ?_, he⟩
      rw [List.cons_append]
      conv_lhs => unfold pullLoop
      simp only [h1, if_true, not_lt.mpr h2, if_false, hstore, hpos]
      rw [hrun]
      simp only [framesOf]
      congr 2
      ring

/-- An invocation whose replies `cs` are all pulled and fit the buffers, the last of them
ending the stream, completes with `endReached` set; what it read beyond the request stays
in the carry. -/
theorem streamCallback_of_pullsToEnd (mixer : Mixer) (app : App) (cs rest : List Chunk)
    (stream : List Nat) (len : Int)
    (hend : app.endReached = 0) (hinv : CarryOk app) (hlen : len = 4 * app.samples)
    (hs0 : 0 ≤ app.samples) (hl1 : len ≤ stream.length)
    (hp : PullsToEnd app.samples app.pcmTotal app.channels app.preSamples cs)
    (hsrc : 2 * (app.preSamples + framesOf cs) ≤ app.sourceBuffer.length) :
    ∃ app' out, streamCallback mixer app (cs ++ rest) stream len = .ok (app', rest, out) ∧
      audioBytes app (cs ++ rest) len = .ok (min len (4 * (app.preSamples + framesOf cs))) ∧
      app'.endReached = 1 ∧
      app'.preSamples = max 0 (app.preSamples + framesOf cs - app.samples) ∧
      CarryOk app' ∧ app'.closeOnNextTick = app.closeOnNextTick := by
  obtain ⟨hp0, hso, hpfit⟩ := hinv
  obtain ⟨a1, hloop, he1⟩ := pullLoop_of_pullsToEnd cs rest
    { app with preSamples := 0, savedOffset := 0 } app.preSamples app.savedOffset
    hp hp0 hso (by simp only; omega)
  obtain ⟨cs', _, _, _, hcfg, _, _, _, _, _, hcontent⟩ := pullLoop_fellThrough _ _ _ _ _ _ _ hloop
  obtain ⟨c1, c2, _⟩ := hcontent hp0 hso (by simp only; omega)
  simp only at c1 c2
  have hs1 : a1.samples = app.samples := hcfg.2.2.1
  have hfr := framesOf_nonneg cs (pullsToEnd_nonneg _ _ _ cs _ hp)
  obtain ⟨app', out, hdel, _, d2, _⟩ := deliver_spec mixer a1 (app.preSamples + framesOf cs)
    (List.replicate len.toNat 0 ++ stream.drop len.toNat) len (by omega) c2 (by omega) (by omega)
    (by simp only [List.length_append, List.length_replicate, List.length_drop]; omega)
  have hrun : streamCallback mixer app (cs ++ rest) stream len = .ok (app', rest, out) := by
    unfold streamCallback
    rw [memset_eq stream len (by omega) hl1]
    simp only
    rw [if_neg (not_not.mpr hend), hloop]
    simp only
    rw [hdel]
  obtain ⟨cs2, hcs2, _, hinv2, _, hct, hcase⟩ :=
    streamCallback_step mixer app _ stream len app' rest out hrun hend ⟨hp0, hso, hpfit⟩ hlen
  have hE : cs2 = cs := List.append_cancel_right hcs2.symm
  subst hE
  refine ⟨app', out, hrun, ?_, by omega, ?_, hinv2, hct⟩
  · unfold audioBytes
    rw [if_neg (not_not.mpr hend), hloop]
    simp only
    congr 1
    split <;> omega
  · rcases hcase with ⟨⟨c, hc, hneg⟩, _⟩ | ⟨_, _, _, hp', _⟩
    · have := pullsToEnd_nonneg _ _ _ cs2 _ hp c hc
      omega
    · exact hp'

theorem chunkFits_stereoReply (frames : Nat) (pos : Int) :
    chunkFits 2 (stereoReply frames pos) := by
  unfold chunkFits
  rw [if_pos (by decide), (stereoReply_facts frames pos).1, (stereoReply_facts frames pos).2.1]
  push_cast
  omega

/-- C1, evaluated at failing inputs. First the session `main` sets up (requests of 4096
frames) with a stream of 4800 frames that the decoder hands out in five replies of 960
frames: the first invocation pulls all five, takes 16384 bytes (4096 frames) for the sink and
keeps 704 frames as carry, with `endReached` set; every later invocation is silent and leaves
the carry where it is, so the last 704 frames never reach the sink. Then the same in small:
a stream of 3 frames in one reply, requests of 2 frames, three invocations; the sink gets
the bytes of 2 frames and then zeros, the decoded stream has the bytes of 3 frames. -/
theorem final_frames_are_dropped :
    (∃ a1 o1, streamCallback muteMixer shortSession
          ([stereoReply 960 960, stereoReply 960 1920, stereoReply 960 2880,
            stereoReply 960 3840, stereoReply 960 4800] ++ []) sinkRegion 16384
          = .ok (a1, [], o1) ∧
        framesOf [stereoReply 960 960, stereoReply 960 1920, stereoReply 960 2880,
            stereoReply 960 3840, stereoReply 960 4800] = 4800 ∧
        audioBytes shortSession
          ([stereoReply 960 960, stereoReply 960 1920, stereoReply 960 2880,
            stereoReply 960 3840, stereoReply 960 4800] ++ []) 16384 = .ok 16384 ∧
        a1.endReached = 1 ∧ a1.preSamples = 704 ∧ a1.savedOffset = 2816 ∧
        ∀ (region : List Nat) (len : Int), 0 ≤ len → len ≤ region.length →
          streamCallback muteMixer a1 [] region len
            = .ok ({ a1 with closeOnNextTick := 1 }, [],
                List.replicate len.toNat 0 ++ region.drop len.toNat)) ∧
      (playback muteMixer 8 [List.replicate 8 9, List.replicate 8 9, List.replicate 8 9]
          (freshApp 2 2 3 0 8) [⟨3, [1, 2, 3, 4, 5, 6], 3⟩]
          = .ok ({ overshotSession with closeOnNextTick := 1 }, [],
              [1, 0, 2, 0, 3, 0, 4, 0] ++ List.replicate 16 0) ∧
        bytesOf (decodedStream 2 [⟨3, [1, 2, 3, 4, 5, 6], 3⟩])
          = [1, 0, 2, 0, 3, 0, 4, 0, 5, 0, 6, 0]) := by
  constructor
  · have hfr : framesOf [stereoReply 960 960, stereoReply 960 1920, stereoReply 960 2880,
        stereoReply 960 3840, stereoReply 960 4800] = 4800 := by decide
    have hcap : (shortSession.sourceBuffer.length : Int) = 16384 := by
      rw [show shortSession.sourceBuffer = List.replicate 16384 0 from rfl,
        List.length_replicate]
      rfl
    have hp : PullsToEnd shortSession.samples shortSession.pcmTotal shortSession.channels
        shortSession.preSamples
        [stereoReply 960 960, stereoReply 960 1920, stereoReply 960 2880,
          stereoReply 960 3840, stereoReply 960 4800] :=
      ⟨by decide, by decide, chunkFits_stereoReply _ _, Or.inr ⟨by decide,
        by decide, by decide, chunkFits_stereoReply _ _, Or.inr ⟨by decide,
        by decide, by decide, chunkFits_stereoReply _ _, Or.inr ⟨by decide,
        by decide, by decide, chunkFits_stereoReply _ _, Or.inr ⟨by decide,
        by decide, by decide, chunkFits_stereoReply _ _, Or.inl ⟨by decide, rfl⟩⟩⟩⟩⟩⟩
    obtain ⟨a1, o1, hrun, hab, he, hpre, hinv, _⟩ :=
      streamCallback_of_pullsToEnd muteMixer shortSession _ [] sinkRegion 16384
        (by decide) ⟨by decide, by decide, by rw [hcap]; decide⟩ (by decide) (by decide)
        (by rw [show sinkRegion.length = 16384 from List.length_replicate _ _]; decide)
        hp (by rw [hfr, hcap]; decide)
    rw [hfr] at hab hpre
    have hp1 : a1.preSamples = 704 := by rw [hpre]; decide
    refine ⟨a1, o1, hrun, hfr, hab, he, hp1, ?_, ?_⟩
    · have := hinv.2.1
      omega
    · intro region len h0 h1
      exact streamCallback_silent muteMixer a1 [] region len (by omega) h0 h1
  · decide

/-- What one invocation may do to the session, whatever state it starts from: the
configuration stays, every flag stays or becomes 1, and with `endReached` set on entry
the decoder and the position are left alone. -/
theorem streamCallback_frame (mixer : Mixer) (app : App) (handle : OggOpusFile)
    (stream : List Nat) (len : Int) (app' : App) (handle' : OggOpusFile) (out : List Nat)
    (hrun : streamCallback mixer app handle stream len = .ok (app', handle', out)) :
    SameConfig app app' ∧
      (app'.endReached = app.endReached ∨ app'.endReached = 1) ∧
      (app'.closeOnNextTick = app.closeOnNextTick ∨ app'.closeOnNextTick = 1) ∧
      (app'.shouldClose = app.shouldClose ∨ app'.shouldClose = 1) ∧
      (app.endReached ≠ 0 →
        handle' = handle ∧ app'.endReached = app.endReached ∧ app'.pcmPos = app.pcmPos) := by
  unfold streamCallback at hrun
  split at hrun
  · simp at hrun
  · by_cases hend : app.endReached = 0
    · simp only at hrun
      rw [if_neg (not_not.mpr hend)] at hrun
      split at hrun
      · simp at hrun
      · simp at hrun
      · rename_i a1 h1 hloop
        simp only [Run.ok.injEq, Prod.mk.injEq] at hrun
        obtain ⟨rfl, rfl, rfl⟩ := hrun
        obtain ⟨_, _, _, _, _, hcfg, _, _, g3, g4, g5, _⟩ := pullLoop_returned _ _ _ _ _ _ hloop
        exact ⟨hcfg, Or.inl g4, Or.inl g3, Or.inr g5, fun h => absurd hend h⟩
      · rename_i a1 h1 sr1 hloop
        split at hrun
        · simp at hrun
        · simp at hrun
        · rename_i a2 out2 hdel
          simp only [Run.ok.injEq, Prod.mk.injEq] at hrun
          obtain ⟨rfl, rfl, rfl⟩ := hrun
          obtain ⟨_, _, _, _, hcfg, _, g2, g3, hflag, _⟩ :=
            pullLoop_fellThrough _ _ _ _ _ _ _ hloop
          obtain ⟨d1, d2, d3, d4, _⟩ := deliver_frame mixer a1 sr1 _ len _ _ hdel
          refine ⟨sameConfig_trans hcfg d1, ?_, Or.inl (d3.trans g2), Or.inl (d4.trans g3),
            fun h => absurd hend h⟩
          rcases hflag with ⟨f1, _⟩ | ⟨f1, _⟩
          · exact Or.inl (d2.trans f1)
          · exact Or.inr (d2.trans f1)
    · simp only at hrun
      rw [if_pos hend] at hrun
      simp only [Run.ok.injEq, Prod.mk.injEq] at hrun
      obtain ⟨rfl, rfl, rfl⟩ := hrun
      exact ⟨⟨rfl, rfl, rfl, rfl, rfl⟩, Or.inl rfl, Or.inr rfl, Or.inl rfl,
        fun _ => ⟨rfl, rfl, rfl⟩⟩

/-- C12. Flag monotonicity. Whatever the session state and the decoder replies, an
invocation that completes leaves a flag that is 1 at 1, for `endReached`, `closeOnNextTick`
and `shouldClose`. And once `endReached` is set, every later run of invocations leaves it as
it is and leaves the decoder alone: each of them returns before the decode loop, so
`endReached` is assigned at most once. -/
theorem flags_only_rise (mixer : Mixer) (app : App) (handle : OggOpusFile)
    (stream : List Nat) (len : Int) (app' : App) (handle' : OggOpusFile) (out : List Nat)
    (hrun : streamCallback mixer app handle stream len = .ok (app', handle', out)) :
    (app.endReached = 1 → app'.endReached = 1) ∧
      (app.closeOnNextTick = 1 → app'.closeOnNextTick = 1) ∧
      (app.shouldClose = 1 → app'.shouldClose = 1) ∧
      (app'.endReached ≠ 0 →
        ∀ (regions : List (List Nat)) (len2 : Int) (app2 : App) (handle2 : OggOpusFile)
          (outs : List Nat),
          playback mixer len2 regions app' handle' = .ok (app2, handle2, outs) →
          app2.endReached = app'.endReached ∧ handle2 = handle') := by
  obtain ⟨_, h1, h2, h3, _⟩ := streamCallback_frame mixer app handle stream len app' handle' out hrun
  refine ⟨fun h => by omega, fun h => by omega, fun h => by omega, ?_⟩
  intro hset regions len2 app2 handle2 outs hplay
  obtain ⟨g1, g2, _⟩ := playback_silent mixer len2 regions app' handle' app2 handle2 outs hset hplay
  exact ⟨g2, g1⟩

/-- Witness of `flags_only_rise`: the invocation that meets the end of a stream of 3 frames. -/
theorem flags_only_rise_witness :
    ((freshApp 2 2 3 0 8).endReached = 1 → overshotSession.endReached = 1) ∧
      ((freshApp 2 2 3 0 8).closeOnNextTick = 1 → overshotSession.closeOnNextTick = 1) ∧
      ((freshApp 2 2 3 0 8).shouldClose = 1 → overshotSession.shouldClose = 1) ∧
      (overshotSession.endReached ≠ 0 →
        ∀ (regions : List (List Nat)) (len2 : Int) (app2 : App) (handle2 : OggOpusFile)
          (outs : List Nat),
          playback muteMixer len2 regions overshotSession [] = .ok (app2, handle2, outs) →
          app2.endReached = overshotSession.endReached ∧ handle2 = []) :=
  flags_only_rise muteMixer (freshApp 2 2 3 0 8) [⟨3, [1, 2, 3, 4, 5, 6], 3⟩]
    (List.replicate 8 9) 8 overshotSession [] [1, 0, 2, 0, 3, 0, 4, 0] (by decide)

/-- C13. Frame condition. Whatever the session state, the decoder replies and `len`, an
invocation that completes leaves `channels`, `volume`, `samples`, `format` and `pcmTotal` as
they were; what it may change are the other fields of the session: `pcmPos`, `preSamples`,
`savedOffset`, `endReached`, `closeOnNextTick`, `shouldClose` and the two buffers. -/
theorem configuration_is_kept (mixer : Mixer) (app : App) (handle : OggOpusFile)
    (stream : List Nat) (len : Int) (app' : App) (handle' : OggOpusFile) (out : List Nat)
    (hrun : streamCallback mixer app handle stream len = .ok (app', handle', out)) :
    app'.channels = app.channels ∧ app'.volume = app.volume ∧ app'.samples = app.samples ∧
      app'.format = app.format ∧ app'.pcmTotal = app.pcmTotal ∧
      app' = { app with
        pcmPos := app'.pcmPos, preSamples := app'.preSamples, savedOffset := app'.savedOffset,
        endReached := app'.endReached, closeOnNextTick := app'.closeOnNextTick,
        shouldClose := app'.shouldClose, sourceBuffer := app'.sourceBuffer,
        decodeBuffer := app'.decodeBuffer } := by
  obtain ⟨⟨h1, h2, h3, h4, h5⟩, _⟩ :=
    streamCallback_frame mixer app handle stream len app' handle' out hrun
  refine ⟨h4, h5, h3, h1, h2, ?_⟩
  cases app'
  simp only at h1 h2 h3 h4 h5
  subst h1 h2 h3 h4 h5
  rfl

/-- Witness of `configuration_is_kept`: an invocation that pulls two replies and keeps a
carry. -/
theorem configuration_is_kept_witness :
    ({ carrySession with
          sourceBuffer := [13, 14, 7, 8, 9, 10, 11, 12, 13, 14, 0, 0, 0, 0, 0, 0],
          decodeBuffer := [9, 10, 11, 12, 13, 14], pcmPos := 4 } : App).channels
        = carrySession.channels ∧
      ({ carrySession with
          sourceBuffer := [13, 14, 7, 8, 9, 10, 11, 12, 13, 14, 0, 0, 0, 0, 0, 0],
          decodeBuffer := [9, 10, 11, 12, 13, 14], pcmPos := 4 } : App).volume
        = carrySession.volume ∧
      ({ carrySession with
          sourceBuffer := [13, 14, 7, 8, 9, 10, 11, 12, 13, 14, 0, 0, 0, 0, 0, 0],
          decodeBuffer := [9, 10, 11, 12, 13, 14], pcmPos := 4 } : App).samples
        = carrySession.samples ∧
      ({ carrySession with
          sourceBuffer := [13, 14, 7, 8, 9, 10, 11, 12, 13, 14, 0, 0, 0, 0, 0, 0],
          decodeBuffer := [9, 10, 11, 12, 13, 14], pcmPos := 4 } : App).format
        = carrySession.format ∧
      ({ carrySession with
          sourceBuffer := [13, 14, 7, 8, 9, 10, 11, 12, 13, 14, 0, 0, 0, 0, 0, 0],
          decodeBuffer := [9, 10, 11, 12, 13, 14], pcmPos := 4 } : App).pcmTotal
        = carrySession.pcmTotal ∧
      ({ carrySession with
          sourceBuffer := [13, 14, 7, 8, 9, 10, 11, 12, 13, 14, 0, 0, 0, 0, 0, 0],
          decodeBuffer := [9, 10, 11, 12, 13, 14], pcmPos := 4 } : App)
        = { carrySession with
            pcmPos := 4, preSamples := 1, savedOffset := 4, endReached := 0,
            closeOnNextTick := 0, shouldClose := 0,
            sourceBuffer := [13, 14, 7, 8, 9, 10, 11, 12, 13, 14, 0, 0, 0, 0, 0, 0],
            decodeBuffer := [9, 10, 11, 12, 13, 14] } :=
  configuration_is_kept muteMixer carrySession
    [⟨1, [7, 8], 1⟩, ⟨3, [9, 10, 11, 12, 13, 14], 4⟩, ⟨1, [0, 0], 5⟩] (List.replicate 16 9) 16
    { carrySession with
      sourceBuffer := [13, 14, 7, 8, 9, 10, 11, 12, 13, 14, 0, 0, 0, 0, 0, 0],
      decodeBuffer := [9, 10, 11, 12, 13, 14], pcmPos := 4 }
    [⟨1, [0, 0], 5⟩] [5, 0, 6, 0, 7, 0, 8, 0, 9, 0, 10, 0, 11, 0, 12, 0] (by decide)

/-- C14. The two carry counters agree. Start a session with `preSamples == 0` and
`savedOffset == 0` and take any run of invocations with `len = 4 * samples` that completes,
with any decoder replies (decode errors and the end of the stream included): after the run,
whatever its length, `savedOffset == 4 * preSamples`. -/
theorem carry_counters_agree (mixer : Mixer) (app : App) (handle : OggOpusFile)
    (streams : List (List Nat)) (len : Int) (app' : App) (handle' : OggOpusFile)
    (out : List Nat)
    (hpre : app.preSamples = 0) (hso : app.savedOffset = 0) (hlen : len = 4 * app.samples)
    (hrun : playback mixer len streams app handle = .ok (app', handle', out)) :
    app'.savedOffset = 4 * app'.preSamples := by
  by_cases hend : app.endReached = 0
  · have hinv : CarryOk app := ⟨by omega, by omega, by omega⟩
    obtain ⟨_, _, _, hinv', _⟩ :=
      playback_carry mixer len streams app handle app' handle' out hrun hend hinv hlen
    exact hinv'.2.1
  · obtain ⟨_, _, _, h4, h5, _⟩ := playback_silent mixer len streams app handle app' handle' out
      hend hrun
    omega

/-- Witness of `carry_counters_agree`: a run of two invocations that ends with a carry of one
frame. -/
theorem carry_counters_agree_witness :
    ({ freshApp 2 2 100 0 8 with
        sourceBuffer := [9, 10, 7, 8, 9, 10, 0, 0], decodeBuffer := [7, 8, 9, 10], pcmPos := 5,
        savedOffset := 4, preSamples := 1 } : App).savedOffset
      = 4 * ({ freshApp 2 2 100 0 8 with
        sourceBuffer := [9, 10, 7, 8, 9, 10, 0, 0], decodeBuffer := [7, 8, 9, 10], pcmPos := 5,
        savedOffset := 4, preSamples := 1 } : App).preSamples :=
  carry_counters_agree muteMixer (freshApp 2 2 100 0 8)
    [⟨1, [1, 2], 1⟩, ⟨2, [3, 4, 5, 6], 3⟩, ⟨2, [7, 8, 9, 10], 5⟩, ⟨2, [0, 0, 0, 0], 7⟩]
    [List.replicate 8 9, List.replicate 8 9] 8 _ [⟨2, [0, 0, 0, 0], 7⟩]
    [1, 0, 2, 0, 3, 0, 4, 0, 5, 0, 6, 0, 7, 0, 8, 0]
    (by decide) (by decide) (by decide) (by decide)

/-- The loop makes progress with every reply that is an error, yields a frame or ends the
stream: with `samples - samplesRead` such replies at hand it never asks for more, and it
consumes no more than that many. -/
theorem pullLoop_calls : ∀ (handle : OggOpusFile) (app : App) (sr bo : Int),
    (app.samples - sr).toNat ≤ handle.length →
    (∀ c ∈ handle.take (app.samples - sr).toNat,
      c.decRes < 0 ∨ 1 ≤ c.decRes ∨ c.pos = app.pcmTotal) →
    pullLoop handle app sr bo ≠ .starved ∧
      ∀ r, pullLoop handle app sr bo = .ok r →
        ∃ used, handle = used ++ r.handle ∧ (used.length : Int) ≤ max 0 (app.samples - sr)
  | [], app, sr, bo, hlen, _ => by
    have hcond : ¬ sr < app.samples := by
      simp only [List.length_nil] at hlen
      omega
    unfold pullLoop
    rw [if_neg hcond]
    refine ⟨by simp, fun r hr => ?_⟩
    simp only [Run.ok.injEq] at hr
    subst hr
    exact ⟨[], rfl, by simp⟩
  | c :: rest, app, sr, bo, hlen, hprog => by
    unfold pullLoop
    by_cases hcond : sr < app.samples
    · rw [if_pos hcond]
      simp only
      have hN : (app.samples - sr).toNat = (app.samples - sr).toNat - 1 + 1 := by omega
      have hc : c.decRes < 0 ∨ 1 ≤ c.decRes ∨ c.pos = app.pcmTotal := by
        apply hprog
        rw [hN, List.take_succ_cons]
        exact List.mem_cons_self _ _
      by_cases hneg : c.decRes < 0
      · rw [if_pos hneg]
        refine ⟨by simp, fun r hr => ?_⟩
        simp only [Run.ok.injEq] at hr
        subst hr
        exact ⟨[c], rfl, by simp only [List.length_singleton]; omega⟩
      · rw [if_neg hneg]
        split
        · exact ⟨by simp, fun r hr => by simp at hr⟩
        · rename_i sb hstore
          by_cases hend : c.pos = app.pcmTotal
          · rw [if_pos hend]
            refine ⟨by simp, fun r hr => ?_⟩
            simp only [Run.ok.injEq] at hr
            subst hr
            exact ⟨[c], rfl, by simp only [List.length_singleton]; omega⟩
          · rw [if_neg hend]
            have hd : 1 ≤ c.decRes := by
              rcases hc with h | h | h
              · exact absurd h hneg
              · exact h
              · exact absurd h hend
            have hle : (app.samples - (sr + c.decRes)).toNat ≤ (app.samples - sr).toNat - 1 := by
              omega
            obtain ⟨ih1, ih2⟩ := pullLoop_calls rest
              { app with decodeBuffer := c.pcm, sourceBuffer := sb, pcmPos := c.pos }
              (sr + c.decRes) (bo + c.decRes * 4)
              (by simp only [List.length_cons] at hlen ⊢; omega)
              (by
                intro x hx
                apply hprog
                rw [hN, List.take_succ_cons]
                exact List.mem_cons_of_mem _
                  (List.take_subset_take_left rest hle hx))
            refine ⟨ih1, fun r hr => ?_⟩
            obtain ⟨used, hu, hul⟩ := ih2 r hr
            refine ⟨c :: used, by rw [List.cons_append, ← hu], ?_⟩
            simp only [List.length_cons] at hul ⊢
            push_cast
            omega
    · rw [if_neg hcond]
      refine ⟨by simp, fun r hr => ?_⟩
      simp only [Run.ok.injEq] at hr
      subst hr
      exact ⟨[], rfl, by simp⟩

/-- With replies that also fit the decode buffer and a working buffer sized for the
largest yield, the loop runs to one of its exits. -/
theorem pullLoop_returns (D : Int) : ∀ (handle : OggOpusFile) (app : App) (sr bo : Int),
    0 ≤ sr → bo = 4 * sr → 2 * sr ≤ app.sourceBuffer.length →
    (app.samples - sr).toNat ≤ handle.length →
    (∀ c ∈ handle.take (app.samples - sr).toNat,
      (c.decRes < 0 ∨ 1 ≤ c.decRes ∨ c.pos = app.pcmTotal) ∧ chunkFits app.channels c ∧
        c.decRes ≤ D) →
    2 * (app.samples - 1 + D) ≤ app.sourceBuffer.length →
    ∃ r, pullLoop handle app sr bo = .ok r
  | [], app, sr, bo, _, _, _, hlen, _, _ => by
    have hcond : ¬ sr < app.samples := by
      simp only [List.length_nil] at hlen
      omega
    unfold pullLoop
    rw [if_neg hcond]
    exact ⟨_, rfl⟩
  | c :: rest, app, sr, bo, hsr, hbo, hfit, hlen, hprog, hcap => by
    unfold pullLoop
    by_cases hcond : sr < app.samples
    · rw [if_pos hcond]
      simp only
      have hN : (app.samples - sr).toNat = (app.samples - sr).toNat - 1 + 1 := by omega
      obtain ⟨hc, hcf, hcD⟩ := hprog c (by
        rw [hN, List.take_succ_cons]
        exact List.mem_cons_self _ _)
      by_cases hneg : c.decRes < 0
      · rw [if_pos hneg]
        exact ⟨_, rfl⟩
      · rw [if_neg hneg]
        subst hbo
        obtain ⟨sb, hstore⟩ := storeChunk_isSome app c sr (by omega) hsr hcf (by omega)
        have hs := storeChunk_spec app c sr sb hstore (by omega) hsr hfit
        rw [hstore]
        simp only
        by_cases hend : c.pos = app.pcmTotal
        · rw [if_pos hend]
          exact ⟨_, rfl⟩
        · rw [if_neg hend]
          have hd : 1 ≤ c.decRes := by
            rcases hc with h | h | h
            · exact absurd h hneg
            · exact h
            · exact absurd h hend
          have hle : (app.samples - (sr + c.decRes)).toNat ≤ (app.samples - sr).toNat - 1 := by
            omega
          exact pullLoop_returns D rest
            { app with decodeBuffer := c.pcm, sourceBuffer := sb, pcmPos := c.pos }
            (sr + c.decRes) (4 * sr + c.decRes * 4) (by omega) (by ring)
            (by simp only; omega)
            (by simp only [List.length_cons] at hlen ⊢; omega)
            (by
              intro x hx
              apply hprog
              rw [hN, List.take_succ_cons]
              exact List.mem_cons_of_mem _ (List.take_subset_take_left rest hle hx))
            (by simp only; omega)
    · rw [if_neg hcond]
      exact ⟨_, rfl⟩

/-- C15. The pull loop terminates. Let the first `max(0, samples - preSamples)` replies of the
decoder be at hand and let each of them be negative, yield at least one frame, or leave the
position at `pcmTotal`. Then an invocation never asks for a further reply, and when it
completes it has made at most `max(0, samples - preSamples)` decoder calls. It does complete
when, in addition, `samples > 0`, the carry is consistent, `len = 4 * samples` bytes are
handed in, and those replies fit the decode buffer and yield at most `D` frames, for a
working buffer of at least `2 * (samples - 1 + D)` samples. -/
theorem pull_loop_terminates (mixer : Mixer) (app : App) (handle : OggOpusFile)
    (stream : List Nat) (len D : Int)
    (hlen : (max 0 (app.samples - app.preSamples)).toNat ≤ handle.length)
    (hprog : ∀ c ∈ handle.take (max 0 (app.samples - app.preSamples)).toNat,
      c.decRes < 0 ∨ 1 ≤ c.decRes ∨ c.pos = app.pcmTotal) :
    streamCallback mixer app handle stream len ≠ .starved ∧
      (∀ app' handle' out, streamCallback mixer app handle stream len = .ok (app', handle', out) →
        ∃ used, handle = used ++ handle' ∧
          (used.length : Int) ≤ max 0 (app.samples - app.preSamples)) ∧
      (0 < app.samples → CarryOk app → len = 4 * app.samples → len ≤ stream.length →
        (∀ c ∈ handle.take (max 0 (app.samples - app.preSamples)).toNat,
          chunkFits app.channels c ∧ c.decRes ≤ D) →
        2 * (app.samples - 1 + D) ≤ app.sourceBuffer.length →
        ∃ app' handle' out,
          streamCallback mixer app handle stream len = .ok (app', handle', out)) := by
  have hN : (max 0 (app.samples - app.preSamples)).toNat
      = (app.samples - app.preSamples).toNat := by omega
  rw [hN] at hlen hprog
  obtain ⟨hns, hcount⟩ := pullLoop_calls handle
    { app with preSamples := 0, savedOffset := 0 } app.preSamples app.savedOffset hlen hprog
  refine ⟨?_, ?_, ?_⟩
  · intro hst
    exact hns (streamCallback_starved mixer app handle stream len hst).2.2.2
  · intro app' handle' out hrun
    by_cases hend : app.endReached = 0
    · unfold streamCallback at hrun
      split at hrun
      · simp at hrun
      · simp only at hrun
        rw [if_neg (not_not.mpr hend)] at hrun
        split at hrun
        · simp at hrun
        · simp at hrun
        · rename_i a1 h1 hloop
          simp only [Run.ok.injEq, Prod.mk.injEq] at hrun
          obtain ⟨rfl, rfl, rfl⟩ := hrun
          exact hcount _ hloop
        · rename_i a1 h1 sr1 hloop
          split at hrun
          · simp at hrun
          · simp at hrun
          · simp only [Run.ok.injEq, Prod.mk.injEq] at hrun
            obtain ⟨rfl, rfl, rfl⟩ := hrun
            exact hcount _ hloop
    · obtain ⟨_, _, _, _, h5⟩ := streamCallback_frame mixer app handle stream len _ _ _ hrun
      exact ⟨[], by rw [(h5 hend).1]; rfl, by simp⟩
  · intro hs hinv hl hst hfits hcap
    rw [hN] at hfits
    obtain ⟨hp0, hso, hpfit⟩ := hinv
    by_cases hend : app.endReached = 0
    · obtain ⟨r, hloop⟩ := pullLoop_returns D handle
        { app with preSamples := 0, savedOffset := 0 } app.preSamples app.savedOffset
        hp0 hso hpfit hlen (fun c hc => ⟨hprog c hc, hfits c hc⟩) hcap
      cases r with
      | returned a1 h1 =>
        refine ⟨a1, h1, List.replicate len.toNat 0 ++ stream.drop len.toNat, ?_⟩
        unfold streamCallback
        rw [memset_eq stream len (by omega) hst]
        simp only
        rw [if_neg (not_not.mpr hend), hloop]
      | fellThrough a1 h1 sr1 =>
        obtain ⟨cs, _, hpos, hsr, hcfg, _, _, _, _, _, hcontent⟩ :=
          pullLoop_fellThrough _ _ _ _ _ _ _ hloop
        obtain ⟨_, c2, _⟩ := hcontent hp0 hso hpfit
        have hfr := framesOf_nonneg cs hpos
        have hs1 : a1.samples = app.samples := hcfg.2.2.1
        obtain ⟨a2, out, hdel, _⟩ := deliver_spec mixer a1 sr1
          (List.replicate len.toNat 0 ++ stream.drop len.toNat) len (by omega) c2 (by omega)
          (by omega)
          (by simp only [List.length_append, List.length_replicate, List.length_drop]; omega)
        refine ⟨a2, h1, out, ?_⟩
        unfold streamCallback
        rw [memset_eq stream len (by omega) hst]
        simp only
        rw [if_neg (not_not.mpr hend), hloop]
        simp only
        rw [hdel]
    · exact ⟨_, _, _, streamCallback_silent mixer app handle stream len hend (by omega) hst⟩

/-- Witness of `pull_loop_terminates`: requests of 4 frames with one frame carried, and three
replies of one frame at hand. -/
theorem pull_loop_terminates_witness :
    streamCallback muteMixer carrySession
        [⟨1, [7, 8], 1⟩, ⟨1, [9, 10], 2⟩, ⟨1, [11, 12], 3⟩] (List.replicate 16 9) 16
        ≠ .starved ∧
      (∀ app' handle' out, streamCallback muteMixer carrySession
          [⟨1, [7, 8], 1⟩, ⟨1, [9, 10], 2⟩, ⟨1, [11, 12], 3⟩] (List.replicate 16 9) 16
          = .ok (app', handle', out) →
        ∃ used, [⟨1, [7, 8], 1⟩, ⟨1, [9, 10], 2⟩, ⟨1, [11, 12], 3⟩] = used ++ handle' ∧
          (used.length : Int) ≤ max 0 (carrySession.samples - carrySession.preSamples)) ∧
      (0 < carrySession.samples → CarryOk carrySession → (16 : Int) = 4 * carrySession.samples →
        (16 : Int) ≤ (List.replicate 16 9).length →
        (∀ c ∈ ([⟨1, [7, 8], 1⟩, ⟨1, [9, 10], 2⟩, ⟨1, [11, 12], 3⟩] : List Chunk).take
            (max 0 (carrySession.samples - carrySession.preSamples)).toNat,
          chunkFits carrySession.channels c ∧ c.decRes ≤ 1) →
        2 * (carrySession.samples - 1 + 1) ≤ carrySession.sourceBuffer.length →
        ∃ app' handle' out, streamCallback muteMixer carrySession
          [⟨1, [7, 8], 1⟩, ⟨1, [9, 10], 2⟩, ⟨1, [11, 12], 3⟩] (List.replicate 16 9) 16
          = .ok (app', handle', out)) :=
  pull_loop_terminates muteMixer carrySession
    [⟨1, [7, 8], 1⟩, ⟨1, [9, 10], 2⟩, ⟨1, [11, 12], 3⟩] (List.replicate 16 9) 16 1
    (by decide) (by decide)

/-- The option loop returns 1 when a `-volume` among the arguments left is the last of them or
is followed by a value that `strtol` does not consume, given that `strtol` does not consume
the word `-volume` itself. -/
theorem optionLoop_exit (strtol : Strtol) (scale : Scale)
    (hname : (strtol "-volume").2 ≠ "") : ∀ (args : List String) (v idx : Int),
    ((∃ pre, args = pre ++ ["-volume"]) ∨
      (∃ pre value post, args = pre ++ "-volume" :: value :: post ∧ (strtol value).2 ≠ "")) →
    optionLoop strtol scale args v idx = .exit 1
  | [], v, idx, h => by
    rcases h with ⟨pre, h⟩ | ⟨pre, value, post, h, _⟩
    · exact absurd h (by simp)
    · exact absurd h (by simp)
  | [arg], v, idx, h => by
    have harg : arg = "-volume" := by
      rcases h with ⟨pre, h⟩ | ⟨pre, value, post, h, _⟩
      · cases pre with
        | nil => simpa using h
        | cons a pre => simp at h
      · have hl := congrArg List.length h
        simp at hl
        omega
    unfold optionLoop
    rw [if_pos harg]
  | arg :: value :: more, v, idx, h => by
    unfold optionLoop
    by_cases harg : arg = "-volume"
    · rw [if_pos harg]
      simp only
      by_cases hval : (strtol value).2 ≠ ""
      · rw [if_pos hval]
      · rw [if_neg hval]
        apply optionLoop_exit strtol scale hname more
        rcases h with ⟨pre, h⟩ | ⟨pre, x, post, h, hx⟩
        · match pre, h with
          | [], h => simp at h
          | [a], h =>
            simp only [List.singleton_append, List.cons.injEq] at h
            rw [h.2.1] at hval
            exact absurd hname hval
          | a :: b :: pre, h =>
            simp only [List.cons_append, List.cons.injEq] at h
            exact Or.inl ⟨pre, h.2.2⟩
        · match pre, h with
          | [], h =>
            simp only [List.nil_append, List.cons.injEq] at h
            rw [h.2.1] at hval
            exact absurd hx hval
          | [a], h =>
            simp only [List.singleton_append, List.cons.injEq] at h
            rw [h.2.1] at hval
            exact absurd hname hval
          | a :: b :: pre, h =>
            simp only [List.cons_append, List.cons.injEq] at h
            exact Or.inr ⟨pre, x, post, h.2.2, hx⟩
    · rw [if_neg harg]
      apply optionLoop_exit strtol scale hname (value :: more)
      rcases h with ⟨pre, h⟩ | ⟨pre, x, post, h, hx⟩
      · match pre, h with
        | [], h => simp at h
        | a :: pre, h =>
          simp only [List.cons_append, List.cons.injEq] at h
          exact Or.inl ⟨pre, h.2⟩
      · match pre, h with
        | [], h =>
          simp only [List.nil_append, List.cons.injEq] at h
          exact absurd h.1 harg
        | a :: pre, h =>
          simp only [List.cons_append, List.cons.injEq] at h
          exact Or.inr ⟨pre, x, post, h.2, hx⟩

/-- C11. A malformed or missing volume ends `main` with code 1 before any call into SDL. Let
`strtol` leave the word `-volume` unconsumed, as the C library does. For every argument vector
in which a `-volume` after the program name is followed by a value that `strtol` does not
consume to its end, or is the last argument, lines 51-108 of `main` return 1 and have called
neither `SDL_Init` nor `SDL_OpenAudioDevice`, whatever those calls would have returned. -/
theorem malformed_volume_exits (strtol : Strtol) (scale : Scale) (sdlInit : Int)
    (deviceID : Nat) (argv : List String)
    (hname : (strtol "-volume").2 ≠ "")
    (hbad : (∃ pre, pre ≠ [] ∧ argv = pre ++ ["-volume"]) ∨
      (∃ pre value post, pre ≠ [] ∧ argv = pre ++ "-volume" :: value :: post ∧
        (strtol value).2 ≠ "")) :
    mainOptions strtol scale argv = .exit 1 ∧
      mainUntilDevice strtol scale sdlInit deviceID argv = (some 1, []) := by
  have hopt : mainOptions strtol scale argv = .exit 1 := by
    unfold mainOptions
    split
    · rfl
    · rw [optionLoop_exit strtol scale hname (argv.drop 1) 0 1]
      rcases hbad with ⟨pre, hpre, h⟩ | ⟨pre, x, post, hpre, h, hx⟩
      · cases pre with
        | nil => exact absurd rfl hpre
        | cons a pre => exact Or.inl ⟨pre, by rw [h]; rfl⟩
      · cases pre with
        | nil => exact absurd rfl hpre
        | cons a pre => exact Or.inr ⟨pre, x, post, by rw [h]; rfl, hx⟩
  refine ⟨hopt, ?_⟩
  unfold mainUntilDevice
  rw [hopt]

/-- Witness of `malformed_volume_exits`: the command line `main -volume 12abc song.opus`. -/
theorem malformed_volume_exits_witness :
    (digitsStrtol "-volume").2 ≠ "" ∧ (digitsStrtol "12abc").2 ≠ "" ∧
      mainOptions digitsStrtol percentScale ["main", "-volume", "12abc", "song.opus"]
        = .exit 1 ∧
      mainUntilDevice digitsStrtol percentScale 0 2
        ["main", "-volume", "12abc", "song.opus"] = (some 1, []) :=
  ⟨by decide, by decide,
    malformed_volume_exits digitsStrtol percentScale 0 2
      ["main", "-volume", "12abc", "song.opus"] (by decide)
      (Or.inr ⟨["main"], "12abc", ["song.opus"], by decide, rfl, by decide⟩)⟩

/-- The array that `strncpy` leaves behind. -/
theorem strncpy_ok (buffer : Buffer) (dst src : List Char) (n : Int) (h0 : 0 ≤ n)
    (h1 : n ≤ dst.length) :
    strncpy buffer dst src n
      = .ok ((cstr src).take n.toNat ++ List.replicate (n.toNat - (cstr src).length) NUL
          ++ dst.drop n.toNat) := by
  unfold strncpy
  rw [if_pos ⟨h0, h1⟩]

/-- The array does not change its capacity under `strncpy`. -/
theorem strncpy_length (dst src : List Char) (n : Int) (h1 : n ≤ dst.length) :
    ((cstr src).take n.toNat ++ List.replicate (n.toNat - (cstr src).length) NUL
      ++ dst.drop n.toNat).length = dst.length := by
  simp only [List.length_append, List.length_take, List.length_replicate, List.length_drop]
  omega

/-- A comment with a key of 1 to 39 characters and a value of 199 characters passes the
length checks and makes line 299 write at `value[200]`. -/
theorem parseComment_overflow (b : TagBuffers) (comment : List Char)
    (hkey : b.key.length = 40) (hvalue : b.value.length = 200)
    (h1 : 1 ≤ delimiterLoop comment 0) (h2 : delimiterLoop comment 0 ≤ 39)
    (hlen : (comment.length : Int) = delimiterLoop comment 0 + 200) :
    parseComment b comment = .overflow .value 200 := by
  have hK : MAX_TAG_KEY_SIZE = 40 := rfl
  have hV : MAX_TAG_VALUE_SIZE = 200 := rfl
  unfold parseComment
  rw [if_neg (by rw [hK, hV]; push_cast; omega)]
  simp only
  rw [if_neg (by rw [hK]; push_cast; omega)]
  rw [strncpy_ok _ _ _ _ (by omega) (by rw [hkey]; push_cast; omega)]
  simp only [Outcome.bind]
  unfold storeChar
  rw [if_pos (by
    rw [strncpy_length _ _ _ (by rw [hkey]; push_cast; omega), hkey]
    push_cast
    omega)]
  simp only [Outcome.bind]
  rw [if_neg (by rw [hV]; push_cast; omega)]
  rw [strncpy_ok _ _ _ _ (by omega) (by rw [hvalue]; push_cast; omega)]
  simp only [Outcome.bind]
  rw [if_neg (by
    rw [strncpy_length _ _ _ (by rw [hvalue]; push_cast; omega), hvalue]
    push_cast
    omega)]
  rw [show (comment.length : Int) - delimiterLoop comment 0 = 200 by omega]

/-- C16 is refuted by the comment `Title=` followed by 199 characters. It passes the three
length checks, its key and its value are copied inside `key` and `value`, and the
terminator of line 299 is then written at `value[200]`, one past the 200 characters of
`value`: whatever `key` and `value` held before, `parseTags` ends with that write. -/
theorem value_terminator_overflows (keyJunk valueJunk : Nat → Char) (nowPlayingStr : List Char) :
    parseTags keyJunk valueJunk ["Title=".data ++ List.replicate 199 'a'] nowPlayingStr
      = .overflow .value 200 := by
  have hlen : ("Title=".data ++ List.replicate 199 'a').length = 205 := by
    rw [List.length_append, List.length_replicate]
    rfl
  have hoff : delimiterLoop ("Title=".data ++ List.replicate 199 'a') 0 = 5 := by
    decide
  have hkey : (entryBuffers keyJunk valueJunk).key.length = 40 := by
    simp [entryBuffers, MAX_TAG_KEY_SIZE]
  have hvalue : (entryBuffers keyJunk valueJunk).value.length = 200 := by
    simp [entryBuffers, MAX_TAG_VALUE_SIZE]
  unfold parseTags tagLoop
  rw [parseComment_overflow _ _ hkey hvalue (by rw [hoff]; decide) (by rw [hoff]; decide)
    (by rw [hoff, hlen]; decide)]
  rfl

theorem cstr_eq_self : ∀ (s : List Char), NUL ∉ s → cstr s = s
  | [], _ => rfl
  | a :: s, h => by
    have ha : a ≠ NUL := fun e => h (by rw [e]; exact List.mem_cons_self _ _)
    have hs : NUL ∉ s := fun e => h (List.mem_cons_of_mem _ e)
    have ih := cstr_eq_self s hs
    unfold cstr at ih ⊢
    rw [List.takeWhile_cons_of_pos (by simpa using ha), ih]

theorem cstr_append_nul : ∀ (s r : List Char), NUL ∉ s → cstr (s ++ NUL :: r) = s
  | [], r, _ => by
    unfold cstr
    rw [List.nil_append, List.takeWhile_cons_of_neg (by simp)]
  | a :: s, r, h => by
    have ha : a ≠ NUL := fun e => h (by rw [e]; exact List.mem_cons_self _ _)
    have hs : NUL ∉ s := fun e => h (List.mem_cons_of_mem _ e)
    have ih := cstr_append_nul s r hs
    unfold cstr at ih ⊢
    rw [List.cons_append, List.takeWhile_cons_of_pos (by simpa using ha), ih]

/-- A terminator stored right behind a string without `NUL` ends it there. -/
theorem cstr_set_end : ∀ (s r : List Char), NUL ∉ s → r ≠ [] →
    cstr ((s ++ r).set s.length NUL) = s
  | [], r, _, hr => by
    cases r with
    | nil => exact absurd rfl hr
    | cons x r =>
      unfold cstr
      rw [List.nil_append, List.length_nil, List.set_cons_zero,
        List.takeWhile_cons_of_neg (by simp)]
  | a :: s, r, h, hr => by
    have ha : a ≠ NUL := fun e => h (by rw [e]; exact List.mem_cons_self _ _)
    have hs : NUL ∉ s := fun e => h (List.mem_cons_of_mem _ e)
    have ih := cstr_set_end s r hs hr
    unfold cstr at ih ⊢
    rw [List.cons_append, List.length_cons, List.set_cons_succ,
      List.takeWhile_cons_of_pos (by simpa using ha), ih]

/-- A character stored behind the terminator does not change the string. -/
theorem cstr_set_behind (x : Char) : ∀ (l : List Char) (i : Nat), (cstr l).length < i →
    cstr (l.set i x) = cstr l
  | [], i, _ => rfl
  | a :: l, 0, h => absurd h (Nat.not_lt_zero _)
  | a :: l, i + 1, h => by
    rw [List.set_cons_succ]
    by_cases ha : a = NUL
    · unfold cstr
      rw [List.takeWhile_cons_of_neg (by simp [ha]), List.takeWhile_cons_of_neg (by simp [ha])]
    · have hl : (cstr l).length < i := by
        unfold cstr at h ⊢
        rw [List.takeWhile_cons_of_pos (by simpa using ha), List.length_cons] at h
        omega
      have ih := cstr_set_behind x l i hl
      unfold cstr at ih ⊢
      rw [List.takeWhile_cons_of_pos (by simpa using ha),
        List.takeWhile_cons_of_pos (by simpa using ha), ih]

theorem cstr_padded (size : Nat) (s : List Char) (h : NUL ∉ s) : cstr (padded size s) = s := by
  unfold padded
  cases hk : size - s.length with
  | zero => rw [List.replicate_zero, List.append_nil, cstr_eq_self s h]
  | succ k => rw [List.replicate_succ, cstr_append_nul s _ h]

theorem headD_padded (size : Nat) (s : List Char) (h : NUL ∉ s) :
    (padded size s).headD NUL ≠ NUL ↔ s ≠ [] := by
  cases s with
  | nil =>
    unfold padded
    cases size with
    | zero => simp
    | succ k => simp [List.replicate_succ]
  | cons a s =>
    have ha : a ≠ NUL := fun e => h (by rw [e]; exact List.mem_cons_self _ _)
    simp [padded, ha]

theorem length_padded (size : Nat) (s : List Char) (h : s.length ≤ size) :
    (padded size s).length = size := by
  unfold padded
  rw [List.length_append, List.length_replicate]
  omega

/-- The loop of lines 283-288 counts the characters of the key. -/
theorem delimiterLoop_eq : ∀ (comment : List Char) (k : Int),
    delimiterLoop comment k = k + (tagKey comment).length
  | [], k => by simp [delimiterLoop, tagKey]
  | c :: rest, k => by
    unfold delimiterLoop tagKey
    by_cases hc : c = '='
    · rw [if_pos hc, List.takeWhile_cons_of_neg (by simp [hc])]
      simp
    · rw [if_neg hc, List.takeWhile_cons_of_pos (by simpa using hc),
        delimiterLoop_eq rest (k + 1)]
      unfold tagKey
      rw [List.length_cons]
      push_cast
      ring

theorem tagKey_length_le (comment : List Char) : (tagKey comment).length ≤ comment.length :=
  (List.takeWhile_prefix _).length_le

theorem take_tagKey (comment : List Char) :
    comment.take (tagKey comment).length = tagKey comment := by
  have h := List.prefix_iff_eq_take.mp (List.takeWhile_prefix (fun c => decide (c ≠ '=')) (l := comment))
  exact h.symm

theorem length_tagValue (comment : List Char) :
    (tagValue comment).length = comment.length - ((tagKey comment).length + 1) := by
  unfold tagValue
  rw [List.length_drop]

theorem not_mem_take {s : List Char} (n : Nat) (h : NUL ∉ s) : NUL ∉ s.take n :=
  fun e => h (List.mem_of_mem_take e)

theorem not_mem_drop {s : List Char} (n : Nat) (h : NUL ∉ s) : NUL ∉ s.drop n :=
  fun e => h (List.mem_of_mem_drop e)

/-- Lines 300-311 for one field that holds `s`: it holds the value afterwards, truncated,
when the key is the name of the field, and `s` otherwise. -/
theorem copyField_spec (buffer : Buffer) (key : List Char) (name : String)
    (value s : List Char) (size : Nat) (hsize : 1 ≤ size) (hs : s.length ≤ size - 1) :
    copyField buffer key name (padded size s) value size
      = .ok (padded size
          (if cstr key = name.data then (cstr value).take (size - 1) else s)) := by
  unfold copyField
  by_cases hk : cstr key = name.data
  · rw [if_pos hk, if_pos hk]
    have hlen := length_padded size s (by omega)
    rw [strncpy_ok _ _ _ _ (by omega) (by rw [hlen]; omega)]
    have hn : ((size : Int) - 1).toNat = size - 1 := by omega
    rw [hn]
    have hdrop : (padded size s).drop (size - 1) = [NUL] := by
      unfold padded
      rw [List.drop_append_eq_append_drop, List.drop_eq_nil_of_le (by omega), List.nil_append,
        List.drop_replicate]
      have : size - s.length - (size - 1 - s.length) = 1 := by omega
      rw [this]
      rfl
    rw [hdrop]
    unfold padded
    rw [List.append_assoc]
    congr 2
    rw [show ([NUL] : List Char) = List.replicate 1 NUL from rfl, List.append_replicate_replicate,
      List.length_take]
    congr 1
    omega
  · rw [if_neg hk, if_neg hk]

/-- The value that a field holds after a comment. -/
theorem upd_not_mem (name : String) (comment cur : List Char) (hc : NUL ∉ comment)
    (hcur : NUL ∉ cur) :
    NUL ∉ (if Accepted comment ∧ tagKey comment = name.data then tagValue comment else cur) := by
  split
  · exact not_mem_drop _ hc
  · exact hcur

/-- The body of the loop for one comment without `NUL` whose value, when the comment passes
the length checks, has at most 198 characters: the fields hold the values of the last
accepted comments. -/
theorem parseComment_spec (b : TagBuffers) (comment a t al d : List Char)
    (h : Holds b a t al d) (hnul : NUL ∉ comment)
    (hshort : Accepted comment → (tagValue comment).length ≤ 198) :
    ∃ b', parseComment b comment = .ok b' ∧
      Holds b'
        (if Accepted comment ∧ tagKey comment = "Artist".data then tagValue comment else a)
        (if Accepted comment ∧ tagKey comment = "Title".data then tagValue comment else t)
        (if Accepted comment ∧ tagKey comment = "Album".data then tagValue comment else al)
        (if Accepted comment ∧ tagKey comment = "Date".data then tagValue comment else d) := by
  obtain ⟨hkey, hvalue, hA, hT, hAl, hD, nA, nT, nAl, nD⟩ := h
  have hK : MAX_TAG_KEY_SIZE = 40 := rfl
  have hV : MAX_TAG_VALUE_SIZE = 200 := rfl
  have hoff := delimiterLoop_eq comment 0
  have hle := tagKey_length_le comment
  have hvl := length_tagValue comment
  rw [hK] at hkey
  rw [hV] at hvalue
  unfold parseComment
  by_cases h1 : (comment.length : Int) > MAX_TAG_KEY_SIZE + MAX_TAG_VALUE_SIZE
  · have hacc : ¬ Accepted comment := fun hacc => by
      rw [hK, hV] at h1
      have := hacc.1
      push_cast at h1
      omega
    rw [if_pos h1]
    refine ⟨b, rfl, ?_⟩
    simp only [hacc, false_and, if_false]
    exact ⟨hkey, hvalue, hA, hT, hAl, hD, nA, nT, nAl, nD⟩
  rw [if_neg h1]
  simp only
  by_cases h2 : delimiterLoop comment 0 = 0 ∨ delimiterLoop comment 0 > MAX_TAG_KEY_SIZE - 1
  · have hacc : ¬ Accepted comment := fun hacc => by
      rw [hK, hoff] at h2
      have h3 := hacc.2.1
      have h4 := hacc.2.2.1
      push_cast at h2
      omega
    rw [if_pos h2]
    refine ⟨b, rfl, ?_⟩
    simp only [hacc, false_and, if_false]
    exact ⟨hkey, hvalue, hA, hT, hAl, hD, nA, nT, nAl, nD⟩
  rw [if_neg h2]
  rw [hK, hoff] at h2
  rw [hK, hV] at h1
  push_cast at h1 h2
  have hoffN : (delimiterLoop comment 0).toNat = (tagKey comment).length := by omega
  rw [strncpy_ok _ _ _ _ (by omega) (by rw [hkey]; omega)]
  simp only [Outcome.bind]
  have hklen := strncpy_length b.key comment (delimiterLoop comment 0) (by rw [hkey]; omega)
  unfold storeChar
  rw [if_pos (by rw [hklen, hkey]; omega)]
  simp only [Outcome.bind]
  by_cases h3 : (comment.length : Int) - (delimiterLoop comment 0 + 1) > MAX_TAG_VALUE_SIZE - 1
  · have hacc : ¬ Accepted comment := fun hacc => by
      rw [hV, hoff] at h3
      have h4 := hacc.2.2.2
      push_cast at h3
      omega
    rw [if_pos h3]
    refine ⟨_, rfl, ?_⟩
    simp only [hacc, false_and, if_false]
    refine ⟨?_, hvalue, hA, hT, hAl, hD, nA, nT, nAl, nD⟩
    simp only
    rw [List.length_set, hklen, hkey, hK]
  rw [if_neg h3]
  rw [hV, hoff] at h3
  push_cast at h3
  have hacc : Accepted comment := ⟨by omega, by omega, by omega, by omega⟩
  have hs := hshort hacc
  simp only [hacc, true_and]
  -- the key
  have hckey : cstr ((List.take (delimiterLoop comment 0).toNat (cstr comment) ++
      List.replicate ((delimiterLoop comment 0).toNat - (cstr comment).length) NUL ++
      List.drop (delimiterLoop comment 0).toNat b.key).set (delimiterLoop comment 0).toNat NUL)
      = tagKey comment := by
    rw [hoffN, cstr_eq_self comment hnul, take_tagKey,
      Nat.sub_eq_zero_of_le hle, List.replicate_zero, List.append_nil]
    have hne : List.drop (tagKey comment).length b.key ≠ [] := by
      intro e
      have := congrArg List.length e
      rw [List.length_drop, hkey] at this
      simp only [List.length_nil] at this
      omega
    exact cstr_set_end _ _ (fun e => hnul ((List.takeWhile_prefix _).subset e)) hne
  -- the value
  have hnv : NUL ∉ tagValue comment := not_mem_drop _ hnul
  have hsrc : List.drop (delimiterLoop comment 0 + 1).toNat comment = tagValue comment := by
    unfold tagValue
    congr 1
    omega
  rw [hsrc]
  rw [strncpy_ok _ _ _ _ (by omega) (by rw [hvalue]; omega)]
  simp only [Outcome.bind]
  have hvlen := strncpy_length b.value (tagValue comment)
    ((comment.length : Int) - delimiterLoop comment 0) (by rw [hvalue]; omega)
  rw [if_pos (by rw [hvlen, hvalue]; omega)]
  simp only [Outcome.bind]
  have hcvalue : cstr ((List.take ((comment.length : Int) - delimiterLoop comment 0).toNat
        (cstr (tagValue comment)) ++
      List.replicate (((comment.length : Int) - delimiterLoop comment 0).toNat
        - (cstr (tagValue comment)).length) NUL ++
      List.drop ((comment.length : Int) - delimiterLoop comment 0).toNat b.value).set
        ((comment.length : Int) - delimiterLoop comment 0).toNat NUL)
      = tagValue comment := by
    rw [cstr_eq_self _ hnv]
    by_cases heq : (tagKey comment).length = comment.length
    · have hn : ((comment.length : Int) - delimiterLoop comment 0).toNat = 0 := by omega
      have hv0 : tagValue comment = [] := by
        apply List.eq_nil_of_length_eq_zero
        omega
      rw [hn, hv0]
      have hne : b.value ≠ [] := by
        intro e
        rw [e] at hvalue
        simp at hvalue
      exact cstr_set_end [] b.value (by simp) hne
    · have hn : ((comment.length : Int) - delimiterLoop comment 0).toNat
          = (tagValue comment).length + 1 := by omega
      rw [hn, List.take_of_length_le (by omega)]
      have h1 : (tagValue comment).length + 1 - (tagValue comment).length = 1 := by omega
      rw [h1]
      have hform : tagValue comment ++ List.replicate 1 NUL ++
          List.drop ((tagValue comment).length + 1) b.value
          = tagValue comment ++ NUL :: List.drop ((tagValue comment).length + 1) b.value := by
        simp
      rw [hform, cstr_set_behind]
      · exact cstr_append_nul _ _ hnv
      · rw [cstr_append_nul _ _ hnv]
        omega
  rw [hA, hT, hAl, hD]
  rw [copyField_spec _ _ _ _ _ _ (by decide) (by rw [List.length_take]; simp [TAG_ARTIST_SIZE]),
    copyField_spec _ _ _ _ _ _ (by decide) (by rw [List.length_take]; simp [TAG_TITLE_SIZE]),
    copyField_spec _ _ _ _ _ _ (by decide) (by rw [List.length_take]; simp [TAG_ALBUM_SIZE]),
    copyField_spec _ _ _ _ _ _ (by decide) (by rw [List.length_take]; simp [TAG_DATE_SIZE])]
  simp only [Outcome.bind]
  rw [hckey, hcvalue]
  refine ⟨_, rfl, ?_, ?_, ?_, ?_, ?_, ?_, ?_, ?_, ?_, ?_⟩
  · simp only
    rw [List.length_set, hklen, hkey, hK]
  · simp only
    rw [List.length_set, hvlen, hvalue, hV]
  · simp only
    split <;> rfl
  · simp only
    split <;> rfl
  · simp only
    split <;> rfl
  · simp only
    split <;> rfl
  · split
    · exact hnv
    · exact nA
  · split
    · exact hnv
    · exact nT
  · split
    · exact hnv
    · exact nAl
  · split
    · exact hnv
    · exact nD

/-- The loop of lines 278-312 over comments without `NUL` whose values, when accepted, have
at most 198 characters: it ends with the values of the last accepted comments in the fields. -/
theorem tagLoop_spec : ∀ (tags : List (List Char)) (b : TagBuffers) (a t al d : List Char),
    Holds b a t al d → (∀ c ∈ tags, NUL ∉ c) →
    (∀ c ∈ tags, Accepted c → (tagValue c).length ≤ 198) →
    ∃ b', tagLoop b tags = .ok b' ∧
      Holds b' (lastValue "Artist" a tags) (lastValue "Title" t tags)
        (lastValue "Album" al tags) (lastValue "Date" d tags)
  | [], b, a, t, al, d, h, _, _ => ⟨b, rfl, h⟩
  | c :: rest, b, a, t, al, d, h, hnul, hshort => by
    obtain ⟨b1, hrun, h1⟩ := parseComment_spec b c a t al d h
      (hnul c (List.mem_cons_self _ _)) (hshort c (List.mem_cons_self _ _))
    obtain ⟨b2, hrest, h2⟩ := tagLoop_spec rest b1 _ _ _ _ h1
      (fun x hx => hnul x (List.mem_cons_of_mem _ hx))
      (fun x hx => hshort x (List.mem_cons_of_mem _ hx))
    refine ⟨b2, ?_, h2⟩
    unfold tagLoop
    rw [hrun]
    exact hrest

theorem holds_entry (keyJunk valueJunk : Nat → Char) :
    Holds (entryBuffers keyJunk valueJunk) [] [] [] [] := by
  refine ⟨?_, ?_, rfl, rfl, rfl, rfl, ?_, ?_, ?_, ?_⟩
  · simp [entryBuffers]
  · simp [entryBuffers]
  all_goals simp

/-- The first `sprintf` into the buffer. -/
theorem sprintf_first (buf text : List Char) (h : text.length + 1 ≤ buf.length) :
    sprintf buf 0 text = .ok (text ++ NUL :: buf.drop (text.length + 1), text.length) := by
  unfold sprintf
  rw [if_pos ⟨le_refl _, by omega⟩]
  simp

/-- A later `sprintf` that starts inside the text written so far and ends behind it. -/
theorem sprintf_over (buf done text : List Char) (p : Int) (h0 : 0 ≤ p)
    (h1 : p ≤ done.length) (h2 : (done.length : Int) ≤ p + text.length)
    (h3 : p + text.length + 1 ≤ buf.length) :
    sprintf (done ++ NUL :: buf.drop (done.length + 1)) p text
      = .ok ((done.take p.toNat ++ text) ++ NUL :: buf.drop (p.toNat + text.length + 1),
          text.length) := by
  unfold sprintf
  have hl : (done ++ NUL :: buf.drop (done.length + 1)).length = buf.length := by
    rw [List.length_append, List.length_cons, List.length_drop]
    omega
  rw [if_pos ⟨h0, by rw [hl]; exact h3⟩]
  have ht : (done ++ NUL :: buf.drop (done.length + 1)).take p.toNat = done.take p.toNat := by
    rw [List.take_append_of_le_length (by omega)]
  have hd : (done ++ NUL :: buf.drop (done.length + 1)).drop (p.toNat + text.length + 1)
      = buf.drop (p.toNat + text.length + 1) := by
    have e : p.toNat + text.length + 1
        = (done ++ [NUL]).length + (p.toNat + text.length - done.length) := by
      rw [List.length_append, List.length_singleton]
      omega
    have e2 : done ++ NUL :: buf.drop (done.length + 1)
        = (done ++ [NUL]) ++ buf.drop (done.length + 1) := by simp
    rw [e2, e, List.drop_append, List.drop_drop, List.length_append, List.length_singleton]
  rw [ht, hd]

/-- The form of `sprintf_over` with the text written so far named. -/
theorem sprintf_next (buf done text all : List Char) (p : Int) (h0 : 0 ≤ p)
    (h1 : p ≤ done.length) (h2 : (done.length : Int) ≤ p + text.length)
    (h3 : p + text.length + 1 ≤ buf.length) (hall : all = done.take p.toNat ++ text) :
    sprintf (done ++ NUL :: buf.drop (done.length + 1)) p text
      = .ok (all ++ NUL :: buf.drop (all.length + 1), text.length) := by
  have hl : (done.take p.toNat ++ text).length = p.toNat + text.length := by
    rw [List.length_append, List.length_take]
    omega
  rw [sprintf_over buf done text p h0 h1 h2 h3, hall, hl]

/-- Lines 314-330 when the fields hold an artist and a title that are not empty. -/
theorem printTags_spec (b : TagBuffers) (artist title album date buf : List Char)
    (hA : b.artist = padded TAG_ARTIST_SIZE artist) (hT : b.title = padded TAG_TITLE_SIZE title)
    (hAl : b.album = padded TAG_ALBUM_SIZE album) (hD : b.date = padded TAG_DATE_SIZE date)
    (nA : NUL ∉ artist) (nT : NUL ∉ title) (nAl : NUL ∉ album) (nD : NUL ∉ date)
    (lA : artist.length ≤ 79) (lT : title.length ≤ 199) (lAl : album.length ≤ 79)
    (lD : date.length ≤ 15) (hartist : artist ≠ []) (htitle : title ≠ [])
    (hbuf : buf.length = NOW_PLAYING_STR_SIZE) :
    printTags b buf
        = .ok (nowPlaying artist title album date
            ++ NUL :: buf.drop ((nowPlaying artist title album date).length + 1)) ∧
      (nowPlaying artist title album date).length + 1 ≤ 381 := by
  have hN : NOW_PLAYING_STR_SIZE = 400 := rfl
  rw [hN] at hbuf
  unfold printTags nowPlaying
  obtain ⟨dash, hdash, s1⟩ : ∃ l, " - ".data = l ∧ l.length = 3 := ⟨_, rfl, rfl⟩
  obtain ⟨opening, hopening, s2⟩ : ∃ l, " (".data = l ∧ l.length = 2 := ⟨_, rfl, rfl⟩
  obtain ⟨closing, hclosing, s3⟩ : ∃ l, ")".data = l ∧ l.length = 1 := ⟨_, rfl, rfl⟩
  obtain ⟨comma, hcomma, s4⟩ : ∃ l, ", ".data = l ∧ l.length = 2 := ⟨_, rfl, rfl⟩
  rw [hdash, hopening, hclosing, hcomma]
  clear hdash hopening hclosing hcomma
  have hlen1 : (artist ++ dash ++ title).length = artist.length + 3 + title.length := by
    rw [List.length_append, List.length_append, s1]
  simp only
  rw [hA, hT, hAl, hD, cstr_padded _ _ nA, cstr_padded _ _ nT, cstr_padded _ _ nAl,
    cstr_padded _ _ nD]
  rw [if_pos ⟨(headD_padded _ _ nT).mpr htitle, (headD_padded _ _ nA).mpr hartist⟩]
  rw [sprintf_first _ _ (by rw [hlen1, hbuf]; omega)]
  simp only [Outcome.bind]
  by_cases halbum : album = []
  · rw [if_neg (fun h => (headD_padded _ _ nAl).mp h halbum)]
    simp only [Outcome.bind]
    by_cases hdate : date = []
    · rw [if_neg (fun h => (headD_padded _ _ nD).mp h hdate)]
      rw [if_neg (not_not.mpr halbum), if_neg (not_not.mpr hdate), List.append_nil]
      exact ⟨rfl, by rw [hlen1]; omega⟩
    · rw [if_pos ((headD_padded _ _ nD).mpr hdate)]
      rw [if_neg (fun h => (headD_padded _ _ nAl).mp h halbum)]
      rw [if_neg (not_not.mpr halbum), if_pos hdate]
      rw [sprintf_next buf (artist ++ dash ++ title) (opening ++ date ++ closing)
        (artist ++ dash ++ title ++ (opening ++ date ++ closing))
        _ (by omega) (by omega) (by omega)
        (by
          rw [hlen1, hbuf, List.length_append, List.length_append, s2, s3]
          push_cast
          omega)
        (by
          rw [List.take_of_length_le (by omega)])]
      simp only [Outcome.bind]
      refine ⟨trivial, ?_⟩
      rw [List.length_append, hlen1, List.length_append, List.length_append, s2, s3]
      omega
  · rw [if_pos ((headD_padded _ _ nAl).mpr halbum)]
    rw [sprintf_next buf (artist ++ dash ++ title) (opening ++ album ++ closing)
      (artist ++ dash ++ title ++ (opening ++ album ++ closing))
      _ (by omega) (by omega) (by omega)
      (by
        rw [hlen1, hbuf, List.length_append, List.length_append, s2, s3]
        push_cast
        omega)
      (by
        rw [List.take_of_length_le (by omega)])]
    simp only [Outcome.bind]
    by_cases hdate : date = []
    · rw [if_neg (fun h => (headD_padded _ _ nD).mp h hdate)]
      rw [if_pos halbum, if_neg (not_not.mpr hdate)]
      refine ⟨rfl, ?_⟩
      rw [List.length_append, hlen1, List.length_append, List.length_append, s2, s3]
      omega
    · rw [if_pos ((headD_padded _ _ nD).mpr hdate)]
      rw [if_pos ((headD_padded _ _ nAl).mpr halbum)]
      rw [if_pos halbum, if_pos hdate]
      have hlen2 : (artist ++ dash ++ title ++ (opening ++ album ++ closing)).length
          = artist.length + 3 + title.length + (2 + album.length + 1) := by
        rw [List.length_append, hlen1, List.length_append, List.length_append, s2, s3]
      have hlen3 : (opening ++ album ++ closing).length = 2 + album.length + 1 := by
        rw [List.length_append, List.length_append, s2, s3]
      have hlen4 : (comma ++ date ++ closing).length = 2 + date.length + 1 := by
        rw [List.length_append, List.length_append, s4, s3]
      have hlen5 : (artist ++ dash ++ title ++
          (opening ++ album ++ comma ++ date ++ closing)).length
          = artist.length + 3 + title.length + (2 + album.length + 2 + date.length + 1) := by
        rw [List.length_append, hlen1, List.length_append, List.length_append,
          List.length_append, List.length_append, s2, s3, s4]
      rw [sprintf_next buf (artist ++ dash ++ title ++ (opening ++ album ++ closing))
        (comma ++ date ++ closing)
        (artist ++ dash ++ title ++
          (opening ++ album ++ comma ++ date ++ closing))
        _ (by rw [hlen1, hlen3]; push_cast; omega)
        (by rw [hlen1, hlen2, hlen3]; push_cast; omega)
        (by rw [hlen1, hlen2, hlen3, hlen4]; push_cast; omega)
        (by rw [hlen1, hlen3, hlen4, hbuf]; push_cast; omega)
        (by
          have hp : ((0 : Int) + ((artist ++ dash ++ title).length : Int) +
              ((opening ++ album ++ closing).length : Int) - 1).toNat
              = (artist ++ dash ++ title ++ (opening ++ album)).length := by
            rw [hlen1, hlen3, List.length_append, hlen1, List.length_append, s2]
            omega
          rw [hp]
          have hsplit : artist ++ dash ++ title ++ (opening ++ album ++ closing)
              = (artist ++ dash ++ title ++ (opening ++ album)) ++ closing := by
            simp only [List.append_assoc]
          rw [hsplit, List.take_left]
          simp only [List.append_assoc])]
      simp only [Outcome.bind]
      refine ⟨trivial, ?_⟩
      rw [hlen5]
      omega

theorem length_nowPlayingBuffer (text : String)
    (h : text.data.length ≤ NOW_PLAYING_STR_SIZE) :
    (nowPlayingBuffer text).length = NOW_PLAYING_STR_SIZE := by
  unfold nowPlayingBuffer
  rw [List.length_append, List.length_replicate]
  have : text.length = text.data.length := rfl
  omega

theorem not_mem_nowPlaying (artist title album date : List Char) (nA : NUL ∉ artist)
    (nT : NUL ∉ title) (nAl : NUL ∉ album) (nD : NUL ∉ date) :
    NUL ∉ nowPlaying artist title album date := by
  have h1 : NUL ∉ " - ".data := by decide
  have h2 : NUL ∉ " (".data := by decide
  have h3 : NUL ∉ ")".data := by decide
  have h4 : NUL ∉ ", ".data := by decide
  unfold nowPlaying
  intro h
  rw [List.mem_append, List.mem_append, List.mem_append] at h
  rcases h with ((h | h) | h) | h
  · exact nA h
  · exact h1 h
  · exact nT h
  · split at h
    · split at h
      · rw [List.mem_append, List.mem_append, List.mem_append, List.mem_append] at h
        rcases h with (((h | h) | h) | h) | h
        · exact h2 h
        · exact nAl h
        · exact h4 h
        · exact nD h
        · exact h3 h
      · rw [List.mem_append, List.mem_append] at h
        rcases h with (h | h) | h
        · exact h2 h
        · exact nAl h
        · exact h3 h
    · split at h
      · rw [List.mem_append, List.mem_append] at h
        rcases h with (h | h) | h
        · exact h2 h
        · exact nD h
        · exact h3 h
      · exact List.not_mem_nil _ h

/-- C17, amended. For every tag set whose comments hold no `NUL` and whose accepted comments
have values of at most 198 characters, let the artist, title, album and date be the values of
the last accepted comments with the keys `Artist`, `Title`, `Album` and `Date` (empty when
there is none), cut to 79, 199, 79 and 15 characters. When the artist and the title are not
empty, `parseTags` returns with `nowPlayingStr` holding the C string `artist - title`,
followed by ` (album)`, by ` (date)` or by ` (album, date)` for an album and a date that are
not empty, and with the characters behind its terminator untouched. The string and its
terminator take at most 381 of the 400 characters. -/
theorem now_playing_text (keyJunk valueJunk : Nat → Char) (tags : List (List Char))
    (nowPlayingStr : List Char)
    (hbuf : nowPlayingStr.length = NOW_PLAYING_STR_SIZE)
    (hnul : ∀ c ∈ tags, NUL ∉ c)
    (hshort : ∀ c ∈ tags, Accepted c → (tagValue c).length ≤ 198)
    (hartist : lastValue "Artist" [] tags ≠ [])
    (htitle : lastValue "Title" [] tags ≠ []) :
    parseTags keyJunk valueJunk tags nowPlayingStr
        = .ok (tagText tags ++ NUL :: nowPlayingStr.drop ((tagText tags).length + 1)) ∧
      cstr (tagText tags ++ NUL :: nowPlayingStr.drop ((tagText tags).length + 1))
        = tagText tags ∧
      (tagText tags).length + 1 ≤ 381 ∧ 381 ≤ NOW_PLAYING_STR_SIZE := by
  obtain ⟨b, hloop, _, _, hA, hT, hAl, hD, nA, nT, nAl, nD⟩ :=
    tagLoop_spec tags (entryBuffers keyJunk valueJunk) [] [] [] []
      (holds_entry keyJunk valueJunk) hnul hshort
  have htake : ∀ (l : List Char) (n : Nat), l ≠ [] → l.take (n + 1) ≠ [] := by
    intro l n hl
    cases l with
    | nil => exact absurd rfl hl
    | cons x l => simp
  obtain ⟨hprint, hfit⟩ := printTags_spec b _ _ _ _ nowPlayingStr hA hT hAl hD
    (not_mem_take _ nA) (not_mem_take _ nT) (not_mem_take _ nAl) (not_mem_take _ nD)
    (by rw [List.length_take]; omega) (by rw [List.length_take]; omega)
    (by rw [List.length_take]; omega) (by rw [List.length_take]; omega)
    (htake _ 78 hartist) (htake _ 198 htitle) hbuf
  refine ⟨?_, ?_, hfit, by decide⟩
  · unfold parseTags
    rw [hloop]
    exact hprint
  · exact cstr_append_nul _ _ (not_mem_nowPlaying _ _ _ _ (not_mem_take _ nA)
      (not_mem_take _ nT) (not_mem_take _ nAl) (not_mem_take _ nD))

/-- Witness of `now_playing_text`: a tag set with an artist, a title, an album and a date. -/
theorem now_playing_text_witness :
    tagText ["Artist=A".data, "Title=T".data, "Album=Al".data, "Date=2001".data]
        = "A - T (Al, 2001)".data ∧
      parseTags (fun _ => 'k') (fun _ => 'v')
          ["Artist=A".data, "Title=T".data, "Album=Al".data, "Date=2001".data]
          (nowPlayingBuffer "song.opus")
        = .ok (tagText ["Artist=A".data, "Title=T".data, "Album=Al".data, "Date=2001".data]
            ++ NUL :: (nowPlayingBuffer "song.opus").drop
              ((tagText ["Artist=A".data, "Title=T".data, "Album=Al".data,
                "Date=2001".data]).length + 1)) ∧
      cstr (tagText ["Artist=A".data, "Title=T".data, "Album=Al".data, "Date=2001".data]
            ++ NUL :: (nowPlayingBuffer "song.opus").drop
              ((tagText ["Artist=A".data, "Title=T".data, "Album=Al".data,
                "Date=2001".data]).length + 1))
        = tagText ["Artist=A".data, "Title=T".data, "Album=Al".data, "Date=2001".data] ∧
      (tagText ["Artist=A".data, "Title=T".data, "Album=Al".data, "Date=2001".data]).length + 1
        ≤ 381 ∧ 381 ≤ NOW_PLAYING_STR_SIZE :=
  ⟨by decide,
    now_playing_text (fun _ => 'k') (fun _ => 'v')
      ["Artist=A".data, "Title=T".data, "Album=Al".data, "Date=2001".data]
      (nowPlayingBuffer "song.opus") (length_nowPlayingBuffer "song.opus" (by decide))
      (by decide) (by decide) (by decide) (by decide)⟩

set_option maxRecDepth 100000 in
/-- Counterexample to C17 as stated. The tag set `Artist=A`, `Title=T`, `Artist=` holds an
`Artist` and a `Title` comment with values that are not empty and pass the length checks, and
`parseTags` leaves the 400 characters of `nowPlayingStr`, here the file name `song.opus`, as
they were: the third comment empties the artist field, so nothing is printed. -/
theorem later_comment_empties_artist :
    Accepted "Artist=A".data ∧ tagValue "Artist=A".data = "A".data ∧
      Accepted "Title=T".data ∧ tagValue "Title=T".data = "T".data ∧
      parseTags (fun _ => 'k') (fun _ => 'v')
          ["Artist=A".data, "Title=T".data, "Artist=".data] (nowPlayingBuffer "song.opus")
        = .ok (nowPlayingBuffer "song.opus") ∧
      cstr (nowPlayingBuffer "song.opus") = "song.opus".data ∧
      "song.opus".data ≠ "A - T".data := by
  decide

end OpusPlayer
